import Mathlib

/-!
# svxlink `MsgHandler`: playback queue of announcement audio

A shallow embedding of `src/svxlink/svxlink/MsgHandler.cpp`.

* C `int` values are Lean `Int`s; every arithmetic result stored in an `int`
  is passed through `wrapInt` (two's-complement wrap to 32 bits).
* A `float` sample is kept symbolic (`Sample`): the zero written by `memset`,
  the tone expression `amp / 1000.0 * sin(2 * M_PI * fq * pos / sample_rate)`
  identified by the four integers it is computed from, or a file sample
  `v / 32768.0` identified by the 16-bit value `v`.
* The pure virtual `writeAudio`, the notification `allMsgsWritten` and the
  file system are the environment.  `writeAudio` is an arbitrary function of
  everything observed so far and of the offered block; every call that leaves
  the handler is appended to the observation log `MsgHandler.log`.
* `playMsg` and `writeSamples` call each other and `writeSamples` loops, so
  they take a step budget; running out of it is the result `Fault.fuel`.
-/

namespace Svx

/-! ## Machine integers, samples, results -/

/-- Value of a C `int` expression after wrap-around to 32 bits. -/
def wrapInt (x : Int) : Int := (x + 2147483648) % 4294967296 - 2147483648

/-- `#define WRITE_BLOCK_SIZE 4*160`, the number of floats in `buf`. -/
def WRITE_BLOCK_SIZE : Int := 4 * 160

/-- One `float` sample, kept symbolic. -/
inductive Sample where
  | zero
  | tone (amp fq pos sample_rate : Int)
  | pcm (v : Int)
  deriving DecidableEq, Repr

/-- Ways in which a run does not return normally. -/
inductive Fault where
  /-- an `assert` failed -/
  | assertion
  /-- undefined memory access (`memset` with a negative count, `front()` of an empty list) -/
  | memory
  /-- the step budget of the model ran out -/
  | fuel
  deriving DecidableEq, Repr

/-- Result of running a piece of code. -/
inductive Result (α : Type) where
  | ok (a : α)
  | fault (f : Fault)
  deriving DecidableEq, Repr

/-! ## Queue items -/

/-- Fields of `class SilenceQueueItem`. -/
structure SilenceQueueItem where
  len : Int
  silence_left : Int
  deriving DecidableEq, Repr

/-- Fields of `class ToneQueueItem`. -/
structure ToneQueueItem where
  fq : Int
  amp : Int
  tone_len : Int
  pos : Int
  sample_rate : Int
  deriving DecidableEq, Repr

/-- Fields of `class FileQueueItem`; `offset` is the position (in samples) that
the kernel keeps for the open descriptor. -/
structure FileQueueItem where
  filename : String
  file : Int
  offset : Int
  deriving DecidableEq, Repr

/-- The file system seen by `FileQueueItem`: the descriptor `::open` returns
(`-1` on failure) and the 16-bit samples a file holds. -/
structure FileSystem where
  openFile : String → Int
  content : String → List Int

/-- Constructor `SilenceQueueItem(len, sample_rate)`:
`silence_left(sample_rate * len / 1000)`. -/
def SilenceQueueItem.new (len sample_rate : Int) : SilenceQueueItem :=
  { len := len, silence_left := wrapInt (Int.tdiv (wrapInt (sample_rate * len)) 1000) }

/-- Constructor `ToneQueueItem(fq, amp, len, sample_rate)`. -/
def ToneQueueItem.new (fq amp len sample_rate : Int) : ToneQueueItem :=
  { fq := fq, amp := amp, tone_len := wrapInt (Int.tdiv (wrapInt (sample_rate * len)) 1000),
    pos := 0, sample_rate := sample_rate }

/-- Constructor `FileQueueItem(filename)`: `file(-1)`. -/
def FileQueueItem.new (filename : String) : FileQueueItem :=
  { filename := filename, file := -1, offset := 0 }

/-- `SilenceQueueItem::readSamples`: the new item, the samples stored at the
front of the buffer and the returned count. -/
def SilenceQueueItem.readSamples (it : SilenceQueueItem) (len : Int) :
    Result (SilenceQueueItem × List Sample × Int) :=
  if it.silence_left = -1 then .fault .assertion
  else
    let read_cnt := min len it.silence_left
    if read_cnt < 0 then .fault .memory
    else
      let samples := List.replicate read_cnt.toNat Sample.zero
      if it.silence_left = 0 then
        .ok ({ it with silence_left := -1 }, samples, read_cnt)
      else
        .ok ({ it with silence_left := wrapInt (it.silence_left - read_cnt) }, samples, read_cnt)

/-- `SilenceQueueItem::unreadSamples`. -/
def SilenceQueueItem.unreadSamples (it : SilenceQueueItem) (len : Int) : SilenceQueueItem :=
  { it with silence_left := wrapInt (it.silence_left + len) }

/-- The `for` loop of `ToneQueueItem::readSamples`, run for `n` iterations. -/
def ToneQueueItem.fill (it : ToneQueueItem) : Nat → ToneQueueItem × List Sample
  | 0 => (it, [])
  | n + 1 =>
    let r := ToneQueueItem.fill { it with pos := wrapInt (it.pos + 1) } n
    (r.1, Sample.tone it.amp it.fq it.pos it.sample_rate :: r.2)

/-- `ToneQueueItem::readSamples`. -/
def ToneQueueItem.readSamples (it : ToneQueueItem) (len : Int) :
    Result (ToneQueueItem × List Sample × Int) :=
  let read_cnt := min len (wrapInt (it.tone_len - it.pos))
  let r := it.fill read_cnt.toNat
  .ok (r.1, r.2, read_cnt)

/-- `ToneQueueItem::unreadSamples`. -/
def ToneQueueItem.unreadSamples (it : ToneQueueItem) (len : Int) : ToneQueueItem :=
  { it with pos := wrapInt (it.pos - len) }

/-- `FileQueueItem::initialize`: the returned flag and the new item. -/
def FileQueueItem.initialize (fs : FileSystem) (it : FileQueueItem) : Bool × FileQueueItem :=
  if it.file = -1 then
    let fd := fs.openFile it.filename
    if fd = -1 then (false, { it with file := fd })
    else (true, { it with file := fd, offset := 0 })
  else (true, it)

/-- `FileQueueItem::readSamples`; `read` on an open descriptor is taken to
succeed and to return whole samples. -/
def FileQueueItem.readSamples (fs : FileSystem) (it : FileQueueItem) (len : Int) :
    Result (FileQueueItem × List Sample × Int) :=
  if it.file = -1 then .fault .assertion
  else
    let data := ((fs.content it.filename).drop it.offset.toNat).take len.toNat
    .ok ({ it with offset := it.offset + data.length }, data.map Sample.pcm, data.length)

/-- `FileQueueItem::unreadSamples`: `lseek` backwards; when it fails the
position stays. -/
def FileQueueItem.unreadSamples (it : FileQueueItem) (len : Int) : FileQueueItem :=
  if it.file = -1 ∨ it.offset - len < 0 then it
  else { it with offset := it.offset - len }

/-- A `QueueItem*` with its dynamic type. -/
inductive QueueItem where
  | silence (i : SilenceQueueItem)
  | tone (i : ToneQueueItem)
  | file (i : FileQueueItem)
  deriving DecidableEq, Repr

/-- Virtual `initialize`: the base class returns `true`. -/
def QueueItem.initialize (fs : FileSystem) : QueueItem → Bool × QueueItem
  | .silence i => (true, .silence i)
  | .tone i => (true, .tone i)
  | .file i =>
    match FileQueueItem.initialize fs i with
    | (b, j) => (b, .file j)

/-- Virtual `readSamples`. -/
def QueueItem.readSamples (fs : FileSystem) (it : QueueItem) (len : Int) :
    Result (QueueItem × List Sample × Int) :=
  match it with
  | .silence i =>
    match i.readSamples len with
    | .ok (j, buf, n) => .ok (.silence j, buf, n)
    | .fault f => .fault f
  | .tone i =>
    match i.readSamples len with
    | .ok (j, buf, n) => .ok (.tone j, buf, n)
    | .fault f => .fault f
  | .file i =>
    match i.readSamples fs len with
    | .ok (j, buf, n) => .ok (.file j, buf, n)
    | .fault f => .fault f

/-- Virtual `unreadSamples`. -/
def QueueItem.unreadSamples (it : QueueItem) (len : Int) : QueueItem :=
  match it with
  | .silence i => .silence (i.unreadSamples len)
  | .tone i => .tone (i.unreadSamples len)
  | .file i => .file (i.unreadSamples len)

/-! ## The handler -/

/-- A call that leaves `MsgHandler`, or an operation on a queued item, as
recorded in the observation log. -/
inductive Event where
  /-- `writeAudio(buf, count)` was called with `buf[0..count)` = `samples`
  and returned `ret` -/
  | writeAudio (samples : List Sample) (count : Int) (ret : Int)
  /-- `allMsgsWritten()` -/
  | allMsgsWritten
  /-- `item->unreadSamples(len)` on the queue head -/
  | unreadSamples (len : Int)
  /-- `delete item`, with the state the item was in -/
  | deleteItem (item : QueueItem)
  deriving DecidableEq, Repr

/-- The audio sink behind `writeAudio`: what it returns, depending on what
has been observed so far, on the offered samples and on the count. -/
abbrev Sink := List Event → List Sample → Int → Int

/-- Environment of a handler. -/
structure Env where
  fs : FileSystem
  writeAudio : Sink

/-- Fields of `class MsgHandler` and the observation log. -/
structure MsgHandler where
  sample_rate : Int
  nesting_level : Int
  pending_play_next : Bool
  msg_queue : List QueueItem
  log : List Event
  deriving DecidableEq, Repr

/-- Constructor `MsgHandler(sample_rate)`. -/
def MsgHandler.new (sample_rate : Int) : MsgHandler :=
  { sample_rate := sample_rate, nesting_level := 0, pending_play_next := false,
    msg_queue := [], log := [] }

/-- Append an observation to the log. -/
def MsgHandler.emit (s : MsgHandler) (e : Event) : MsgHandler :=
  { s with log := s.log ++ [e] }

mutual
/-- `MsgHandler::playMsg`. -/
def playMsg (env : Env) : Nat → MsgHandler → Result MsgHandler
  | 0, _ => .fault .fuel
  | fuel + 1, s =>
    if 0 < s.nesting_level then
      .ok { s with pending_play_next := true }
    else
      match s.msg_queue with
      | [] => .ok (s.emit .allMsgsWritten)
      | item :: rest =>
        match QueueItem.initialize env.fs item with
        | (false, item1) =>
          playMsg env fuel
            (MsgHandler.emit { s with msg_queue := rest } (.deleteItem item1))
        | (true, item1) =>
          writeSamples env fuel { s with msg_queue := item1 :: rest }
/-- `MsgHandler::writeSamples`, from the head of the `do ... while` loop: the
loop's next iteration is the recursive call, which finds the same item at the
front of the queue. -/
def writeSamples (env : Env) : Nat → MsgHandler → Result MsgHandler
  | 0, _ => .fault .fuel
  | fuel + 1, s =>
    match s.msg_queue with
    | [] => .fault .memory
    | item :: rest =>
      match item.readSamples env.fs WRITE_BLOCK_SIZE with
      | .fault f => .fault f
      | .ok (item1, buf, read_cnt) =>
        if read_cnt = 0 then
          playMsg env fuel
            (MsgHandler.emit { s with msg_queue := rest } (.deleteItem item1))
        else
          let written := env.writeAudio s.log buf read_cnt
          let s1 := MsgHandler.emit { s with msg_queue := item1 :: rest }
            (.writeAudio buf read_cnt written)
          if written = -1 then
            playMsg env fuel
              (MsgHandler.emit { s1 with msg_queue := rest } (.deleteItem item1))
          else if written = read_cnt then
            writeSamples env fuel s1
          else
            .ok (MsgHandler.emit
              { s1 with msg_queue := item1.unreadSamples (wrapInt (read_cnt - written)) :: rest }
              (.unreadSamples (wrapInt (read_cnt - written))))
end

/-- `MsgHandler::addItemToQueue`. -/
def addItemToQueue (env : Env) (fuel : Nat) (item : QueueItem) (s : MsgHandler) :
    Result MsgHandler :=
  let s1 := { s with msg_queue := s.msg_queue ++ [item] }
  if s1.msg_queue.length = 1 then playMsg env fuel s1 else .ok s1

/-- `MsgHandler::playFile`. -/
def playFile (env : Env) (fuel : Nat) (path : String) (s : MsgHandler) : Result MsgHandler :=
  addItemToQueue env fuel (.file (FileQueueItem.new path)) s

/-- `MsgHandler::playSilence`. -/
def playSilence (env : Env) (fuel : Nat) (length : Int) (s : MsgHandler) : Result MsgHandler :=
  addItemToQueue env fuel (.silence (SilenceQueueItem.new length s.sample_rate)) s

/-- `MsgHandler::playTone`. -/
def playTone (env : Env) (fuel : Nat) (fq amp length : Int) (s : MsgHandler) :
    Result MsgHandler :=
  addItemToQueue env fuel (.tone (ToneQueueItem.new fq amp length s.sample_rate)) s

/-- `MsgHandler::writeBufferFull`. -/
def writeBufferFull (env : Env) (fuel : Nat) (is_full : Bool) (s : MsgHandler) :
    Result MsgHandler :=
  if !is_full && !s.msg_queue.isEmpty then playMsg env fuel s else .ok s

/-- `MsgHandler::clear`: every item is deleted, the list is emptied, then
`allMsgsWritten()`. -/
def clear (s : MsgHandler) : MsgHandler :=
  MsgHandler.emit
    { s with msg_queue := [], log := s.log ++ s.msg_queue.map Event.deleteItem }
    .allMsgsWritten

/-- `MsgHandler::begin`. -/
def begin (s : MsgHandler) : MsgHandler :=
  let s1 := if s.nesting_level = 0 then { s with pending_play_next := false } else s
  { s1 with nesting_level := wrapInt (s1.nesting_level + 1) }

/-- `MsgHandler::end`. -/
def end_ (env : Env) (fuel : Nat) (s : MsgHandler) : Result MsgHandler :=
  if ¬ 0 < s.nesting_level then .fault .assertion
  else
    let s1 := { s with nesting_level := wrapInt (s.nesting_level - 1) }
    if s1.nesting_level = 0 then
      if s1.pending_play_next then
        playMsg env fuel { s1 with pending_play_next := false }
      else .ok s1
    else .ok s1

/-- A call of a public member function. -/
inductive Call where
  | playFile (path : String)
  | playSilence (length : Int)
  | playTone (fq amp length : Int)
  | writeBufferFull (is_full : Bool)
  | clear
  | begin
  | end_
  deriving DecidableEq, Repr

/-- Run one public call. -/
def call (env : Env) (fuel : Nat) (c : Call) (s : MsgHandler) : Result MsgHandler :=
  match c with
  | .playFile path => playFile env fuel path s
  | .playSilence length => playSilence env fuel length s
  | .playTone fq amp length => playTone env fuel fq amp length s
  | .writeBufferFull is_full => writeBufferFull env fuel is_full s
  | .clear => .ok (clear s)
  | .begin => .ok (begin s)
  | .end_ => end_ env fuel s

/-- Run a sequence of public calls, each with the step budget `fuel`; a fault
ends the run. -/
def runCalls (env : Env) (fuel : Nat) : List Call → MsgHandler → Result MsgHandler
  | [], s => .ok s
  | c :: cs, s =>
    match call env fuel c s with
    | .ok s1 => runCalls env fuel cs s1
    | .fault f => .fault f

/-! ## Observations -/

/-- The samples a `writeAudio` call took: the first `ret` of those offered. -/
def Event.accepted : Event → List Sample
  | .writeAudio samples _ ret => samples.take ret.toNat
  | _ => []

/-- All samples the sink has accepted, in order. -/
def delivered (log : List Event) : List Sample :=
  (log.map Event.accepted).flatten

/-- The samples offered to `writeAudio`, call by call. -/
def Event.offered : Event → List Sample
  | .writeAudio samples _ _ => samples
  | _ => []

/-- Is the event a `writeAudio` call. -/
def Event.isWrite : Event → Bool
  | .writeAudio _ _ _ => true
  | _ => false

/-- The `writeAudio` calls of a log. -/
def writeCalls (log : List Event) : List Event := log.filter Event.isWrite

/-! ## Reference notions used to state the properties -/

/-- The value fits a C `int`. -/
def IsInt (x : Int) : Prop := -2147483648 ≤ x ∧ x ≤ 2147483647

instance (x : Int) : Decidable (IsInt x) := by unfold IsInt; infer_instance

/-- The tone samples of positions `p, p+1, ..., p+n-1`. -/
def ToneQueueItem.samplesFrom (it : ToneQueueItem) (p : Int) : Nat → List Sample
  | 0 => []
  | n + 1 => Sample.tone it.amp it.fq p it.sample_rate :: ToneQueueItem.samplesFrom it (p + 1) n

/-- Number of samples an item still has to give: `silence_left`, resp.
`tone_len - pos`. -/
def QueueItem.remaining : QueueItem → Int
  | .silence i => i.silence_left
  | .tone i => i.tone_len - i.pos
  | .file _ => 0

/-- The sample sequence an item still has to give. -/
def QueueItem.pendingSamples : QueueItem → List Sample
  | .silence i => List.replicate i.silence_left.toNat Sample.zero
  | .tone i => i.samplesFrom i.pos (i.tone_len - i.pos).toNat
  | .file _ => []

/-- A Silence or Tone item whose counters are C `int`s and whose remaining
count is a non-negative C `int`. -/
def QueueItem.Generated : QueueItem → Prop
  | .silence i => 0 ≤ i.silence_left ∧ i.silence_left ≤ 2147483647
  | .tone i => IsInt i.pos ∧ IsInt i.tone_len ∧ 0 ≤ i.tone_len - i.pos ∧
      i.tone_len - i.pos ≤ 2147483647
  | .file _ => False

instance (it : QueueItem) : Decidable it.Generated := by
  cases it <;> unfold QueueItem.Generated <;> infer_instance

/-- The item after `m` more of its samples have been consumed. -/
def QueueItem.advance : QueueItem → Int → QueueItem
  | .silence i, m => .silence { i with silence_left := i.silence_left - m }
  | .tone i, m => .tone { i with pos := i.pos + m }
  | .file i, m => .file { i with offset := i.offset + m }

/-- A Silence item that `readSamples` has marked as exhausted
(`silence_left = -1`); other items are left as they are. -/
def QueueItem.markExhausted : QueueItem → QueueItem
  | .silence i => .silence { i with silence_left := -1 }
  | it => it

/-- A file system without any file: every `open` fails. -/
def noFiles : FileSystem := { openFile := fun _ => -1, content := fun _ => [] }

/-- The item is not a Silence item that has run out (`silence_left = 0`), the
state in which the next `readSamples` stores the mark `-1`. -/
def QueueItem.NotRunOut : QueueItem → Prop
  | .silence i => i.silence_left ≠ 0
  | _ => True

instance (it : QueueItem) : Decidable it.NotRunOut := by
  cases it <;> unfold QueueItem.NotRunOut <;> infer_instance

/-- What the log gained, over a run of public calls, in the calls that were
entered with `nesting_level > 0`, the `end()` that brings the level from 1 to 0
excepted. -/
def nestedLog (env : Env) (fuel : Nat) : List Call → MsgHandler → List Event
  | [], _ => []
  | c :: cs, s =>
    match call env fuel c s with
    | .ok s1 =>
      (if 0 < s.nesting_level ∧ ¬ (c = Call.end_ ∧ s.nesting_level = 1) then
        s1.log.drop s.log.length else []) ++ nestedLog env fuel cs s1
    | .fault _ => []

/-- The item a call of `playFile`, `playSilence` or `playTone` constructs on
a handler with the given `sample_rate`. -/
def Call.newItem (sample_rate : Int) : Call → Option QueueItem
  | .playFile path => some (.file (FileQueueItem.new path))
  | .playSilence length => some (.silence (SilenceQueueItem.new length sample_rate))
  | .playTone fq amp length => some (.tone (ToneQueueItem.new fq amp length sample_rate))
  | _ => none

/-- A sink that takes every offered block whole. -/
def acceptAll : Sink := fun _ _ count => count

/-- An environment without files whose sink takes everything. -/
def quietEnv : Env := { fs := noFiles, writeAudio := acceptAll }

/-- The samples offered to `writeAudio` over a log, in order. -/
def offeredStream (log : List Event) : List Sample :=
  (log.map Event.offered).flatten

/-- The sample sequences the queued items still have to give, in queue order. -/
def pendingQueue (q : List QueueItem) : List Sample :=
  (q.map QueueItem.pendingSamples).flatten

/-- A step budget that suffices for `playMsg` to play a queue out: per item
one step for `playMsg`, one per remaining sample and one for the read that
returns 0; one step for the empty queue. -/
def queueCost : List QueueItem → Nat
  | [] => 1
  | it :: q => it.remaining.toNat + 2 + queueCost q

/-- From the log `base` on, the sink takes every offered block whole. -/
def AcceptsAllFrom (env : Env) (base : List Event) : Prop :=
  ∀ log buf count, base <+: log → env.writeAudio log buf count = count

/-- The events `evs` play the queue `q` out: what is offered and what is
accepted is the pending sample sequence of `q`, nothing is pushed back and
`allMsgsWritten` is not among them. -/
def PlayedOut (evs : List Event) (q : List QueueItem) : Prop :=
  offeredStream evs = pendingQueue q ∧ delivered evs = pendingQueue q ∧
    Event.allMsgsWritten ∉ evs ∧ ∀ n, Event.unreadSamples n ∉ evs

/-- A sink that fails (`-1`) on the very first `writeAudio` call and takes
everything afterwards. -/
def failFirst : Sink := fun log _ count => if log = [] then -1 else count

/-- On every write the sink takes between 0 and the offered number of
samples. -/
def InRange (env : Env) : Prop :=
  ∀ log buf count, 0 ≤ count →
    0 ≤ env.writeAudio log buf count ∧ env.writeAudio log buf count ≤ count

/-- In the events of one call, a `writeAudio` that took fewer samples than
offered is followed by `unreadSamples(count - ret)` on the head item and by
nothing else. -/
def StopsAfterShortWrite (evs : List Event) : Prop :=
  ∀ pre post buf count ret, evs = pre ++ Event.writeAudio buf count ret :: post →
    ret ≠ count → post = [Event.unreadSamples (count - ret)]

/-- The events `evs` take the queue from `q0` to `q` without losing or
repeating a sample: what was accepted, followed by what is still pending, is
what was pending before. -/
def Conserved (q0 q : List QueueItem) (evs : List Event) : Prop :=
  (∀ it ∈ q, it.Generated) ∧ delivered evs ++ pendingQueue q = pendingQueue q0 ∧
    queueCost q ≤ queueCost q0 ∧ q.length ≤ q0.length

/-- A sink that takes half of each offered block, rounded down. -/
def halfFloor : Sink := fun _ _ count => count / 2

/-- A sink that takes half of each offered block, rounded up. -/
def halfCeil : Sink := fun _ _ count => (count + 1) / 2

/-- The events of one `writeBufferFull(false)` on a sink that takes half of each
block, rounded up: a block of two or more samples is written, half of it is
taken and `unreadSamples` is called with the other half; or the last single
sample is written and taken, the item deleted and `allMsgsWritten` emitted; or
an item without samples is deleted and `allMsgsWritten` emitted. -/
def HalfPass (seg : List Event) : Prop :=
  (∃ buf count, 2 ≤ count ∧
    seg = [.writeAudio buf count ((count + 1) / 2), .unreadSamples (count / 2)]) ∨
  (∃ buf it, seg = [.writeAudio buf 1 1, .deleteItem it, .allMsgsWritten]) ∨
  (∃ it, seg = [.deleteItem it, .allMsgsWritten])

/-- Every event is a `writeAudio` call of a non-empty block that was taken
whole. -/
def FullWrites (ws : List Event) : Prop :=
  ∀ e ∈ ws, ∃ buf count, e = Event.writeAudio buf count count ∧ 0 < count

/-- The events `seg` play the item `it` out: blocks taken whole that carry the
item's pending samples, then, the next read having returned 0, the deletion of
the item in its exhausted state. -/
def ItemPlayed (it : QueueItem) (seg : List Event) : Prop :=
  ∃ ws, seg = ws ++ [Event.deleteItem (it.advance it.remaining).markExhausted] ∧
    FullWrites ws ∧ offeredStream ws = it.pendingSamples ∧ delivered ws = it.pendingSamples

/-- A properly nested sequence of `begin()` / `end()` calls, read from nesting
depth `d`: no `end()` at depth 0, depth 0 at the end, no other call. -/
def balancedFrom : Nat → List Call → Bool
  | d, [] => d == 0
  | d, .begin :: cs => balancedFrom (d + 1) cs
  | d, .end_ :: cs => decide (0 < d) && balancedFrom (d - 1) cs
  | _, _ :: _ => false

/-- What a call adds to the nesting counter. -/
def Call.depthChange : Call → Int
  | .begin => 1
  | .end_ => -1
  | _ => 0

/-- The `begin()` calls minus the `end()` calls of a sequence. -/
def netDepth (cs : List Call) : Int := (cs.map Call.depthChange).sum

/-- Repeated `readSamples(len)` calls on an item until a read returns 0, at
most `fuel` reads: all the samples read, or `none` when a read does not return
or no read has returned 0 within `fuel` reads. -/
def readAll (fs : FileSystem) (len : Int) : Nat → QueueItem → Option (List Sample)
  | 0, _ => none
  | fuel + 1, it =>
    match it.readSamples fs len with
    | .ok (it1, buf, n) =>
      if n = 0 then some [] else (readAll fs len fuel it1).map fun l => buf ++ l
    | .fault _ => none

/-- On every write the sink returns `-1` or takes between 0 and the offered
number of samples. -/
def ErrRange (env : Env) : Prop :=
  ∀ log buf count, 0 ≤ count →
    -1 ≤ env.writeAudio log buf count ∧ env.writeAudio log buf count ≤ count

/-- The queue `q` holds Silence and Tone items with non-negative counts only
and needs no larger step budget than `q0`. -/
def Settled (q0 q : List QueueItem) : Prop :=
  (∀ it ∈ q, it.Generated) ∧ queueCost q ≤ queueCost q0

/-- The call enqueues nothing, or a Silence or Tone item with a non-negative
sample count. -/
def Call.Synth (sample_rate : Int) (c : Call) : Bool :=
  match c.newItem sample_rate with
  | some it => decide it.Generated
  | none => true

/-- The nesting level a call leaves behind when it is entered at level `d`. -/
def Call.levelAfter (d : Int) : Call → Int
  | .begin => wrapInt (d + 1)
  | .end_ => wrapInt (d - 1)
  | _ => d

/-- Every `end()` of the sequence is called at a nesting level above 0, the
sequence being entered at level `d`. -/
def endsGuardedFrom : Int → List Call → Bool
  | _, [] => true
  | d, c :: cs => (decide (c ≠ Call.end_) || decide (0 < d)) && endsGuardedFrom (c.levelAfter d) cs

/-- A sink that takes everything on the first call, fails on the second, and
takes half afterwards. -/
def moodySink : Sink := fun log _ count =>
  if log = [] then count else if log.length = 1 then -1 else count / 2

/-- A Silence item holds a non-negative C `int` count; Tone and File items are
unconstrained. -/
def QueueItem.CountOk : QueueItem → Prop
  | .silence i => 0 ≤ i.silence_left ∧ i.silence_left ≤ 2147483647
  | _ => True

instance (it : QueueItem) : Decidable it.CountOk := by
  cases it <;> unfold QueueItem.CountOk <;> infer_instance

/-- A File item has its descriptor open (`file != -1`). -/
def QueueItem.IsOpen : QueueItem → Prop
  | .file j => j.file ≠ -1
  | _ => True

/-- A call of `playSilence` constructs an item with a non-negative count; any
other call is unconstrained. -/
def Call.SilenceCountOk (sample_rate : Int) : Call → Bool
  | .playSilence length => decide (0 ≤ (SilenceQueueItem.new length sample_rate).silence_left)
  | _ => true

/-- The run did not stop at an assertion or at a memory fault, and if it
returned, every Silence item left in the queue holds a non-negative count. -/
def SafeResult : Result MsgHandler → Prop
  | .ok s => ∀ it ∈ s.msg_queue, it.CountOk
  | .fault f => f = .fuel

/-- A file system with one file, `hello.raw`, of three samples. -/
def oneFile : FileSystem :=
  { openFile := fun name => if name = "hello.raw" then 3 else -1,
    content := fun name => if name = "hello.raw" then [100, -200, 300] else [] }

/-! ## ModuleEchoLink: admission and talker arbitration

`ModuleEchoLink.h` declares the fields `qsos`, `max_connections`, `max_qsos`
and `talker` and the member functions; their bodies (`ModuleEchoLink.cpp`) and
`QsoImpl` are not part of the sources at hand and are modelled from the
specification. -/

/-- Modelled from the spec: the connection states of a session (`QsoImpl`,
whose header is missing): `Connecting` (pending), `Idle-connected`, `Talking`,
`Disconnecting`. -/
inductive QsoState where
  | connecting
  | connected
  | talking
  | disconnecting
  deriving DecidableEq, Repr

/-- Modelled from the spec: a session (`QsoImpl`, whose header is missing),
known by the callsign of its peer, with its connection state. -/
structure QsoImpl where
  callsign : String
  state : QsoState
  deriving DecidableEq, Repr

/-- Fields of `class ModuleEchoLink` used by admission and talker arbitration;
`talker` is `none` for the null pointer. -/
structure ModuleEchoLink where
  qsos : List QsoImpl
  max_connections : Nat
  max_qsos : Nat
  talker : Option String
  deriving DecidableEq, Repr

/-- Modelled from the spec: `ModuleEchoLink::numConnectedStations` (body
missing), the number of fully connected sessions (`Idle-connected` or
`Talking`). -/
def numConnectedStations (m : ModuleEchoLink) : Nat :=
  (m.qsos.filter fun q => q.state = .connected ∨ q.state = .talking).length

/-- Modelled from the spec: `ModuleEchoLink::onIncomingConnection` (body
missing).  A request is accepted only if the sessions, pending ones included,
are fewer than `max_connections`, the connected sessions are fewer than
`max_qsos`, and the peer address passes the allow-list filter `allow`; an
accepted session is registered last, in state `Connecting`, or `Idle-connected`
when `auto_accept`; a rejected request creates no session.  Returns the module
and whether the request was accepted. -/
def onIncomingConnection (allow : String → Bool) (auto_accept : Bool)
    (ip callsign _name : String) (m : ModuleEchoLink) : ModuleEchoLink × Bool :=
  if m.qsos.length < m.max_connections ∧ numConnectedStations m < m.max_qsos ∧ allow ip = true
  then
    ({ m with qsos := m.qsos ++
        [{ callsign := callsign,
           state := if auto_accept then .connected else .connecting }] }, true)
  else (m, false)

/-- Give every session of the callsign `c` the state `st`. -/
def setState (c : String) (st : QsoState) (qsos : List QsoImpl) : List QsoImpl :=
  qsos.map fun q => if q.callsign = c then { q with state := st } else q

/-- Is there a session of the callsign `c` in state `st`. -/
def hasState (c : String) (st : QsoState) (qsos : List QsoImpl) : Bool :=
  qsos.any fun q => q.callsign = c && q.state = st

/-- Modelled from the spec: `ModuleEchoLink::findFirstTalker` (body missing):
the first session in registration order that is `Talking`, if any. -/
def findFirstTalker (m : ModuleEchoLink) : Option String :=
  (m.qsos.find? fun q => q.state = .talking).map QsoImpl.callsign

/-- Modelled from the spec: `ModuleEchoLink::onIsReceiving` (body missing),
together with the session transition that raises the notification.
`is_receiving = true` comes from a session going `Idle-connected → Talking`;
it becomes the talker if there is none.  `is_receiving = false` comes from a
session going `Talking → Idle-connected`; if it was the talker, all sessions are
scanned again for the next `Talking` one, else `talker` is cleared.  A
notification that fits no such transition changes nothing. -/
def onIsReceiving (is_receiving : Bool) (qso : String) (m : ModuleEchoLink) : ModuleEchoLink :=
  if is_receiving then
    if hasState qso .connected m.qsos then
      let m1 := { m with qsos := setState qso .talking m.qsos }
      if m1.talker = none then { m1 with talker := some qso } else m1
    else m
  else
    if hasState qso .talking m.qsos then
      let m1 := { m with qsos := setState qso .connected m.qsos }
      if m1.talker = some qso then { m1 with talker := findFirstTalker m1 } else m1
    else m

/-- Deliver a sequence of `onIsReceiving` notifications. -/
def runReceiving : List (Bool × String) → ModuleEchoLink → ModuleEchoLink
  | [], m => m
  | (b, q) :: evs, m => runReceiving evs (onIsReceiving b q m)

/-- Some session of the callsign `c` is `Talking`. -/
def TalkingIn (qsos : List QsoImpl) (c : String) : Prop :=
  ∃ q ∈ qsos, q.callsign = c ∧ q.state = .talking

/-- The talker, if any, is a `Talking` session, and there is a talker whenever
some session is `Talking`. -/
def TalkerInv (m : ModuleEchoLink) : Prop :=
  (∀ t, m.talker = some t → TalkingIn m.qsos t) ∧
  (m.talker = none → ∀ c, ¬ TalkingIn m.qsos c)

/-! ## Arithmetic and item lemmas -/

theorem wrapInt_eq {x : Int} (h : IsInt x) : wrapInt x = x := by
  unfold IsInt at h; unfold wrapInt; omega

theorem wrapInt_isInt (x : Int) : IsInt (wrapInt x) := by
  unfold IsInt wrapInt; omega

theorem samplesFrom_length (it : ToneQueueItem) (n : Nat) :
    ∀ p : Int, (it.samplesFrom p n).length = n := by
  induction n with
  | zero => intro p; rfl
  | succ n ih => intro p; simp [ToneQueueItem.samplesFrom, ih]

theorem samplesFrom_add (it : ToneQueueItem) (a b : Nat) :
    ∀ p : Int, it.samplesFrom p (a + b) = it.samplesFrom p a ++ it.samplesFrom (p + a) b := by
  induction a with
  | zero => intro p; simp [ToneQueueItem.samplesFrom]
  | succ a ih =>
    intro p
    have h : a + 1 + b = (a + b) + 1 := by omega
    rw [h]
    simp only [ToneQueueItem.samplesFrom, ih, List.cons_append]
    have h2 : p + 1 + (a : Int) = p + ((a + 1 : Nat) : Int) := by push_cast; ring
    rw [h2]

theorem samplesFrom_congr (it jt : ToneQueueItem) (h1 : it.amp = jt.amp) (h2 : it.fq = jt.fq)
    (h3 : it.sample_rate = jt.sample_rate) (n : Nat) :
    ∀ p : Int, it.samplesFrom p n = jt.samplesFrom p n := by
  induction n with
  | zero => intro p; rfl
  | succ n ih => intro p; simp [ToneQueueItem.samplesFrom, ih, h1, h2, h3]

theorem fill_eq (n : Nat) : ∀ it : ToneQueueItem, -2147483648 ≤ it.pos →
    it.pos + n ≤ 2147483647 →
    it.fill n = ({ it with pos := it.pos + n }, it.samplesFrom it.pos n) := by
  induction n with
  | zero => intro it _ _; simp [ToneQueueItem.fill, ToneQueueItem.samplesFrom]
  | succ n ih =>
    intro it h1 h2
    push_cast at h2
    have hw : wrapInt (it.pos + 1) = it.pos + 1 := by
      apply wrapInt_eq; unfold IsInt; omega
    have h3 := ih { it with pos := it.pos + 1 } (by simp only; omega) (by simp only; omega)
    simp only [ToneQueueItem.fill, hw, h3, ToneQueueItem.samplesFrom]
    have e : it.pos + 1 + (n : Int) = it.pos + ((n + 1 : Nat) : Int) := by push_cast; ring
    rw [e]
    congr 1
    congr 1
    exact samplesFrom_congr { it with pos := it.pos + 1 } it rfl rfl rfl n _

theorem samplesFrom_take (it : ToneQueueItem) (p : Int) (n m : Nat) (h : m ≤ n) :
    (it.samplesFrom p n).take m = it.samplesFrom p m := by
  obtain ⟨k, rfl⟩ : ∃ k, n = m + k := ⟨n - m, by omega⟩
  rw [samplesFrom_add]
  simp [List.take_append_eq_append_take, samplesFrom_length]

theorem samplesFrom_drop (it : ToneQueueItem) (p : Int) (n m : Nat) (h : m ≤ n) :
    (it.samplesFrom p n).drop m = it.samplesFrom (p + m) (n - m) := by
  obtain ⟨k, rfl⟩ : ∃ k, n = m + k := ⟨n - m, by omega⟩
  rw [samplesFrom_add]
  simp [List.drop_append_eq_append_drop, samplesFrom_length]

theorem pendingSamples_length (it : QueueItem) (hg : it.Generated) :
    (it.pendingSamples.length : Int) = it.remaining := by
  cases it with
  | silence i =>
    simp only [QueueItem.Generated] at hg
    simp only [QueueItem.pendingSamples, QueueItem.remaining, List.length_replicate]
    omega
  | tone i =>
    simp only [QueueItem.Generated] at hg
    simp only [QueueItem.pendingSamples, QueueItem.remaining, samplesFrom_length]
    omega
  | file i => exact absurd hg (by simp [QueueItem.Generated])

theorem remaining_nonneg (it : QueueItem) (hg : it.Generated) : 0 ≤ it.remaining := by
  cases it with
  | silence i => exact hg.1
  | tone i => exact hg.2.2.1
  | file i => exact absurd hg (by simp [QueueItem.Generated])

theorem remaining_le (it : QueueItem) (hg : it.Generated) : it.remaining ≤ 2147483647 := by
  cases it with
  | silence i => exact hg.2
  | tone i => exact hg.2.2.2
  | file i => exact absurd hg (by simp [QueueItem.Generated])

theorem advance_zero (it : QueueItem) : it.advance 0 = it := by
  cases it <;> simp [QueueItem.advance]

theorem advance_advance (it : QueueItem) (a b : Int) :
    (it.advance a).advance b = it.advance (a + b) := by
  cases it <;> simp [QueueItem.advance] <;> ring

theorem advance_generated (it : QueueItem) (hg : it.Generated) (m : Int) (h0 : 0 ≤ m)
    (h1 : m ≤ it.remaining) : (it.advance m).Generated := by
  cases it with
  | silence i =>
    simp only [QueueItem.Generated, QueueItem.remaining, QueueItem.advance] at *
    omega
  | tone i =>
    simp only [QueueItem.Generated, QueueItem.remaining, QueueItem.advance, IsInt] at *
    omega
  | file i => exact absurd hg (by simp [QueueItem.Generated])

theorem advance_remaining (it : QueueItem) (hg : it.Generated) (m : Int) :
    (it.advance m).remaining = it.remaining - m := by
  cases it with
  | silence i => simp [QueueItem.remaining, QueueItem.advance]
  | tone i => simp only [QueueItem.remaining, QueueItem.advance]; ring
  | file i => exact absurd hg (by simp [QueueItem.Generated])

theorem advance_pendingSamples (it : QueueItem) (hg : it.Generated) (m : Int) (h0 : 0 ≤ m)
    (h1 : m ≤ it.remaining) :
    (it.advance m).pendingSamples = it.pendingSamples.drop m.toNat := by
  cases it with
  | silence i =>
    simp only [QueueItem.Generated, QueueItem.remaining] at hg h1
    simp only [QueueItem.pendingSamples, QueueItem.advance, List.drop_replicate]
    congr 1
    omega
  | tone i =>
    simp only [QueueItem.Generated, QueueItem.remaining, IsInt] at hg h1
    simp only [QueueItem.pendingSamples, QueueItem.advance]
    rw [samplesFrom_drop _ _ _ _ (by omega)]
    have e1 : i.pos + ((m.toNat : Nat) : Int) = i.pos + m := by
      rw [Int.toNat_of_nonneg h0]
    have e2 : (i.tone_len - (i.pos + m)).toNat = (i.tone_len - i.pos).toNat - m.toNat := by omega
    rw [e1, e2]
    exact samplesFrom_congr { i with pos := i.pos + m } i rfl rfl rfl _ _
  | file i => exact absurd hg (by simp [QueueItem.Generated])

/-- Reading from an item that still has samples: the first `min len remaining`
pending samples are returned and the item advances by as many. -/
theorem readSamples_generated (fs : FileSystem) (it : QueueItem) (hg : it.Generated)
    (len : Int) (hl : 0 ≤ len) (hr : 0 < it.remaining) :
    it.readSamples fs len =
      .ok (it.advance (min len it.remaining), it.pendingSamples.take len.toNat,
        min len it.remaining) := by
  cases it with
  | silence i =>
    simp only [QueueItem.Generated, QueueItem.remaining] at hg hr
    have h1 : ¬ i.silence_left = -1 := by omega
    have h3 : ¬ i.silence_left = 0 := by omega
    rcases le_total len i.silence_left with h | h
    · have h4 : wrapInt (i.silence_left - len) = i.silence_left - len := by
        apply wrapInt_eq; unfold IsInt; omega
      have h2 : ¬ len < 0 := by omega
      have h5 : min len.toNat i.silence_left.toNat = len.toNat := by omega
      simp only [QueueItem.readSamples, SilenceQueueItem.readSamples, min_eq_left h, h1, h2, h3,
        h4, if_false, QueueItem.advance, QueueItem.remaining, QueueItem.pendingSamples,
        List.take_replicate, h5]
    · have h4 : wrapInt (i.silence_left - i.silence_left) = i.silence_left - i.silence_left := by
        apply wrapInt_eq; unfold IsInt; omega
      have h2 : ¬ i.silence_left < 0 := by omega
      have h5 : min len.toNat i.silence_left.toNat = i.silence_left.toNat := by omega
      simp only [QueueItem.readSamples, SilenceQueueItem.readSamples, min_eq_right h, h1, h2, h3,
        h4, if_false, QueueItem.advance, QueueItem.remaining, QueueItem.pendingSamples,
        List.take_replicate, h5]
  | tone i =>
    simp only [QueueItem.Generated, QueueItem.remaining, IsInt] at hg hr
    have h4 : wrapInt (i.tone_len - i.pos) = i.tone_len - i.pos := by
      apply wrapInt_eq; unfold IsInt; omega
    rcases le_total len (i.tone_len - i.pos) with h | h
    · have h5 := fill_eq len.toNat i (by omega) (by omega)
      have e1 : ((len.toNat : Nat) : Int) = len := Int.toNat_of_nonneg hl
      rw [e1] at h5
      simp only [QueueItem.readSamples, ToneQueueItem.readSamples, h4, min_eq_left h, h5,
        QueueItem.advance, QueueItem.remaining, QueueItem.pendingSamples]
      rw [samplesFrom_take _ _ _ _ (by omega)]
    · have h5 := fill_eq (i.tone_len - i.pos).toNat i (by omega) (by omega)
      have e1 : (((i.tone_len - i.pos).toNat : Nat) : Int) = i.tone_len - i.pos :=
        Int.toNat_of_nonneg (by omega)
      rw [e1] at h5
      simp only [QueueItem.readSamples, ToneQueueItem.readSamples, h4, min_eq_right h, h5,
        QueueItem.advance, QueueItem.remaining, QueueItem.pendingSamples]
      rw [List.take_of_length_le (by rw [samplesFrom_length]; omega)]
  | file i => exact absurd hg (by simp [QueueItem.Generated])

/-- Reading from an item with nothing left returns `0`; a Silence item is
marked as exhausted by it. -/
theorem readSamples_exhausted (fs : FileSystem) (it : QueueItem) (hg : it.Generated)
    (len : Int) (hl : 0 ≤ len) (hr : it.remaining = 0) :
    it.readSamples fs len = .ok (it.markExhausted, [], 0) := by
  cases it with
  | silence i =>
    simp only [QueueItem.remaining] at hr
    have h2 : min len 0 = 0 := by omega
    simp [QueueItem.readSamples, SilenceQueueItem.readSamples, hr, h2, QueueItem.markExhausted]
  | tone i =>
    simp only [QueueItem.Generated, QueueItem.remaining, IsInt] at hg hr
    have h4 : wrapInt (i.tone_len - i.pos) = 0 := by
      rw [hr]; rfl
    have h2 : min len 0 = 0 := by omega
    simp [QueueItem.readSamples, ToneQueueItem.readSamples, h4, h2, ToneQueueItem.fill,
      QueueItem.markExhausted]
  | file i => exact absurd hg (by simp [QueueItem.Generated])

/-- Pushing back `k` of the `m` samples consumed so far. -/
theorem unreadSamples_advance (it : QueueItem) (hg : it.Generated) (m k : Int)
    (hk : 0 ≤ k) (hkm : k ≤ m) (hm : m ≤ it.remaining) :
    (it.advance m).unreadSamples k = it.advance (m - k) := by
  cases it with
  | silence i =>
    simp only [QueueItem.Generated, QueueItem.remaining] at hg hm
    have h : wrapInt (i.silence_left - m + k) = i.silence_left - (m - k) := by
      rw [wrapInt_eq (by unfold IsInt; omega)]; ring
    simp [QueueItem.advance, QueueItem.unreadSamples, SilenceQueueItem.unreadSamples, h]
  | tone i =>
    simp only [QueueItem.Generated, QueueItem.remaining, IsInt] at hg hm
    have h : wrapInt (i.pos + m - k) = i.pos + (m - k) := by
      rw [wrapInt_eq (by unfold IsInt; omega)]; ring
    simp [QueueItem.advance, QueueItem.unreadSamples, ToneQueueItem.unreadSamples, h]
  | file i => exact absurd hg (by simp [QueueItem.Generated])

/-- Reading from any Silence or Tone item other than a run-out Silence item. -/
theorem readSamples_notRunOut (fs : FileSystem) (it : QueueItem) (hg : it.Generated)
    (hn : it.NotRunOut) (len : Int) (hl : 0 ≤ len) :
    it.readSamples fs len =
      .ok (it.advance (min len it.remaining), it.pendingSamples.take len.toNat,
        min len it.remaining) := by
  rcases (remaining_nonneg it hg).lt_or_eq with h | h
  · exact readSamples_generated fs it hg len hl h
  · have hlen := pendingSamples_length it hg
    rw [← h] at hlen
    have hnil : it.pendingSamples = [] := List.length_eq_zero.mp (by exact_mod_cast hlen)
    rw [readSamples_exhausted fs it hg len hl h.symm, ← h, min_eq_right hl, advance_zero, hnil]
    cases it with
    | silence i => exact absurd h (by simpa [QueueItem.NotRunOut, QueueItem.remaining, eq_comm] using hn)
    | tone i => simp [QueueItem.markExhausted]
    | file i => simp [QueueItem.markExhausted]

/-! ## Claims about the queue items -/

/-- C7 (as amended): for every Silence item with `silence_left >= 0` and every
Tone item with `tone_len - pos >= 0`, and every request `len >= 0`,
`readSamples` returns `r = min(len, remaining)` samples, so `0 <= r <= len` and
`r <= remaining`; while something remains the remaining count decreases by
exactly `r`, and a read with nothing left returns `0`, leaves a Tone item as it
is and sets `silence_left` of a Silence item to `-1`. -/
theorem C7_readSamples_bounds (fs : FileSystem) (it : QueueItem) (len : Int)
    (hg : it.Generated) (hl : 0 ≤ len) :
    ∃ it1 buf r, it.readSamples fs len = .ok (it1, buf, r) ∧
      r = min len it.remaining ∧ (buf.length : Int) = r ∧
      0 ≤ r ∧ r ≤ len ∧ r ≤ it.remaining ∧
      (0 < it.remaining → it1.remaining = it.remaining - r) ∧
      (it.remaining = 0 → it1 = it.markExhausted) := by
  have h0 := remaining_nonneg it hg
  rcases h0.lt_or_eq with h | h
  · refine ⟨_, _, _, readSamples_generated fs it hg len hl h, rfl, ?_, ?_, ?_, ?_, ?_, ?_⟩
    · have := pendingSamples_length it hg
      rw [List.length_take]
      omega
    · omega
    · omega
    · omega
    · intro _; exact advance_remaining it hg _
    · intro h2; omega
  · refine ⟨_, _, _, readSamples_exhausted fs it hg len hl h.symm, ?_, ?_, ?_, ?_, ?_, ?_, ?_⟩
    · omega
    · simp
    · omega
    · omega
    · omega
    · intro h2; omega
    · intro _; rfl

/-- Witness of C7: a Tone item at position 2 of 10, asked for 5 samples. -/
theorem C7_readSamples_bounds_witness :
    ∃ it1 buf r, (QueueItem.tone ⟨440, 500, 10, 2, 8000⟩).readSamples noFiles 5 = .ok (it1, buf, r) ∧
      r = min 5 (QueueItem.tone ⟨440, 500, 10, 2, 8000⟩).remaining ∧ (buf.length : Int) = r ∧
      0 ≤ r ∧ r ≤ 5 ∧ r ≤ (QueueItem.tone ⟨440, 500, 10, 2, 8000⟩).remaining ∧
      (0 < (QueueItem.tone ⟨440, 500, 10, 2, 8000⟩).remaining →
        it1.remaining = (QueueItem.tone ⟨440, 500, 10, 2, 8000⟩).remaining - r) ∧
      ((QueueItem.tone ⟨440, 500, 10, 2, 8000⟩).remaining = 0 →
        it1 = (QueueItem.tone ⟨440, 500, 10, 2, 8000⟩).markExhausted) :=
  C7_readSamples_bounds noFiles (.tone ⟨440, 500, 10, 2, 8000⟩) 5 (by decide) (by decide)

/-- C7 as stated fails: a Silence item with `silence_left = 0` (what
`playSilence(0)` builds) returns `r = 0` from `readSamples(640)`, yet its
remaining count `silence_left` goes from `0` to `-1`, not to `0 - r`. -/
theorem C7_counterexample :
    (QueueItem.silence (SilenceQueueItem.new 0 8000)).Generated ∧
    (QueueItem.silence (SilenceQueueItem.new 0 8000)).remaining = 0 ∧
    (QueueItem.silence (SilenceQueueItem.new 0 8000)).readSamples noFiles 640 =
      .ok (.silence ⟨0, -1⟩, [], 0) ∧
    (QueueItem.silence ⟨0, -1⟩).remaining ≠
      (QueueItem.silence (SilenceQueueItem.new 0 8000)).remaining - 0 := by
  decide

/-- C5 (as amended): for every Tone item with `tone_len - pos >= 0` and every
Silence item with `silence_left > 0`, and every request `len >= 0`,
`readSamples(len)` followed by `unreadSamples(r)`, `r` being the count the read
returned, leaves the item in the state it had before the read, and
`unreadSamples(n)` with `0 <= n <= r` gives back exactly `n` samples. -/
theorem C5_unread_reverses_read (fs : FileSystem) (it : QueueItem) (len : Int)
    (hg : it.Generated) (hn : it.NotRunOut) (hl : 0 ≤ len) :
    ∃ it1 buf r, it.readSamples fs len = .ok (it1, buf, r) ∧
      it1.unreadSamples r = it ∧
      ∀ n, 0 ≤ n → n ≤ r → (it1.unreadSamples n).remaining = it1.remaining + n ∧
        (it1.unreadSamples n).pendingSamples = buf.drop (r - n).toNat ++ it1.pendingSamples := by
  have h0 := remaining_nonneg it hg
  have hlen := pendingSamples_length it hg
  refine ⟨_, _, _, readSamples_notRunOut fs it hg hn len hl, ?_, ?_⟩
  · rw [unreadSamples_advance it hg _ _ (by omega) le_rfl (by omega), sub_self, advance_zero]
  · intro n hn0 hnr
    rw [unreadSamples_advance it hg _ _ hn0 hnr (by omega),
      advance_remaining it hg, advance_remaining it hg,
      advance_pendingSamples it hg _ (by omega) (by omega),
      advance_pendingSamples it hg _ (by omega) (by omega)]
    refine ⟨by ring, ?_⟩
    have hk : (min len it.remaining - n).toNat ≤ (min len it.remaining).toNat := by omega
    have e : List.take len.toNat it.pendingSamples =
        List.take (min len it.remaining).toNat it.pendingSamples := by
      rcases le_total len it.remaining with h | h
      · rw [min_eq_left h]
      · rw [min_eq_right h, List.take_of_length_le (by omega), List.take_of_length_le (by omega)]
    rw [e]
    generalize it.pendingSamples = l at *
    generalize (min len it.remaining - n).toNat = k at *
    generalize (min len it.remaining).toNat = m at *
    obtain ⟨d, rfl⟩ : ∃ d, m = k + d := ⟨m - k, by omega⟩
    rw [List.drop_take]
    simp only [Nat.add_sub_cancel_left]
    conv_lhs => rw [← List.take_append_drop d (List.drop k l)]
    rw [List.drop_drop, Nat.add_comm]

/-- Witness of C5: a Silence item with 1000 samples left, asked for 640. -/
theorem C5_unread_reverses_read_witness :
    ∃ it1 buf r, (QueueItem.silence ⟨125, 1000⟩).readSamples noFiles 640 = .ok (it1, buf, r) ∧
      it1.unreadSamples r = QueueItem.silence ⟨125, 1000⟩ ∧
      ∀ n, 0 ≤ n → n ≤ r → (it1.unreadSamples n).remaining = it1.remaining + n ∧
        (it1.unreadSamples n).pendingSamples = buf.drop (r - n).toNat ++ it1.pendingSamples :=
  C5_unread_reverses_read noFiles (.silence ⟨125, 1000⟩) 640 (by decide) (by decide) (by decide)

/-- C5 as stated fails: on a Silence item with `silence_left = 0`,
`readSamples(640)` returns `r = 0` and stores `silence_left = -1`;
`unreadSamples(0)` leaves `-1`, which is not the state before the read. -/
theorem C5_counterexample :
    (QueueItem.silence (SilenceQueueItem.new 0 8000)).Generated ∧
    (QueueItem.silence (SilenceQueueItem.new 0 8000)).readSamples noFiles 640 =
      .ok (.silence ⟨0, -1⟩, [], 0) ∧
    (QueueItem.silence ⟨0, -1⟩).unreadSamples 0 ≠ QueueItem.silence (SilenceQueueItem.new 0 8000) := by
  decide

/-- The samples handed back by `unreadSamples(n)` after a read of `r`: taking
`n` of what is pending from `r - n` on is dropping `r - n` of what was read. -/
theorem take_drop_pending {α : Type} (l : List α) (len r n : Nat) (hn : n ≤ r)
    (hr : r = min len l.length) :
    List.take n (List.drop (r - n) l) = List.drop (r - n) (List.take len l) := by
  have e : List.take len l = List.take r l := by
    rcases Nat.le_total len l.length with h | h
    · rw [hr, Nat.min_eq_left h]
    · rw [hr, Nat.min_eq_right h, List.take_of_length_le h, List.take_of_length_le le_rfl]
  rw [e, List.drop_take]
  congr 1
  omega

/-- C6 (as amended): for every Tone item with `tone_len - pos >= 0` and every
Silence item with `silence_left > 0`: if `readSamples(len)` has just returned
the `r` samples `s[0..r)` and `0 <= n <= r`, then `unreadSamples(n)` followed
immediately by `readSamples(n)` returns exactly `n` samples, and they are the
samples `s[r-n..r)` again. -/
theorem C6_unread_then_read_same_samples (fs : FileSystem) (it : QueueItem) (len : Int)
    (hg : it.Generated) (hn : it.NotRunOut) (hl : 0 ≤ len) :
    ∃ it1 s r, it.readSamples fs len = .ok (it1, s, r) ∧
      ∀ n, 0 ≤ n → n ≤ r →
        ∃ it2, (it1.unreadSamples n).readSamples fs n = .ok (it2, s.drop (r - n).toNat, n) ∧
          ((s.drop (r - n).toNat).length : Int) = n := by
  have h0 := remaining_nonneg it hg
  have hlen := pendingSamples_length it hg
  refine ⟨_, _, _, readSamples_notRunOut fs it hg hn len hl, ?_⟩
  intro n hn0 hnr
  have hj : (it.advance (min len it.remaining - n)).Generated :=
    advance_generated it hg _ (by omega) (by omega)
  have hrem := advance_remaining it hg (min len it.remaining - n)
  have hpend := advance_pendingSamples it hg (min len it.remaining - n) (by omega) (by omega)
  have hsamp : List.take n.toNat (List.drop (min len it.remaining - n).toNat it.pendingSamples) =
      List.drop (min len it.remaining - n).toNat (List.take len.toNat it.pendingSamples) := by
    have e : (min len it.remaining - n).toNat = (min len it.remaining).toNat - n.toNat := by omega
    rw [e]
    exact take_drop_pending _ _ _ _ (by omega) (by omega)
  have hcount : ((List.drop (min len it.remaining - n).toNat
      (List.take len.toNat it.pendingSamples)).length : Int) = n := by
    rw [List.length_drop, List.length_take]
    omega
  rw [unreadSamples_advance it hg _ _ hn0 hnr (by omega)]
  rcases (remaining_nonneg _ hj).lt_or_eq with h | h
  · have hmin : min n (it.remaining - (min len it.remaining - n)) = n := by omega
    rw [readSamples_generated fs _ hj n hn0 h, hpend, hsamp, hrem, hmin]
    exact ⟨_, rfl, hcount⟩
  · have hn' : n = 0 := by omega
    have hnil : List.drop (min len it.remaining - n).toNat
        (List.take len.toNat it.pendingSamples) = [] := by
      rw [← hsamp, hn']; simp
    rw [readSamples_exhausted fs _ hj n hn0 h.symm, hnil, hn']
    exact ⟨_, rfl, by simp⟩

/-- Witness of C6: a Tone item at position 0 of 10, asked for 4 samples. -/
theorem C6_unread_then_read_same_samples_witness :
    ∃ it1 s r, (QueueItem.tone ⟨440, 500, 10, 0, 8000⟩).readSamples noFiles 4 = .ok (it1, s, r) ∧
      ∀ n, 0 ≤ n → n ≤ r →
        ∃ it2, (it1.unreadSamples n).readSamples noFiles n = .ok (it2, s.drop (r - n).toNat, n) ∧
          ((s.drop (r - n).toNat).length : Int) = n :=
  C6_unread_then_read_same_samples noFiles (.tone ⟨440, 500, 10, 0, 8000⟩) 4
    (by decide) (by decide) (by decide)

/-- C6 as stated fails: on a Silence item with `silence_left = 0`,
`readSamples(640)` returns `r = 0` samples and stores `silence_left = -1`;
with `n = 0`, `unreadSamples(0)` followed by `readSamples(0)` does not return:
`assert(silence_left != -1)` fails. -/
theorem C6_counterexample :
    (QueueItem.silence (SilenceQueueItem.new 0 8000)).Generated ∧
    (QueueItem.silence (SilenceQueueItem.new 0 8000)).readSamples noFiles 640 =
      .ok (.silence ⟨0, -1⟩, [], 0) ∧
    ((QueueItem.silence ⟨0, -1⟩).unreadSamples 0).readSamples noFiles 0 =
      .fault .assertion := by
  decide

/-! ## The handler: unfolding, preserved fields -/

theorem playMsg_nested (env : Env) (fuel : Nat) (s : MsgHandler) (h : 0 < s.nesting_level) :
    playMsg env (fuel + 1) s = .ok { s with pending_play_next := true } := by
  rw [playMsg, if_pos h]

theorem playMsg_empty (env : Env) (fuel : Nat) (s : MsgHandler) (h : ¬ 0 < s.nesting_level)
    (hq : s.msg_queue = []) :
    playMsg env (fuel + 1) s = .ok (s.emit .allMsgsWritten) := by
  rw [playMsg, if_neg h]
  simp only [hq]

theorem playMsg_init_false (env : Env) (fuel : Nat) (s : MsgHandler) (item item1 : QueueItem)
    (rest : List QueueItem) (h : ¬ 0 < s.nesting_level) (hq : s.msg_queue = item :: rest)
    (hi : QueueItem.initialize env.fs item = (false, item1)) :
    playMsg env (fuel + 1) s =
      playMsg env fuel (MsgHandler.emit { s with msg_queue := rest } (.deleteItem item1)) := by
  rw [playMsg, if_neg h]
  simp only [hq, hi]

theorem playMsg_init_true (env : Env) (fuel : Nat) (s : MsgHandler) (item item1 : QueueItem)
    (rest : List QueueItem) (h : ¬ 0 < s.nesting_level) (hq : s.msg_queue = item :: rest)
    (hi : QueueItem.initialize env.fs item = (true, item1)) :
    playMsg env (fuel + 1) s = writeSamples env fuel { s with msg_queue := item1 :: rest } := by
  rw [playMsg, if_neg h]
  simp only [hq, hi]

theorem writeSamples_zero_read (env : Env) (fuel : Nat) (s : MsgHandler) (item item1 : QueueItem)
    (rest : List QueueItem) (buf : List Sample) (hq : s.msg_queue = item :: rest)
    (hr : item.readSamples env.fs WRITE_BLOCK_SIZE = .ok (item1, buf, 0)) :
    writeSamples env (fuel + 1) s =
      playMsg env fuel (MsgHandler.emit { s with msg_queue := rest } (.deleteItem item1)) := by
  rw [writeSamples]
  simp only [hq, hr, if_true]

theorem writeSamples_write_error (env : Env) (fuel : Nat) (s : MsgHandler)
    (item item1 : QueueItem) (rest : List QueueItem) (buf : List Sample) (read_cnt : Int)
    (hq : s.msg_queue = item :: rest)
    (hr : item.readSamples env.fs WRITE_BLOCK_SIZE = .ok (item1, buf, read_cnt))
    (hc : read_cnt ≠ 0) (hw : env.writeAudio s.log buf read_cnt = -1) :
    writeSamples env (fuel + 1) s =
      playMsg env fuel
        { s with msg_queue := rest,
                 log := s.log ++ [.writeAudio buf read_cnt (-1), .deleteItem item1] } := by
  rw [writeSamples]
  simp only [hq, hr, if_neg hc, hw, if_true, MsgHandler.emit, List.append_assoc,
    List.singleton_append]

theorem writeSamples_full_write (env : Env) (fuel : Nat) (s : MsgHandler)
    (item item1 : QueueItem) (rest : List QueueItem) (buf : List Sample) (read_cnt : Int)
    (hq : s.msg_queue = item :: rest)
    (hr : item.readSamples env.fs WRITE_BLOCK_SIZE = .ok (item1, buf, read_cnt))
    (hc : read_cnt ≠ 0) (hc1 : read_cnt ≠ -1) (hw : env.writeAudio s.log buf read_cnt = read_cnt) :
    writeSamples env (fuel + 1) s =
      writeSamples env fuel
        { s with msg_queue := item1 :: rest,
                 log := s.log ++ [.writeAudio buf read_cnt read_cnt] } := by
  rw [writeSamples]
  simp only [hq, hr, if_neg hc, hw, if_neg hc1, if_true, MsgHandler.emit]

theorem writeSamples_short_write (env : Env) (fuel : Nat) (s : MsgHandler)
    (item item1 : QueueItem) (rest : List QueueItem) (buf : List Sample) (read_cnt ret : Int)
    (hq : s.msg_queue = item :: rest)
    (hr : item.readSamples env.fs WRITE_BLOCK_SIZE = .ok (item1, buf, read_cnt))
    (hc : read_cnt ≠ 0) (hw : env.writeAudio s.log buf read_cnt = ret)
    (h1 : ret ≠ -1) (h2 : ret ≠ read_cnt) :
    writeSamples env (fuel + 1) s =
      .ok { s with msg_queue := item1.unreadSamples (wrapInt (read_cnt - ret)) :: rest,
                   log := s.log ++ [.writeAudio buf read_cnt ret,
                     .unreadSamples (wrapInt (read_cnt - ret))] } := by
  rw [writeSamples]
  simp only [hq, hr, if_neg hc, hw, if_neg h1, if_neg h2, MsgHandler.emit, List.append_assoc,
    List.singleton_append]

/-- Neither `playMsg` nor `writeSamples` changes `nesting_level` or
`sample_rate`, and they only append to the log. -/
theorem playMsg_writeSamples_preserve (env : Env) : ∀ fuel : Nat, ∀ s s' : MsgHandler,
    (playMsg env fuel s = .ok s' →
      s'.nesting_level = s.nesting_level ∧ s'.sample_rate = s.sample_rate ∧
        s.log <+: s'.log) ∧
    (writeSamples env fuel s = .ok s' →
      s'.nesting_level = s.nesting_level ∧ s'.sample_rate = s.sample_rate ∧
        s.log <+: s'.log) := by
  intro fuel
  induction fuel with
  | zero => intro s s'; constructor <;> (intro h; simp [playMsg, writeSamples] at h)
  | succ fuel ih =>
    intro s s'
    constructor
    · intro h
      rw [playMsg] at h
      split at h
      · cases h; simp
      · split at h
        · cases h; simp [MsgHandler.emit]
        · split at h
          · have := (ih _ s').1 h
            simp only [MsgHandler.emit] at this
            exact ⟨this.1, this.2.1, (List.prefix_append _ _).trans this.2.2⟩
          · have := (ih _ s').2 h
            exact this
    · intro h
      rw [writeSamples] at h
      split at h
      · cases h
      · split at h
        · cases h
        · split at h
          · have := (ih _ s').1 h
            simp only [MsgHandler.emit] at this
            exact ⟨this.1, this.2.1, (List.prefix_append _ _).trans this.2.2⟩
          · simp only at h
            split at h
            · have := (ih _ s').1 h
              simp only [MsgHandler.emit, List.append_assoc] at this
              exact ⟨this.1, this.2.1, (List.prefix_append _ _).trans this.2.2⟩
            · split at h
              · have := (ih _ s').2 h
                simp only [MsgHandler.emit] at this
                exact ⟨this.1, this.2.1, (List.prefix_append _ _).trans this.2.2⟩
              · cases h
                refine ⟨rfl, rfl, ?_⟩
                simp only [MsgHandler.emit, List.append_assoc]
                exact List.prefix_append _ _

theorem playMsg_nested_ok (env : Env) (fuel : Nat) {s s' : MsgHandler}
    (hr : playMsg env fuel s = .ok s') (h : 0 < s.nesting_level) :
    s' = { s with pending_play_next := true } := by
  cases fuel with
  | zero => simp [playMsg] at hr
  | succ fuel =>
    rw [playMsg_nested env fuel s h] at hr
    cases hr; rfl

theorem call_isInt (env : Env) (fuel : Nat) (c : Call) (s s1 : MsgHandler)
    (hi : IsInt s.nesting_level) (hr : call env fuel c s = .ok s1) : IsInt s1.nesting_level := by
  have key : ∀ t : MsgHandler, playMsg env fuel t = .ok s1 →
      t.nesting_level = s.nesting_level → IsInt s1.nesting_level := by
    intro t h ht
    rw [((playMsg_writeSamples_preserve env fuel t s1).1 h).1, ht]; exact hi
  have add : ∀ item, addItemToQueue env fuel item s = .ok s1 → IsInt s1.nesting_level := by
    intro item h
    unfold addItemToQueue at h
    simp only at h
    split at h
    · exact key _ h rfl
    · cases h; exact hi
  cases c with
  | playFile path => exact add _ hr
  | playSilence length => exact add _ hr
  | playTone fq amp length => exact add _ hr
  | writeBufferFull is_full =>
    simp only [call, writeBufferFull] at hr
    split at hr
    · exact key _ hr rfl
    · cases hr; exact hi
  | clear => simp only [call] at hr; cases hr; exact hi
  | begin =>
    simp only [call] at hr; cases hr
    simp only [begin]
    exact wrapInt_isInt _
  | end_ =>
    simp only [call, end_] at hr
    split at hr
    · cases hr
    · split at hr
      · split at hr
        · rw [((playMsg_writeSamples_preserve env fuel _ s1).1 hr).1]
          exact wrapInt_isInt _
        · cases hr; exact wrapInt_isInt _
      · cases hr; exact wrapInt_isInt _

theorem writeCalls_append (a b : List Event) :
    writeCalls (a ++ b) = writeCalls a ++ writeCalls b := by
  simp [writeCalls]

/-- A call entered with `nesting_level > 0`, other than the `end()` that
returns the level to 0, adds no `writeAudio` to the log. -/
theorem nested_call_no_write (env : Env) (fuel : Nat) (c : Call) (s s1 : MsgHandler)
    (hi : IsInt s.nesting_level) (hn : 0 < s.nesting_level)
    (hc : ¬ (c = Call.end_ ∧ s.nesting_level = 1)) (hr : call env fuel c s = .ok s1) :
    writeCalls (s1.log.drop s.log.length) = [] := by
  have add : ∀ item, addItemToQueue env fuel item s = .ok s1 →
      writeCalls (s1.log.drop s.log.length) = [] := by
    intro item h
    unfold addItemToQueue at h
    simp only at h
    split at h
    · rw [playMsg_nested_ok env fuel h hn]; simp [writeCalls]
    · cases h; simp [writeCalls]
  cases c with
  | playFile path => exact add _ hr
  | playSilence length => exact add _ hr
  | playTone fq amp length => exact add _ hr
  | writeBufferFull is_full =>
    simp only [call, writeBufferFull] at hr
    split at hr
    · rw [playMsg_nested_ok env fuel hr hn]; simp [writeCalls]
    · cases hr; simp [writeCalls]
  | clear =>
    simp only [call] at hr; cases hr
    simp [clear, MsgHandler.emit, writeCalls, Event.isWrite]
  | begin =>
    simp only [call] at hr; cases hr
    simp only [begin]
    split <;> simp [writeCalls]
  | end_ =>
    have hne : s.nesting_level ≠ 1 := fun h => hc ⟨rfl, h⟩
    have hw : wrapInt (s.nesting_level - 1) = s.nesting_level - 1 := by
      apply wrapInt_eq; unfold IsInt at *; omega
    simp only [call, end_, hw] at hr
    rw [if_neg (by omega), if_neg (by omega)] at hr
    cases hr; simp [writeCalls]

theorem nestedLog_no_write (env : Env) (fuel : Nat) : ∀ (cs : List Call) (s : MsgHandler),
    IsInt s.nesting_level → writeCalls (nestedLog env fuel cs s) = [] := by
  intro cs
  induction cs with
  | nil => intro s _; rfl
  | cons c cs ih =>
    intro s hi
    simp only [nestedLog]
    cases hr : call env fuel c s with
    | fault f => rfl
    | ok s1 =>
      simp only
      rw [writeCalls_append, ih s1 (call_isInt env fuel c s s1 hi hr)]
      split
      · next h => rw [nested_call_no_write env fuel c s s1 hi h.1 h.2 hr]; rfl
      · rfl

theorem addItemToQueue_eq (env : Env) (fuel : Nat) (item : QueueItem) (s : MsgHandler) :
    addItemToQueue env fuel item s =
      (if s.msg_queue = [] then playMsg env fuel { s with msg_queue := s.msg_queue ++ [item] }
       else .ok { s with msg_queue := s.msg_queue ++ [item] }) := by
  unfold addItemToQueue
  simp only
  cases hq : s.msg_queue with
  | nil => simp
  | cons a l => simp

theorem call_newItem (env : Env) (fuel : Nat) (s : MsgHandler) (c : Call) (item : QueueItem)
    (hc : c.newItem s.sample_rate = some item) :
    call env fuel c s = addItemToQueue env fuel item s := by
  cases c with
  | playFile path => simp only [Call.newItem, Option.some.injEq] at hc; subst hc; rfl
  | playSilence length => simp only [Call.newItem, Option.some.injEq] at hc; subst hc; rfl
  | playTone fq amp length => simp only [Call.newItem, Option.some.injEq] at hc; subst hc; rfl
  | writeBufferFull is_full => simp [Call.newItem] at hc
  | clear => simp [Call.newItem] at hc
  | begin => simp [Call.newItem] at hc
  | end_ => simp [Call.newItem] at hc

theorem addItemToQueue_nested (env : Env) (fuel : Nat) (item : QueueItem) (s : MsgHandler)
    (hn : 0 < s.nesting_level) :
    addItemToQueue env (fuel + 1) item s =
      .ok { s with msg_queue := s.msg_queue ++ [item],
                   pending_play_next := s.pending_play_next || s.msg_queue.isEmpty } := by
  rw [addItemToQueue_eq]
  cases hq : s.msg_queue with
  | nil =>
    simp only [List.nil_append, if_true, List.isEmpty_nil, Bool.or_true]
    exact playMsg_nested env fuel _ hn
  | cons a l => simp

theorem runCalls_append (env : Env) (fuel : Nat) : ∀ (a b : List Call) (s : MsgHandler),
    runCalls env fuel (a ++ b) s =
      match runCalls env fuel a s with
      | .ok s1 => runCalls env fuel b s1
      | .fault f => .fault f := by
  intro a
  induction a with
  | nil => intro b s; rfl
  | cons c a ih =>
    intro b s
    simp only [List.cons_append, runCalls]
    cases call env fuel c s with
    | ok s1 => exact ih b s1
    | fault f => rfl

theorem runCalls_single (env : Env) (fuel : Nat) (c : Call) (s : MsgHandler) :
    runCalls env fuel [c] s = call env fuel c s := by
  simp only [runCalls]
  cases call env fuel c s <;> rfl

theorem end_level_one (env : Env) (fuel : Nat) (s : MsgHandler) (h1 : s.nesting_level = 1) :
    end_ env fuel s =
      if s.pending_play_next then
        playMsg env fuel { s with nesting_level := 0, pending_play_next := false }
      else .ok { s with nesting_level := 0 } := by
  simp only [end_, h1]
  have : wrapInt 0 = 0 := by decide
  simp [this]

/-! ## Claims about bracketing and enqueueing -/

/-- C1: over every sequence of public calls from every state (whose
`nesting_level` is a C `int`), the calls entered with `nesting_level > 0` add no
`writeAudio` call to the log, the `end()` that returns the level to 0 excepted;
inside a bracket an enqueue only appends the item and records
`pending_play_next` (when the queue was empty), a `writeBufferFull` only
records `pending_play_next` (when not full and the queue is non-empty); and the
`end()` at level 1 is the call that runs `playMsg` at level 0, if a request is
pending. -/
theorem C1_no_write_while_nested (env : Env) (fuel : Nat) (cs : List Call) (s : MsgHandler)
    (hi : IsInt s.nesting_level) :
    writeCalls (nestedLog env fuel cs s) = [] ∧
    (0 < s.nesting_level →
      (∀ c item, c.newItem s.sample_rate = some item →
        call env (fuel + 1) c s =
          .ok { s with msg_queue := s.msg_queue ++ [item],
                       pending_play_next := s.pending_play_next || s.msg_queue.isEmpty }) ∧
      (∀ is_full, call env (fuel + 1) (.writeBufferFull is_full) s =
          .ok { s with pending_play_next :=
                  s.pending_play_next || (!is_full && !s.msg_queue.isEmpty) })) ∧
    (s.nesting_level = 1 →
      call env fuel .end_ s =
        if s.pending_play_next then
          playMsg env fuel { s with nesting_level := 0, pending_play_next := false }
        else .ok { s with nesting_level := 0 }) := by
  refine ⟨nestedLog_no_write env fuel cs s hi, ?_, ?_⟩
  · intro hn
    constructor
    · intro c item hc
      rw [call_newItem env (fuel + 1) s c item hc]
      exact addItemToQueue_nested env fuel item s hn
    · intro is_full
      simp only [call, writeBufferFull]
      split
      · next h => rw [playMsg_nested env fuel _ hn, h, Bool.or_true]
      · next h =>
        rw [Bool.not_eq_true] at h
        rw [h, Bool.or_false]
  · intro h1
    exact end_level_one env fuel s h1

/-- Witness of C1: inside a bracket opened on a fresh handler. -/
theorem C1_no_write_while_nested_witness :
    IsInt (begin (MsgHandler.new 8000)).nesting_level ∧
    writeCalls (nestedLog quietEnv 5
      [.playSilence 100, .writeBufferFull false, .playTone 440 500 20, .end_, .playSilence 1]
      (begin (MsgHandler.new 8000))) = [] :=
  ⟨by decide,
   (C1_no_write_while_nested quietEnv 5
      [.playSilence 100, .writeBufferFull false, .playTone 440 500 20, .end_, .playSilence 1]
      (begin (MsgHandler.new 8000)) (by decide)).1⟩

/-- C10: `playFile`, `playSilence` and `playTone` append the new item at the
tail and call `playMsg` exactly when the queue was empty before the call; on a
non-empty queue the call returns with the item appended and nothing else
changed: no `writeAudio`, no `allMsgsWritten` (the log is the same), the same
`nesting_level` and `pending_play_next`, the earlier items untouched. -/
theorem C10_enqueue_appends (env : Env) (fuel : Nat) (s : MsgHandler) (c : Call)
    (item : QueueItem) (hc : c.newItem s.sample_rate = some item) :
    call env fuel c s =
      (if s.msg_queue = [] then playMsg env fuel { s with msg_queue := s.msg_queue ++ [item] }
       else .ok { s with msg_queue := s.msg_queue ++ [item] }) ∧
    (s.msg_queue ≠ [] →
      ∃ s', call env fuel c s = .ok s' ∧ s'.msg_queue = s.msg_queue ++ [item] ∧
        s'.log = s.log ∧ s'.nesting_level = s.nesting_level ∧
        s'.pending_play_next = s.pending_play_next ∧ s'.sample_rate = s.sample_rate) := by
  have add := addItemToQueue_eq env fuel item s
  have hcall := call_newItem env fuel s c item hc
  refine ⟨hcall.trans add, ?_⟩
  intro hne
  rw [hcall, add, if_neg hne]
  exact ⟨_, rfl, rfl, rfl, rfl, rfl, rfl⟩

/-- Witness of C10: `playTone` on a handler that already queues a Silence item. -/
theorem C10_enqueue_appends_witness :
    (Call.playTone 440 500 20).newItem
        ({ MsgHandler.new 8000 with msg_queue := [.silence ⟨100, 800⟩] }).sample_rate =
      some (.tone ⟨440, 500, 160, 0, 8000⟩) ∧
    call quietEnv 0 (.playTone 440 500 20)
        { MsgHandler.new 8000 with msg_queue := [.silence ⟨100, 800⟩] } =
      .ok { MsgHandler.new 8000 with
              msg_queue := [.silence ⟨100, 800⟩, .tone ⟨440, 500, 160, 0, 8000⟩] } :=
  ⟨by decide,
   by
    have h := (C10_enqueue_appends quietEnv 0
      { MsgHandler.new 8000 with msg_queue := [.silence ⟨100, 800⟩] }
      (.playTone 440 500 20) (.tone ⟨440, 500, 160, 0, 8000⟩) (by decide)).1
    rw [h]; rfl⟩

/-! ## Playing a queue out on a sink that takes everything -/

theorem delivered_append (a b : List Event) : delivered (a ++ b) = delivered a ++ delivered b := by
  simp [delivered]

theorem delivered_cons (e : Event) (l : List Event) :
    delivered (e :: l) = e.accepted ++ delivered l := by
  simp [delivered]

theorem offeredStream_cons (e : Event) (l : List Event) :
    offeredStream (e :: l) = e.offered ++ offeredStream l := by
  simp [offeredStream]

theorem offeredStream_append (a b : List Event) :
    offeredStream (a ++ b) = offeredStream a ++ offeredStream b := by
  simp [offeredStream]

theorem pendingQueue_cons (it : QueueItem) (q : List QueueItem) :
    pendingQueue (it :: q) = it.pendingSamples ++ pendingQueue q := by
  simp [pendingQueue]

theorem queueCost_pos (q : List QueueItem) : 1 ≤ queueCost q := by
  cases q with
  | nil => simp [queueCost]
  | cons a l => simp only [queueCost]; omega

theorem initialize_generated (fs : FileSystem) (it : QueueItem) (hg : it.Generated) :
    QueueItem.initialize fs it = (true, it) := by
  cases it with
  | silence i => rfl
  | tone i => rfl
  | file i => exact absurd hg (by simp [QueueItem.Generated])

theorem msg_queue_eta (s : MsgHandler) (q : List QueueItem) (h : s.msg_queue = q) :
    { s with msg_queue := q } = s := by
  cases s; simp only at h; subst h; rfl

/-- One block read from an item that still has samples. -/
theorem block_read (fs : FileSystem) (it : QueueItem) (hg : it.Generated)
    (hr : 0 < it.remaining) :
    ∃ buf r, it.readSamples fs WRITE_BLOCK_SIZE = .ok (it.advance r, buf, r) ∧
      r = min 640 it.remaining ∧ (buf.length : Int) = r ∧
      buf ++ (it.advance r).pendingSamples = it.pendingSamples ∧
      (it.advance r).Generated ∧ (it.advance r).remaining = it.remaining - r := by
  have hlen := pendingSamples_length it hg
  have hw : WRITE_BLOCK_SIZE = 640 := by decide
  refine ⟨_, _, readSamples_generated fs it hg WRITE_BLOCK_SIZE (by decide) hr, by rw [hw], ?_,
    ?_, advance_generated it hg _ (by rw [hw]; omega) (by rw [hw]; omega),
    advance_remaining it hg _⟩
  · rw [List.length_take, hw]; omega
  · rw [advance_pendingSamples it hg _ (by rw [hw]; omega) (by rw [hw]; omega), hw]
    rcases le_total 640 it.remaining with h | h
    · rw [min_eq_left h]; exact List.take_append_drop _ _
    · rw [min_eq_right h, List.take_of_length_le (by omega), List.drop_of_length_le (by omega),
        List.append_nil]

theorem acceptAll_play (env : Env) (base : List Event) (hacc : AcceptsAllFrom env base) :
    ∀ fuel : Nat, ∀ s : MsgHandler, base <+: s.log → ¬ 0 < s.nesting_level →
      (∀ it ∈ s.msg_queue, it.Generated) →
      (queueCost s.msg_queue ≤ fuel →
        ∃ evs, playMsg env fuel s =
            .ok { s with msg_queue := [], log := s.log ++ evs ++ [.allMsgsWritten] } ∧
          PlayedOut evs s.msg_queue) ∧
      (∀ it rest, s.msg_queue = it :: rest → it.remaining.toNat + 1 + queueCost rest ≤ fuel →
        ∃ evs, writeSamples env fuel s =
            .ok { s with msg_queue := [], log := s.log ++ evs ++ [.allMsgsWritten] } ∧
          PlayedOut evs s.msg_queue) := by
  intro fuel
  induction fuel with
  | zero =>
    intro s _ _ _
    constructor
    · intro h; have := queueCost_pos s.msg_queue; omega
    · intro it rest _ h; omega
  | succ fuel ih =>
    intro s hb hn hg
    constructor
    · intro hc
      cases hq : s.msg_queue with
      | nil =>
        refine ⟨[], ?_, ?_⟩
        · rw [playMsg_empty env fuel s hn hq]
          cases s; simp only at hq; subst hq; simp [MsgHandler.emit]
        · simp [PlayedOut, offeredStream, delivered, pendingQueue]
      | cons it rest =>
        rw [hq, queueCost] at hc
        have hgi : it.Generated := hg it (by rw [hq]; exact List.mem_cons_self _ _)
        rw [playMsg_init_true env fuel s it it rest hn hq (initialize_generated _ it hgi),
          msg_queue_eta s _ hq]
        have := (ih s hb hn hg).2 it rest hq (by omega)
        rw [hq] at this
        exact this
    · intro it rest hq hc
      have hgi : it.Generated := hg it (by rw [hq]; exact List.mem_cons_self _ _)
      have hgr : ∀ jt ∈ rest, jt.Generated := fun jt hj =>
        hg jt (by rw [hq]; exact List.mem_cons_of_mem _ hj)
      rcases (remaining_nonneg it hgi).lt_or_eq with hr | hr
      · obtain ⟨buf, r, hread, hrv, hbl, hsplit, hga, hra⟩ := block_read env.fs it hgi hr
        have hr0 : r ≠ 0 := by omega
        have hr1 : r ≠ -1 := by omega
        have hw : env.writeAudio s.log buf r = r := hacc _ _ _ hb
        rw [writeSamples_full_write env fuel s it _ rest buf r hq hread hr0 hr1 hw]
        obtain ⟨evs, he, hp⟩ :=
          (ih { s with msg_queue := it.advance r :: rest,
                       log := s.log ++ [.writeAudio buf r r] }
            (hb.trans (List.prefix_append _ _)) hn
            (by
              intro jt hj
              rcases List.mem_cons.mp hj with h | h
              · rw [h]; exact hga
              · exact hgr jt h)).2 (it.advance r) rest rfl (by rw [hra]; omega)
        simp only [PlayedOut] at hp
        obtain ⟨hp1, hp2, hp3, hp4⟩ := hp
        refine ⟨.writeAudio buf r r :: evs, ?_, ?_⟩
        · rw [he]; simp
        rw [hq]
        refine ⟨?_, ?_, ?_, ?_⟩
        · rw [offeredStream_cons, hp1, pendingQueue_cons, pendingQueue_cons, ← hsplit]
          simp [Event.offered]
        · rw [delivered_cons, hp2, pendingQueue_cons, pendingQueue_cons, ← hsplit]
          have : List.take r.toNat buf = buf := List.take_of_length_le (by omega)
          simp [Event.accepted, this]
        · simp [hp3]
        · intro n; simp [hp4 n]
      · have hread := readSamples_exhausted env.fs it hgi WRITE_BLOCK_SIZE (by decide) hr.symm
        rw [writeSamples_zero_read env fuel s it _ rest [] hq hread]
        have hlen := pendingSamples_length it hgi
        have hnil : it.pendingSamples = [] :=
          List.length_eq_zero.mp (by rw [← hr] at hlen; exact_mod_cast hlen)
        obtain ⟨evs, he, hp⟩ :=
          (ih (MsgHandler.emit { s with msg_queue := rest } (.deleteItem it.markExhausted))
            (hb.trans (List.prefix_append _ _)) hn hgr).1 (by simp only [MsgHandler.emit]; omega)
        simp only [PlayedOut, MsgHandler.emit] at hp
        obtain ⟨hp1, hp2, hp3, hp4⟩ := hp
        refine ⟨.deleteItem it.markExhausted :: evs, ?_, ?_⟩
        · rw [he]; simp [MsgHandler.emit]
        rw [hq]
        refine ⟨?_, ?_, ?_, ?_⟩
        · rw [offeredStream_cons, pendingQueue_cons, hnil, hp1]
          simp [Event.offered]
        · rw [delivered_cons, pendingQueue_cons, hnil, hp2]
          simp [Event.accepted]
        · simpa using hp3
        · intro n; simpa using hp4 n

theorem enqueues_nested (env : Env) (fuel : Nat) : ∀ (cs : List Call) (s : MsgHandler),
    0 < s.nesting_level → (∀ c ∈ cs, ∃ it, c.newItem s.sample_rate = some it) →
    runCalls env (fuel + 1) cs s =
      .ok { s with
        msg_queue := s.msg_queue ++ cs.filterMap (Call.newItem s.sample_rate),
        pending_play_next := s.pending_play_next || (s.msg_queue.isEmpty && !cs.isEmpty) } := by
  intro cs
  induction cs with
  | nil => intro s _ _; cases s; simp [runCalls]
  | cons c cs ih =>
    intro s hn hcs
    obtain ⟨it, hit⟩ := hcs c (List.mem_cons_self _ _)
    simp only [runCalls]
    rw [call_newItem env (fuel + 1) s c it hit, addItemToQueue_nested env fuel it s hn]
    simp only
    rw [ih { s with msg_queue := s.msg_queue ++ [it],
                    pending_play_next := s.pending_play_next || s.msg_queue.isEmpty }
      hn (fun d hd => hcs d (List.mem_cons_of_mem _ hd))]
    simp [List.filterMap_cons, hit]

/-! ## Claims about playback -/

/-- C2: starting from an empty queue at nesting level 0, with a sink that takes
every offered block whole, for every list of `playSilence` / `playTone` calls
whose items have a non-negative sample count, made inside one
`begin()`/`end()` bracket: up to the `end()` the items are queued in call order
and the log is unchanged; the whole run returns (given the step budget
`queueCost`), the samples passed to `writeAudio`, and accepted, by `end()` are
the concatenation of the items' complete sample sequences in enqueue order, and
the queue is empty afterwards. -/
theorem C2_bracket_plays_in_enqueue_order (env : Env) (fuel : Nat) (s : MsgHandler)
    (cs : List Call) (hq : s.msg_queue = []) (hl : s.nesting_level = 0)
    (hacc : AcceptsAllFrom env s.log)
    (hcs : ∀ c ∈ cs, ∃ it, c.newItem s.sample_rate = some it ∧ it.Generated)
    (hf : queueCost (cs.filterMap (Call.newItem s.sample_rate)) ≤ fuel) :
    (∃ s1, runCalls env fuel ([Call.begin] ++ cs) s = .ok s1 ∧ s1.log = s.log ∧
      s1.msg_queue = cs.filterMap (Call.newItem s.sample_rate)) ∧
    ∃ s' evs, runCalls env fuel ([Call.begin] ++ cs ++ [Call.end_]) s = .ok s' ∧
      s'.msg_queue = [] ∧ s'.nesting_level = 0 ∧ s'.log = s.log ++ evs ∧
      offeredStream evs = pendingQueue (cs.filterMap (Call.newItem s.sample_rate)) ∧
      delivered evs = pendingQueue (cs.filterMap (Call.newItem s.sample_rate)) := by
  obtain ⟨k, rfl⟩ : ∃ k, fuel = k + 1 :=
    ⟨fuel - 1, by have := queueCost_pos (cs.filterMap (Call.newItem s.sample_rate)); omega⟩
  have hw1' : wrapInt 1 = 1 := by decide
  have hbegin : begin s = { s with nesting_level := 1, pending_play_next := false } := by
    simp [begin, hl, hw1']
  have hgen : ∀ it ∈ cs.filterMap (Call.newItem s.sample_rate), it.Generated := by
    intro it hit
    obtain ⟨c, hc, hci⟩ := List.mem_filterMap.mp hit
    obtain ⟨jt, hj, hjg⟩ := hcs c hc
    rw [hj] at hci; cases hci; exact hjg
  have hpre : runCalls env (k + 1) ([Call.begin] ++ cs) s =
      .ok { s with nesting_level := 1, pending_play_next := !cs.isEmpty,
                   msg_queue := cs.filterMap (Call.newItem s.sample_rate) } := by
    rw [runCalls_append, runCalls_single]
    simp only [call, hbegin]
    rw [enqueues_nested env k cs { s with nesting_level := 1, pending_play_next := false }
        (by simp) (fun c hc => (hcs c hc).imp fun it h => h.1)]
    simp only [hq, List.nil_append, List.isEmpty_nil, Bool.true_and, Bool.false_or]
  refine ⟨⟨_, hpre, rfl, rfl⟩, ?_⟩
  have hrun : runCalls env (k + 1) ([Call.begin] ++ cs ++ [Call.end_]) s =
      end_ env (k + 1)
        { s with nesting_level := 1, pending_play_next := !cs.isEmpty,
                 msg_queue := cs.filterMap (Call.newItem s.sample_rate) } := by
    rw [List.append_assoc, runCalls_append, runCalls_single]
    simp only [call, hbegin]
    rw [runCalls_append,
      enqueues_nested env k cs { s with nesting_level := 1, pending_play_next := false }
        (by simp) (fun c hc => (hcs c hc).imp fun it h => h.1)]
    simp only [runCalls_single, call, hq, List.nil_append, List.isEmpty_nil, Bool.true_and,
      Bool.false_or]
  rw [hrun, end_level_one env (k + 1) _ rfl]
  cases hcs' : cs with
  | nil =>
    simp only [List.isEmpty_nil, Bool.not_true, Bool.false_eq_true, if_false,
      List.filterMap_nil]
    exact ⟨_, [], rfl, rfl, rfl, by simp, by simp [offeredStream, pendingQueue],
      by simp [delivered, pendingQueue]⟩
  | cons c cs' =>
    rw [← hcs']
    have hne : cs.isEmpty = false := by rw [hcs']; rfl
    simp only [hne, Bool.not_false, if_true]
    obtain ⟨evs, he, hp1, hp2, _, _⟩ :=
      (acceptAll_play env s.log hacc (k + 1)
        { s with nesting_level := 0, pending_play_next := false,
                 msg_queue := cs.filterMap (Call.newItem s.sample_rate) }
        (List.prefix_refl _) (by simp) hgen).1 hf
    refine ⟨_, evs ++ [.allMsgsWritten], he, rfl, rfl, ?_, ?_, ?_⟩
    · simp
    · rw [offeredStream_append, hp1]; simp [offeredStream, Event.offered]
    · rw [delivered_append, hp2]; simp [delivered, Event.accepted]

/-- Witness of C2: 1 ms of silence and 1 ms of tone at 8000 Hz. -/
theorem C2_bracket_plays_in_enqueue_order_witness :
    (∃ s1, runCalls quietEnv 30 ([Call.begin] ++ [.playSilence 1, .playTone 440 500 1])
        (MsgHandler.new 8000) = .ok s1 ∧ s1.log = (MsgHandler.new 8000).log ∧
      s1.msg_queue = [Call.playSilence 1, .playTone 440 500 1].filterMap
          (Call.newItem (MsgHandler.new 8000).sample_rate)) ∧
    ∃ s' evs, runCalls quietEnv 30
        ([Call.begin] ++ [.playSilence 1, .playTone 440 500 1] ++ [Call.end_])
        (MsgHandler.new 8000) = .ok s' ∧
      s'.msg_queue = [] ∧ s'.nesting_level = 0 ∧ s'.log = (MsgHandler.new 8000).log ++ evs ∧
      offeredStream evs = pendingQueue
        ([Call.playSilence 1, .playTone 440 500 1].filterMap
          (Call.newItem (MsgHandler.new 8000).sample_rate)) ∧
      delivered evs = pendingQueue
        ([Call.playSilence 1, .playTone 440 500 1].filterMap
          (Call.newItem (MsgHandler.new 8000).sample_rate)) :=
  C2_bracket_plays_in_enqueue_order quietEnv 30 (MsgHandler.new 8000)
    [.playSilence 1, .playTone 440 500 1] rfl rfl (fun _ _ _ _ => rfl)
    (by
      intro c hc
      simp only [List.mem_cons, List.mem_singleton, List.not_mem_nil, or_false] at hc
      rcases hc with rfl | rfl
      · exact ⟨_, rfl, by decide⟩
      · exact ⟨_, rfl, by decide⟩)
    (by decide)

theorem playMsg_missing_file (env : Env) (fuel : Nat) (s : MsgHandler) (path : String)
    (rest : List QueueItem) (hmiss : env.fs.openFile path = -1) (hn : ¬ 0 < s.nesting_level)
    (hq : s.msg_queue = .file (FileQueueItem.new path) :: rest) :
    playMsg env (fuel + 1) s =
      playMsg env fuel
        { s with msg_queue := rest,
                 log := s.log ++ [.deleteItem (.file (FileQueueItem.new path))] } := by
  have hi : QueueItem.initialize env.fs (.file (FileQueueItem.new path)) =
      (false, .file (FileQueueItem.new path)) := by
    simp [ QueueItem.initialize, FileQueueItem.initialize, FileQueueItem.new, hmiss]
  rw [playMsg_init_false env fuel s _ _ rest hn hq hi]
  rfl

theorem silence_new_100 (sr : Int) (h0 : 0 ≤ sr) (h1 : sr ≤ 21474836) :
    SilenceQueueItem.new 100 sr = ⟨100, sr * 100 / 1000⟩ := by
  have ha : wrapInt (sr * 100) = sr * 100 := wrapInt_eq (by unfold IsInt; omega)
  have hb : Int.tdiv (sr * 100) 1000 = sr * 100 / 1000 :=
    Int.tdiv_eq_ediv (by omega) (by norm_num)
  have hc : wrapInt (sr * 100 / 1000) = sr * 100 / 1000 := wrapInt_eq (by unfold IsInt; omega)
  simp only [SilenceQueueItem.new, ha, hb, hc]

/-- C8: a file item whose `open` fails is popped with no `writeAudio` call and
`playMsg` goes on with the rest of the queue; so on a sink that takes
everything, `playFile(missing)` then `playSilence(100)`, made directly or
inside one `begin()`/`end()` bracket on a fresh handler, offers and delivers
exactly `sample_rate * 100 / 1000` zero samples, none from the file, and leaves
the queue empty (`sample_rate * 100` being a non-negative C `int`). -/
theorem C8_missing_file_is_skipped (env : Env) (fuel : Nat) (sr : Int) (path : String)
    (hmiss : env.fs.openFile path = -1) (hacc : AcceptsAllFrom env [])
    (h0 : 0 ≤ sr) (h1 : sr ≤ 21474836) (hf : (sr * 100 / 1000).toNat + 4 ≤ fuel) :
    (∀ (s : MsgHandler) (rest : List QueueItem), ¬ 0 < s.nesting_level →
      s.msg_queue = .file (FileQueueItem.new path) :: rest →
      playMsg env (fuel + 1) s =
        playMsg env fuel
          { s with msg_queue := rest,
                   log := s.log ++ [.deleteItem (.file (FileQueueItem.new path))] }) ∧
    (∃ s', runCalls env fuel [.playFile path, .playSilence 100] (MsgHandler.new sr) = .ok s' ∧
      s'.msg_queue = [] ∧
      offeredStream s'.log = List.replicate (sr * 100 / 1000).toNat Sample.zero ∧
      delivered s'.log = List.replicate (sr * 100 / 1000).toNat Sample.zero) ∧
    (∃ s', runCalls env fuel [.begin, .playFile path, .playSilence 100, .end_]
        (MsgHandler.new sr) = .ok s' ∧
      s'.msg_queue = [] ∧
      offeredStream s'.log = List.replicate (sr * 100 / 1000).toNat Sample.zero ∧
      delivered s'.log = List.replicate (sr * 100 / 1000).toNat Sample.zero) := by
  obtain ⟨k, rfl⟩ : ∃ k, fuel = k + 2 := ⟨fuel - 2, by omega⟩
  have hsil := silence_new_100 sr h0 h1
  have hgen : (QueueItem.silence ⟨100, sr * 100 / 1000⟩).Generated := by
    simp only [QueueItem.Generated]; omega
  have hcost : queueCost [QueueItem.silence ⟨100, sr * 100 / 1000⟩] ≤ k + 1 := by
    simp only [queueCost, QueueItem.remaining]; omega
  have hpend : pendingQueue [QueueItem.silence ⟨100, sr * 100 / 1000⟩] =
      List.replicate (sr * 100 / 1000).toNat Sample.zero := by
    simp [pendingQueue, QueueItem.pendingSamples]
  refine ⟨fun s rest hn hq => playMsg_missing_file env _ s path rest hmiss hn hq, ?_, ?_⟩
  · -- direct calls
    simp only [runCalls, call, playFile, playSilence, addItemToQueue_eq, MsgHandler.new, if_true,
      List.nil_append]
    rw [playMsg_missing_file env (k + 1) _ path [] hmiss (by simp) rfl,
      playMsg_empty env k _ (by simp) rfl]
    simp only [MsgHandler.emit, List.nil_append, List.cons_append, if_true, hsil]
    obtain ⟨evs, he, hp1, hp2, _, _⟩ :=
      (acceptAll_play env [] hacc (k + 2)
        { sample_rate := sr, nesting_level := 0, pending_play_next := false,
          msg_queue := [QueueItem.silence ⟨100, sr * 100 / 1000⟩],
          log := [.deleteItem (.file (FileQueueItem.new path)), .allMsgsWritten] }
        List.nil_prefix (by simp) (by simpa using hgen)).1 (le_trans hcost (Nat.le_succ _))
    rw [he]
    refine ⟨_, rfl, rfl, ?_, ?_⟩
    · simp only [offeredStream_append, hp1, hpend]
      simp [offeredStream, Event.offered]
    · simp only [delivered_append, hp2, hpend]
      simp [delivered, Event.accepted]
  · -- inside a bracket
    have hw1 : wrapInt (0 + 1) = 1 := by decide
    simp only [runCalls, call, begin, MsgHandler.new, if_true, hw1, playFile, playSilence,
      addItemToQueue_eq, List.nil_append]
    rw [playMsg_nested env (k + 1) _ (by simp)]
    simp only [List.cons_ne_nil, if_false, List.singleton_append, hsil]
    rw [end_level_one env (k + 2) _ rfl]
    simp only [if_true]
    rw [playMsg_missing_file env (k + 1) _ path _ hmiss (by simp) rfl]
    obtain ⟨evs, he, hp1, hp2, _, _⟩ :=
      (acceptAll_play env [] hacc (k + 1)
        { sample_rate := sr, nesting_level := 0, pending_play_next := false,
          msg_queue := [QueueItem.silence ⟨100, sr * 100 / 1000⟩],
          log := [] ++ [.deleteItem (.file (FileQueueItem.new path))] }
        List.nil_prefix (by simp) (by simpa using hgen)).1 hcost
    rw [he]
    refine ⟨_, rfl, rfl, ?_, ?_⟩
    · simp only [offeredStream_append, hp1, hpend]
      simp [offeredStream, Event.offered]
    · simp only [delivered_append, hp2, hpend]
      simp [delivered, Event.accepted]

/-- Witness of C8: at 8000 Hz the missing file and 100 ms of silence deliver
800 zero samples. -/
theorem C8_missing_file_is_skipped_witness :
    (∃ s', runCalls quietEnv 804 [.playFile "missing.raw", .playSilence 100]
        (MsgHandler.new 8000) = .ok s' ∧
      s'.msg_queue = [] ∧
      offeredStream s'.log = List.replicate 800 Sample.zero ∧
      delivered s'.log = List.replicate 800 Sample.zero) ∧
    (∃ s', runCalls quietEnv 804 [.begin, .playFile "missing.raw", .playSilence 100, .end_]
        (MsgHandler.new 8000) = .ok s' ∧
      s'.msg_queue = [] ∧
      offeredStream s'.log = List.replicate 800 Sample.zero ∧
      delivered s'.log = List.replicate 800 Sample.zero) :=
  (C8_missing_file_is_skipped quietEnv 804 8000 "missing.raw" rfl (fun _ _ _ _ => rfl)
    (by decide) (by decide) (by decide)).2

/-- C9: when `writeAudio` returns `-1` in any pass of the write loop over the
head item, `writeSamples` deletes and pops that item and calls `playMsg` on the
items behind it, which are still queued in their order; `nesting_level` is
unchanged; and if those items are Silence/Tone items and the sink takes
everything from then on, they are played out in that order. -/
theorem C9_write_error_skips_head (env : Env) (fuel : Nat) (s : MsgHandler)
    (item item1 : QueueItem) (rest : List QueueItem) (buf : List Sample) (read_cnt : Int)
    (hl : s.nesting_level = 0) (hq : s.msg_queue = item :: rest)
    (hr : item.readSamples env.fs WRITE_BLOCK_SIZE = .ok (item1, buf, read_cnt))
    (hc : read_cnt ≠ 0) (hw : env.writeAudio s.log buf read_cnt = -1) :
    writeSamples env (fuel + 1) s =
      playMsg env fuel
        { s with msg_queue := rest,
                 log := s.log ++ [.writeAudio buf read_cnt (-1), .deleteItem item1] } ∧
    (∀ s', writeSamples env (fuel + 1) s = .ok s' → s'.nesting_level = 0) ∧
    ((∀ it ∈ rest, it.Generated) →
      AcceptsAllFrom env (s.log ++ [.writeAudio buf read_cnt (-1), .deleteItem item1]) →
      queueCost rest ≤ fuel →
      ∃ evs, writeSamples env (fuel + 1) s =
          .ok { s with msg_queue := [],
                       log := s.log ++ [.writeAudio buf read_cnt (-1), .deleteItem item1] ++
                         evs ++ [.allMsgsWritten] } ∧
        offeredStream evs = pendingQueue rest ∧ delivered evs = pendingQueue rest) := by
  have heq := writeSamples_write_error env fuel s item item1 rest buf read_cnt hq hr hc hw
  refine ⟨heq, ?_, ?_⟩
  · intro s' h
    rw [((playMsg_writeSamples_preserve env (fuel + 1) s s').2 h).1, hl]
  · intro hg hacc hf
    obtain ⟨evs, he, hp1, hp2, _, _⟩ :=
      (acceptAll_play env _ hacc fuel
        { s with msg_queue := rest,
                 log := s.log ++ [.writeAudio buf read_cnt (-1), .deleteItem item1] }
        (List.prefix_refl _) (by simp [hl]) hg).1 hf
    exact ⟨evs, heq.trans he, hp1, hp2⟩

/-- Witness of C9: the first write of a Silence item fails, the Tone item
behind it is played. -/
theorem C9_write_error_skips_head_witness :
    writeSamples ⟨noFiles, failFirst⟩ (10 + 1)
        { MsgHandler.new 8000 with
          msg_queue := [.silence ⟨1, 8⟩, .tone ⟨440, 500, 2, 0, 8000⟩] } =
      .ok { MsgHandler.new 8000 with
        log := [.writeAudio (List.replicate 8 Sample.zero) 8 (-1), .deleteItem (.silence ⟨1, 0⟩),
          .writeAudio [Sample.tone 500 440 0 8000, Sample.tone 500 440 1 8000] 2 2,
          .deleteItem (.tone ⟨440, 500, 2, 2, 8000⟩), .allMsgsWritten] } := by
  have h := (C9_write_error_skips_head ⟨noFiles, failFirst⟩ 10
    { MsgHandler.new 8000 with msg_queue := [.silence ⟨1, 8⟩, .tone ⟨440, 500, 2, 0, 8000⟩] }
    (.silence ⟨1, 8⟩) (.silence ⟨1, 0⟩) [.tone ⟨440, 500, 2, 0, 8000⟩]
    (List.replicate 8 Sample.zero) 8 rfl rfl (by decide) (by decide) (by decide)).1
  rw [h]
  decide

/-! ## Playing on a sink that may take less than offered -/

theorem stops_nil : StopsAfterShortWrite [] := by
  intro pre post buf count ret h _
  simp at h

theorem stops_cons (e : Event) (evs : List Event)
    (he : ∀ buf count ret, e = Event.writeAudio buf count ret → ret = count)
    (h : StopsAfterShortWrite evs) : StopsAfterShortWrite (e :: evs) := by
  intro pre post buf count ret heq hne
  cases pre with
  | nil =>
    simp only [List.nil_append, List.cons.injEq] at heq
    exact absurd (he _ _ _ heq.1) hne
  | cons p pre' =>
    simp only [List.cons_append, List.cons.injEq] at heq
    exact h pre' post buf count ret heq.2 hne

theorem stops_short (buf : List Sample) (count ret : Int) :
    StopsAfterShortWrite [.writeAudio buf count ret, .unreadSamples (count - ret)] := by
  intro pre post b c r heq _
  cases pre with
  | nil =>
    simp only [List.nil_append, List.cons.injEq, Event.writeAudio.injEq] at heq
    obtain ⟨⟨_, rfl, rfl⟩, rfl⟩ := heq
    rfl
  | cons p pre' =>
    cases pre' with
    | nil => simp at heq
    | cons p2 pre2 =>
      simp only [List.cons_append, List.cons.injEq] at heq
      have := heq.2.2
      simp at this

theorem inRange_play (env : Env) (hin : InRange env) :
    ∀ fuel : Nat, ∀ s : MsgHandler, ¬ 0 < s.nesting_level →
      (∀ it ∈ s.msg_queue, it.Generated) →
      (queueCost s.msg_queue ≤ fuel →
        ∃ q evs, playMsg env fuel s = .ok { s with msg_queue := q, log := s.log ++ evs } ∧
          Conserved s.msg_queue q evs ∧ StopsAfterShortWrite evs) ∧
      (∀ it rest, s.msg_queue = it :: rest → it.remaining.toNat + 1 + queueCost rest ≤ fuel →
        ∃ q evs, writeSamples env fuel s = .ok { s with msg_queue := q, log := s.log ++ evs } ∧
          Conserved s.msg_queue q evs ∧ StopsAfterShortWrite evs) := by
  intro fuel
  induction fuel with
  | zero =>
    intro s _ _
    constructor
    · intro h; have := queueCost_pos s.msg_queue; omega
    · intro it rest _ h; omega
  | succ fuel ih =>
    intro s hn hg
    constructor
    · intro hc
      cases hq : s.msg_queue with
      | nil =>
        refine ⟨[], [.allMsgsWritten], ?_, ?_, ?_⟩
        · rw [playMsg_empty env fuel s hn hq]
          cases s; simp only at hq; subst hq; simp [MsgHandler.emit]
        · simp [Conserved, delivered, pendingQueue, Event.accepted]
        · exact stops_cons _ _ (by intro _ _ _ h; cases h) stops_nil
      | cons it rest =>
        rw [hq, queueCost] at hc
        have hgi : it.Generated := hg it (by rw [hq]; exact List.mem_cons_self _ _)
        rw [playMsg_init_true env fuel s it it rest hn hq (initialize_generated _ it hgi),
          msg_queue_eta s _ hq]
        have := (ih s hn hg).2 it rest hq (by omega)
        rw [hq] at this
        exact this
    · intro it rest hq hc
      have hgi : it.Generated := hg it (by rw [hq]; exact List.mem_cons_self _ _)
      have hgr : ∀ jt ∈ rest, jt.Generated := fun jt hj =>
        hg jt (by rw [hq]; exact List.mem_cons_of_mem _ hj)
      have hrl := remaining_le it hgi
      rcases (remaining_nonneg it hgi).lt_or_eq with hr | hr
      · obtain ⟨buf, r, hread, hrv, hbl, hsplit, hga, hra⟩ := block_read env.fs it hgi hr
        have hr0 : r ≠ 0 := by omega
        have hr1 : r ≠ -1 := by omega
        obtain ⟨hlo, hhi⟩ := hin s.log buf r (by omega)
        by_cases hfull : env.writeAudio s.log buf r = r
        · rw [writeSamples_full_write env fuel s it _ rest buf r hq hread hr0 hr1 hfull]
          obtain ⟨q, evs, he, hcons, hst⟩ :=
            (ih { s with msg_queue := it.advance r :: rest,
                         log := s.log ++ [.writeAudio buf r r] } hn
              (by
                intro jt hj
                rcases List.mem_cons.mp hj with h | h
                · rw [h]; exact hga
                · exact hgr jt h)).2 (it.advance r) rest rfl (by rw [hra]; omega)
          simp only [Conserved] at hcons
          obtain ⟨hc1, hc2, hc3, hc4⟩ := hcons
          refine ⟨q, .writeAudio buf r r :: evs, ?_, ?_, ?_⟩
          · rw [he]; simp
          · rw [hq]
            refine ⟨hc1, ?_, ?_, ?_⟩
            · rw [delivered_cons, List.append_assoc, hc2, pendingQueue_cons, pendingQueue_cons,
                ← hsplit]
              have : List.take r.toNat buf = buf := List.take_of_length_le (by omega)
              simp [Event.accepted, this]
            · simp only [queueCost, hra] at hc3 ⊢; omega
            · simpa using hc4
          · exact stops_cons _ _ (by intro _ _ _ h; cases h; rfl) hst
        · have hw1 : env.writeAudio s.log buf r ≠ -1 := by omega
          have hwr : wrapInt (r - env.writeAudio s.log buf r) = r - env.writeAudio s.log buf r :=
            wrapInt_eq (by unfold IsInt; omega)
          rw [writeSamples_short_write env fuel s it _ rest buf r _ hq hread hr0 rfl hw1 hfull,
            hwr, unreadSamples_advance it hgi r _ (by omega) (by omega) (by omega)]
          generalize env.writeAudio s.log buf r = ret at *
          have hret : r - (r - ret) = ret := by ring
          rw [hret]
          refine ⟨_, _, rfl, ?_, stops_short buf r ret⟩
          rw [hq]
          refine ⟨?_, ?_, ?_, ?_⟩
          · intro jt hj
            rcases List.mem_cons.mp hj with h | h
            · rw [h]; exact advance_generated it hgi ret hlo (by omega)
            · exact hgr jt h
          · rw [pendingQueue_cons, pendingQueue_cons,
              advance_pendingSamples it hgi ret hlo (by omega), ← List.append_assoc]
            congr 1
            have hbuf : buf = it.pendingSamples.take r.toNat := by
              have h1 := congrArg (List.take r.toNat) hsplit
              rw [List.take_append_of_le_length (by omega), List.take_of_length_le (by omega)]
                at h1
              exact h1
            simp only [delivered, List.map_cons, List.map_nil, Event.accepted, List.flatten_cons,
              List.flatten_nil, List.append_nil]
            rw [hbuf, List.take_take, Nat.min_eq_left (by omega), List.take_append_drop]
          · simp only [queueCost, advance_remaining it hgi]; omega
          · simp
      · have hread := readSamples_exhausted env.fs it hgi WRITE_BLOCK_SIZE (by decide) hr.symm
        rw [writeSamples_zero_read env fuel s it _ rest [] hq hread]
        have hlen := pendingSamples_length it hgi
        have hnil : it.pendingSamples = [] :=
          List.length_eq_zero.mp (by rw [← hr] at hlen; exact_mod_cast hlen)
        obtain ⟨q, evs, he, hcons, hst⟩ :=
          (ih (MsgHandler.emit { s with msg_queue := rest } (.deleteItem it.markExhausted))
            hn hgr).1 (by simp only [MsgHandler.emit]; omega)
        simp only [Conserved, MsgHandler.emit] at hcons
        obtain ⟨hc1, hc2, hc3, hc4⟩ := hcons
        refine ⟨q, .deleteItem it.markExhausted :: evs, ?_, ?_, ?_⟩
        · rw [he]; simp [MsgHandler.emit]
        · rw [hq]
          refine ⟨hc1, ?_, ?_, ?_⟩
          · rw [delivered_cons, pendingQueue_cons, hnil, List.append_assoc, hc2]
            simp [Event.accepted]
          · simp only [queueCost]; omega
          · simp only [List.length_cons]; omega
        · exact stops_cons _ _ (by intro _ _ _ h; cases h) hst

theorem conserved_refl (q : List QueueItem) (hg : ∀ it ∈ q, it.Generated) :
    Conserved q q [] :=
  ⟨hg, by simp [delivered], le_rfl, le_rfl⟩

theorem conserved_trans (q0 q1 q2 : List QueueItem) (e1 e2 : List Event)
    (h1 : Conserved q0 q1 e1) (h2 : Conserved q1 q2 e2) : Conserved q0 q2 (e1 ++ e2) := by
  obtain ⟨_, a2, a3, a4⟩ := h1
  obtain ⟨b1, b2, b3, b4⟩ := h2
  refine ⟨b1, ?_, by omega, by omega⟩
  rw [delivered_append, List.append_assoc, b2, a2]

/-- Any sequence of `writeBufferFull` notifications on a sink that takes
between 0 and the offered count. -/
theorem inRange_notifications (env : Env) (hin : InRange env) (fuel : Nat) :
    ∀ (notes : List Bool) (s : MsgHandler), ¬ 0 < s.nesting_level →
      (∀ it ∈ s.msg_queue, it.Generated) → queueCost s.msg_queue ≤ fuel →
      ∃ (q : List QueueItem) (segs : List (List Event)), runCalls env fuel (notes.map Call.writeBufferFull) s =
          .ok { s with msg_queue := q, log := s.log ++ segs.flatten } ∧
        Conserved s.msg_queue q segs.flatten ∧ (∀ seg ∈ segs, StopsAfterShortWrite seg) ∧
        segs.length = notes.length := by
  intro notes
  induction notes with
  | nil =>
    intro s _ hg _
    refine ⟨s.msg_queue, [], ?_, conserved_refl _ hg, by simp, rfl⟩
    cases s; simp [runCalls]
  | cons b notes ih =>
    intro s hn hg hf
    have hstep : ∃ q1 evs1, call env fuel (.writeBufferFull b) s =
        .ok { s with msg_queue := q1, log := s.log ++ evs1 } ∧
        Conserved s.msg_queue q1 evs1 ∧ StopsAfterShortWrite evs1 := by
      simp only [call, writeBufferFull]
      split
      · exact (inRange_play env hin fuel s hn hg).1 hf
      · refine ⟨s.msg_queue, [], ?_, conserved_refl _ hg, stops_nil⟩
        cases s; simp
    obtain ⟨q1, evs1, hcall, hc1, hs1⟩ := hstep
    obtain ⟨q, segs, hrun, hc2, hs2, hlen⟩ :=
      ih { s with msg_queue := q1, log := s.log ++ evs1 } hn hc1.1 (le_trans hc1.2.2.1 hf)
    refine ⟨q, evs1 :: segs, ?_, ?_, ?_, by simp [hlen]⟩
    · simp only [List.map_cons, runCalls, hcall, hrun, List.flatten_cons, List.append_assoc]
    · rw [List.flatten_cons]; exact conserved_trans _ _ _ _ _ hc1 hc2
    · intro seg hseg
      rcases List.mem_cons.mp hseg with h | h
      · rw [h]; exact hs1
      · exact hs2 seg h

/-- C3: for a Silence or Tone item with a non-negative sample count at the head
of the queue, a sink that takes between 0 and the offered count on each write,
and any sequence of `writeBufferFull` notifications (each given the step budget
`remaining + 3`): every notification returns; in the events of each one a
`writeAudio` that took fewer samples than were read is followed by
`unreadSamples(read_cnt - written)` and by nothing else; the samples accepted
so far are a prefix of the item's sample sequence, followed exactly by what
the item still holds; and once the item has been popped they are the whole
sequence. -/
theorem C3_backpressure_no_duplication_no_loss (env : Env) (fuel : Nat) (s : MsgHandler)
    (it : QueueItem) (notes : List Bool) (hin : InRange env) (hg : it.Generated)
    (hq : s.msg_queue = [it]) (hl : s.nesting_level = 0)
    (hf : it.remaining.toNat + 3 ≤ fuel) :
    ∃ (q : List QueueItem) (segs : List (List Event)), runCalls env fuel (notes.map Call.writeBufferFull) s =
        .ok { s with msg_queue := q, log := s.log ++ segs.flatten } ∧
      segs.length = notes.length ∧ (∀ seg ∈ segs, StopsAfterShortWrite seg) ∧
      delivered segs.flatten <+: it.pendingSamples ∧
      ((q = [] ∧ delivered segs.flatten = it.pendingSamples) ∨
       (∃ it', q = [it'] ∧ it'.Generated ∧
          delivered segs.flatten ++ it'.pendingSamples = it.pendingSamples)) := by
  obtain ⟨q, segs, hrun, hcons, hst, hlen⟩ :=
    inRange_notifications env hin fuel notes s (by omega)
      (by rw [hq]; simpa using hg) (by rw [hq]; simp only [queueCost]; omega)
  rw [hq] at hcons
  obtain ⟨c1, c2, _, c4⟩ := hcons
  have hone : pendingQueue [it] = it.pendingSamples := by simp [pendingQueue]
  rw [hone] at c2
  refine ⟨q, segs, hrun, hlen, hst, ?_, ?_⟩
  · exact ⟨_, c2⟩
  · cases q with
    | nil =>
      left
      simpa [pendingQueue] using c2
    | cons it' q' =>
      right
      have : q' = [] := by
        simp only [List.length_cons, List.length_nil] at c4
        exact List.length_eq_zero.mp (by omega)
      subst this
      refine ⟨it', rfl, c1 it' (List.mem_cons_self _ _), ?_⟩
      simpa [pendingQueue] using c2

/-- Witness of C3: a Silence item of 1000 samples, a sink that takes half of
each block, three notifications. -/
theorem C3_backpressure_no_duplication_no_loss_witness :
    ∃ (q : List QueueItem) (segs : List (List Event)), runCalls ⟨noFiles, halfFloor⟩ 1003
        ([false, true, false].map Call.writeBufferFull)
        { MsgHandler.new 8000 with msg_queue := [.silence ⟨125, 1000⟩] } =
        .ok { MsgHandler.new 8000 with msg_queue := q, log := [] ++ segs.flatten } ∧
      segs.length = [false, true, false].length ∧ (∀ seg ∈ segs, StopsAfterShortWrite seg) ∧
      delivered segs.flatten <+: (QueueItem.silence ⟨125, 1000⟩).pendingSamples ∧
      ((q = [] ∧ delivered segs.flatten = (QueueItem.silence ⟨125, 1000⟩).pendingSamples) ∨
       (∃ it', q = [it'] ∧ it'.Generated ∧
          delivered segs.flatten ++ it'.pendingSamples =
            (QueueItem.silence ⟨125, 1000⟩).pendingSamples)) :=
  C3_backpressure_no_duplication_no_loss ⟨noFiles, halfFloor⟩ 1003
    { MsgHandler.new 8000 with msg_queue := [.silence ⟨125, 1000⟩] }
    (.silence ⟨125, 1000⟩) [false, true, false]
    (by intro _ _ c hc; simp only [halfFloor]; omega) (by decide) rfl rfl (by decide)

/-! ## A sink that takes half of each block -/

theorem writeBufferFull_false (env : Env) (fuel : Nat) (s : MsgHandler)
    (h : s.msg_queue ≠ []) :
    call env fuel (.writeBufferFull false) s = playMsg env fuel s := by
  simp only [call, writeBufferFull]
  cases hq : s.msg_queue with
  | nil => exact absurd hq h
  | cons a l => simp

theorem halfCeil_last_pass (env : Env) (hhalf : ∀ log buf c, env.writeAudio log buf c = (c + 1) / 2)
    (s : MsgHandler) (it : QueueItem) (hq : s.msg_queue = [it])
    (hn : ¬ 0 < s.nesting_level) (hg : it.Generated) (hr : it.remaining ≤ 1) :
    ∃ seg, HalfPass seg ∧ delivered seg = it.pendingSamples ∧
      ∀ fuel, playMsg env (fuel + 4) s =
        .ok { s with msg_queue := [], log := s.log ++ seg } := by
  have hlen := pendingSamples_length it hg
  rcases (remaining_nonneg it hg).lt_or_eq with h | h
  · obtain ⟨buf, r, hread, hrv, hbl, hsplit, hga, hra⟩ := block_read env.fs it hg h
    have hr1 : r = 1 := by omega
    subst hr1
    have hw : env.writeAudio s.log buf 1 = 1 := by rw [hhalf]; rfl
    have hread2 := readSamples_exhausted env.fs (it.advance 1) hga WRITE_BLOCK_SIZE (by decide)
      (by omega)
    refine ⟨[.writeAudio buf 1 1, .deleteItem (it.advance 1).markExhausted, .allMsgsWritten],
      Or.inr (Or.inl ⟨_, _, rfl⟩), ?_, fun fuel => ?_⟩
    · have hl2 := pendingSamples_length (it.advance 1) hga
      have hnil : (it.advance 1).pendingSamples = [] :=
        List.length_eq_zero.mp (by omega)
      rw [hnil, List.append_nil] at hsplit
      have : List.take (1 : Int).toNat buf = buf := List.take_of_length_le (by omega)
      simp only [delivered, List.map_cons, List.map_nil, Event.accepted, List.flatten_cons,
        List.flatten_nil, List.append_nil, this]
      exact hsplit
    · rw [playMsg_init_true env (fuel + 3) s it it [] hn hq (initialize_generated _ it hg),
        msg_queue_eta s _ hq,
        writeSamples_full_write env (fuel + 2) s it _ [] buf 1 hq hread (by decide) (by decide)
          hw,
        writeSamples_zero_read env (fuel + 1) _ (it.advance 1) _ [] [] rfl hread2,
        playMsg_empty env fuel _ (by simpa [MsgHandler.emit] using hn) rfl]
      simp [MsgHandler.emit]
  · have hread := readSamples_exhausted env.fs it hg WRITE_BLOCK_SIZE (by decide) h.symm
    have hnil : it.pendingSamples = [] := List.length_eq_zero.mp (by omega)
    refine ⟨[.deleteItem it.markExhausted, .allMsgsWritten], Or.inr (Or.inr ⟨_, rfl⟩), ?_,
      fun fuel => ?_⟩
    · simp [delivered, Event.accepted, hnil]
    · rw [playMsg_init_true env (fuel + 3) s it it [] hn hq (initialize_generated _ it hg),
        msg_queue_eta s _ hq,
        writeSamples_zero_read env (fuel + 2) s it _ [] [] hq hread,
        playMsg_empty env (fuel + 1) _ (by simpa [MsgHandler.emit] using hn) rfl]
      simp [MsgHandler.emit]

theorem halfCeil_short_pass (env : Env)
    (hhalf : ∀ log buf c, env.writeAudio log buf c = (c + 1) / 2)
    (s : MsgHandler) (it : QueueItem) (hq : s.msg_queue = [it])
    (hn : ¬ 0 < s.nesting_level) (hg : it.Generated) (hr : 2 ≤ it.remaining) :
    ∃ seg ret, 1 ≤ ret ∧ ret < it.remaining ∧
      HalfPass seg ∧ delivered seg = it.pendingSamples.take ret.toNat ∧
      ∀ fuel, playMsg env (fuel + 4) s =
        .ok { s with msg_queue := [it.advance ret], log := s.log ++ seg } := by
  have hlen := pendingSamples_length it hg
  have hrl := remaining_le it hg
  obtain ⟨buf, r, hread, hrv, hbl, hsplit, hga, hra⟩ := block_read env.fs it hg (by omega)
  have hw : env.writeAudio s.log buf r = (r + 1) / 2 := hhalf _ _ _
  have hwr : wrapInt (r - (r + 1) / 2) = r / 2 := by
    rw [wrapInt_eq (by unfold IsInt; omega)]; omega
  have hun : (it.advance r).unreadSamples (r / 2) = it.advance ((r + 1) / 2) := by
    rw [unreadSamples_advance it hg r _ (by omega) (by omega) (by omega)]
    congr 1; omega
  have hbuf : buf = it.pendingSamples.take r.toNat := by
    have h1 := congrArg (List.take r.toNat) hsplit
    rw [List.take_append_of_le_length (by omega), List.take_of_length_le (by omega)] at h1
    exact h1
  refine ⟨[.writeAudio buf r ((r + 1) / 2), .unreadSamples (r / 2)], (r + 1) / 2, by omega,
    by omega, Or.inl ⟨buf, r, by omega, rfl⟩, ?_, fun fuel => ?_⟩
  · simp only [delivered, List.map_cons, List.map_nil, Event.accepted, List.flatten_cons,
      List.flatten_nil, List.append_nil]
    rw [hbuf, List.take_take, Nat.min_eq_left (by omega)]
  · rw [playMsg_init_true env (fuel + 3) s it it [] hn hq (initialize_generated _ it hg),
      msg_queue_eta s _ hq,
      writeSamples_short_write env (fuel + 2) s it _ [] buf r _ hq hread (by omega) hw
        (by omega) (by omega), hwr, hun]

theorem halfCeil_run (env : Env) (hhalf : ∀ log buf c, env.writeAudio log buf c = (c + 1) / 2) :
    ∀ n : Nat, ∀ (it : QueueItem) (s : MsgHandler), it.Generated → it.remaining.toNat = n →
      s.msg_queue = [it] → s.nesting_level = 0 →
      ∃ (k : Nat) (segs : List (List Event)), k ≤ n + 1 ∧ segs.length = k ∧
        (∀ seg ∈ segs, HalfPass seg) ∧ delivered segs.flatten = it.pendingSamples ∧
        ∀ fuel, 4 ≤ fuel →
          runCalls env fuel (List.replicate k (.writeBufferFull false)) s =
            .ok { s with msg_queue := [], log := s.log ++ segs.flatten } := by
  intro n
  induction n using Nat.strong_induction_on with
  | _ n ih =>
    intro it s hg hn hq hl
    have h0 := remaining_nonneg it hg
    have hne : s.msg_queue ≠ [] := by rw [hq]; simp
    have hnl : ¬ 0 < s.nesting_level := by omega
    by_cases hr : it.remaining ≤ 1
    · obtain ⟨seg, hp, hd, he⟩ := halfCeil_last_pass env hhalf s it hq hnl hg hr
      refine ⟨1, [seg], by omega, rfl, by simpa using hp, by simpa using hd, ?_⟩
      intro fuel hf
      obtain ⟨j, rfl⟩ : ∃ j, fuel = j + 4 := ⟨fuel - 4, by omega⟩
      simp only [List.replicate, runCalls_single, writeBufferFull_false env _ s hne, he j,
        List.flatten_cons, List.flatten_nil, List.append_nil]
    · obtain ⟨seg, ret, hr1, hr2, hp, hd, he⟩ :=
        halfCeil_short_pass env hhalf s it hq hnl hg (by omega)
      have hga := advance_generated it hg ret (by omega) (by omega)
      have hra := advance_remaining it hg ret
      obtain ⟨k, segs, hk, hlen, hps, hds, hrun⟩ :=
        ih (it.advance ret).remaining.toNat (by omega) (it.advance ret)
          { s with msg_queue := [it.advance ret], log := s.log ++ seg } hga rfl rfl hl
      refine ⟨k + 1, seg :: segs, by omega, by simp [hlen], ?_, ?_, ?_⟩
      · intro x hx
        rcases List.mem_cons.mp hx with h | h
        · rw [h]; exact hp
        · exact hps x h
      · rw [List.flatten_cons, delivered_append, hd, hds,
          advance_pendingSamples it hg ret (by omega) (by omega), List.take_append_drop]
      · intro fuel hf
        obtain ⟨j, rfl⟩ : ∃ j, fuel = j + 4 := ⟨fuel - 4, by omega⟩
        simp only [List.replicate, runCalls, writeBufferFull_false env _ s hne, he j,
          hrun (j + 4) hf, List.flatten_cons, List.append_assoc]

theorem halfFloor_pass (env : Env) (hfloor : ∀ log buf c, env.writeAudio log buf c = c / 2)
    (fuel : Nat) (s s1 : MsgHandler) (it : QueueItem) (hq : s.msg_queue = [it])
    (hn : ¬ 0 < s.nesting_level) (hg : it.Generated) (hr : 1 ≤ it.remaining)
    (h : playMsg env fuel s = .ok s1) :
    ∃ it1, s1.msg_queue = [it1] ∧ it1.Generated ∧ 1 ≤ it1.remaining ∧
      s1.nesting_level = s.nesting_level := by
  have hrl := remaining_le it hg
  obtain ⟨buf, r, hread, hrv, hbl, hsplit, hga, hra⟩ := block_read env.fs it hg (by omega)
  have hw : env.writeAudio s.log buf r = r / 2 := hfloor _ _ _
  have hwr : wrapInt (r - r / 2) = r - r / 2 := wrapInt_eq (by unfold IsInt; omega)
  cases fuel with
  | zero => simp [playMsg] at h
  | succ fuel =>
    rw [playMsg_init_true env fuel s it it [] hn hq (initialize_generated _ it hg),
      msg_queue_eta s _ hq] at h
    cases fuel with
    | zero => simp [writeSamples] at h
    | succ fuel =>
      rw [writeSamples_short_write env fuel s it _ [] buf r _ hq hread (by omega) hw
        (by omega) (by omega), hwr,
        unreadSamples_advance it hg r _ (by omega) (by omega) (by omega)] at h
      cases h
      refine ⟨_, rfl, advance_generated it hg _ (by omega) (by omega), ?_, rfl⟩
      rw [advance_remaining it hg]; omega

theorem halfFloor_stuck (env : Env) (hfloor : ∀ log buf c, env.writeAudio log buf c = c / 2)
    (fuel : Nat) : ∀ (k : Nat) (s s' : MsgHandler) (it : QueueItem), s.msg_queue = [it] →
      ¬ 0 < s.nesting_level → it.Generated → 1 ≤ it.remaining →
      runCalls env fuel (List.replicate k (.writeBufferFull false)) s = .ok s' →
      s'.msg_queue ≠ [] := by
  intro k
  induction k with
  | zero =>
    intro s s' it hq _ _ _ h
    simp only [List.replicate, runCalls, Result.ok.injEq] at h
    subst h; rw [hq]; simp
  | succ k ih =>
    intro s s' it hq hn hg hr h
    simp only [List.replicate, runCalls, writeBufferFull_false env fuel s (by rw [hq]; simp)]
      at h
    cases hp : playMsg env fuel s with
    | fault f => rw [hp] at h; cases h
    | ok s1 =>
      rw [hp] at h
      obtain ⟨it1, hq1, hg1, hr1, hl1⟩ := halfFloor_pass env hfloor fuel s s1 it hq hn hg hr hp
      exact ih s1 s' it1 hq1 (by rw [hl1]; exact hn) hg1 hr1 h

/-- C4 (as amended): for every Silence or Tone item with `N >= 0` samples left
at the head of the queue and a sink that takes half of each offered block,
rounded up: each `writeBufferFull(false)` that offers two or more samples has
half of them taken and calls `unreadSamples` with the other half, a block of
one sample is taken whole; and after finitely many (at most `N + 1`) such
notifications the item has been removed from the queue, the samples delivered
being exactly the `N` samples of the item. -/
theorem C4_half_sink_delivers_all (env : Env) (s : MsgHandler) (it : QueueItem)
    (hhalf : ∀ log buf c, env.writeAudio log buf c = (c + 1) / 2) (hg : it.Generated)
    (hq : s.msg_queue = [it]) (hl : s.nesting_level = 0) :
    ∃ (k : Nat) (segs : List (List Event)), k ≤ it.remaining.toNat + 1 ∧ segs.length = k ∧
      (∀ seg ∈ segs, HalfPass seg) ∧ delivered segs.flatten = it.pendingSamples ∧
      ((delivered segs.flatten).length : Int) = it.remaining ∧
      ∀ fuel, 4 ≤ fuel →
        runCalls env fuel (List.replicate k (.writeBufferFull false)) s =
          .ok { s with msg_queue := [], log := s.log ++ segs.flatten } := by
  obtain ⟨k, segs, hk, hlen, hp, hd, hrun⟩ :=
    halfCeil_run env hhalf it.remaining.toNat it s hg rfl hq hl
  exact ⟨k, segs, hk, hlen, hp, hd, by rw [hd]; exact pendingSamples_length it hg, hrun⟩

/-- Witness of C4: a Silence item with 5 samples left on the rounding-up half
sink. -/
theorem C4_half_sink_delivers_all_witness :
    ∃ (k : Nat) (segs : List (List Event)),
      k ≤ (QueueItem.silence ⟨0, 5⟩).remaining.toNat + 1 ∧ segs.length = k ∧
      (∀ seg ∈ segs, HalfPass seg) ∧
      delivered segs.flatten = (QueueItem.silence ⟨0, 5⟩).pendingSamples ∧
      ((delivered segs.flatten).length : Int) = (QueueItem.silence ⟨0, 5⟩).remaining ∧
      ∀ fuel, 4 ≤ fuel →
        runCalls ⟨noFiles, halfCeil⟩ fuel (List.replicate k (.writeBufferFull false))
            { MsgHandler.new 8000 with msg_queue := [.silence ⟨0, 5⟩] } =
          .ok { MsgHandler.new 8000 with msg_queue := [], log := [] ++ segs.flatten } :=
  C4_half_sink_delivers_all ⟨noFiles, halfCeil⟩
    { MsgHandler.new 8000 with msg_queue := [.silence ⟨0, 5⟩] } (.silence ⟨0, 5⟩)
    (fun _ _ _ => rfl) (by decide) rfl rfl

/-- C4 as stated fails for an item of 2 samples (`playSilence(2)` at 1000 Hz).
Half rounded down: the first write offers 2 and 1 is taken, every later write
offers the last sample and 0 is taken, so no number of notifications removes
the item.  Half rounded up: the second write offers 1 sample, it is taken
whole, and no `unreadSamples` follows that write. -/
theorem C4_counterexample :
    (¬ ∃ k fuel s', runCalls ⟨noFiles, halfFloor⟩ fuel
        (List.replicate k (.writeBufferFull false))
        { MsgHandler.new 1000 with msg_queue := [.silence (SilenceQueueItem.new 2 1000)] } =
          .ok s' ∧ s'.msg_queue = []) ∧
    runCalls ⟨noFiles, halfCeil⟩ 4 (List.replicate 2 (.writeBufferFull false))
        { MsgHandler.new 1000 with msg_queue := [.silence (SilenceQueueItem.new 2 1000)] } =
      .ok { MsgHandler.new 1000 with
        log := [.writeAudio [Sample.zero, Sample.zero] 2 1, .unreadSamples 1,
          .writeAudio [Sample.zero] 1 1, .deleteItem (.silence ⟨2, -1⟩), .allMsgsWritten] } := by
  constructor
  · rintro ⟨k, fuel, s', h, hq⟩
    exact halfFloor_stuck ⟨noFiles, halfFloor⟩ (fun _ _ _ => rfl) fuel k _ s'
      (.silence (SilenceQueueItem.new 2 1000)) rfl (by decide) (by decide) (by decide) h hq
  · decide

/-! ## Claims about notifications and clearing -/

/-- C11: `writeBufferFull(true)` in any state and `writeBufferFull(false)` with
an empty queue return with the whole state, log included, unchanged (no audio,
no `allMsgsWritten`); `writeBufferFull(false)` with a non-empty queue is
exactly `playMsg()`. -/
theorem C11_writeBufferFull_resumes (env : Env) (fuel : Nat) (s : MsgHandler) (is_full : Bool) :
    call env fuel (.writeBufferFull is_full) s =
      (if is_full = false ∧ s.msg_queue ≠ [] then playMsg env fuel s else .ok s) ∧
    writeBufferFull env fuel true s = .ok s ∧
    (s.msg_queue = [] → writeBufferFull env fuel false s = .ok s) ∧
    (s.msg_queue ≠ [] → writeBufferFull env fuel false s = playMsg env fuel s) := by
  refine ⟨?_, ?_, ?_, ?_⟩
  · simp only [call, writeBufferFull]
    cases is_full <;> cases hq : s.msg_queue <;> simp
  · simp [writeBufferFull]
  · intro hq; simp [writeBufferFull, hq]
  · intro hq
    simp only [writeBufferFull]
    cases hq' : s.msg_queue with
    | nil => exact absurd hq' hq
    | cons a l => simp

/-- C12: `clear()` in every state returns with the queue empty, every queued
item deleted, `allMsgsWritten` emitted exactly once (as the last event), no
`writeAudio` call, and `nesting_level`, `pending_play_next` and `sample_rate`
unchanged. -/
theorem C12_clear_empties_queue (env : Env) (fuel : Nat) (s : MsgHandler) :
    call env fuel .clear s = .ok (clear s) ∧
    (clear s).msg_queue = [] ∧
    (clear s).log = s.log ++ s.msg_queue.map Event.deleteItem ++ [.allMsgsWritten] ∧
    ((clear s).log.drop s.log.length).count .allMsgsWritten = 1 ∧
    writeCalls ((clear s).log.drop s.log.length) = [] ∧
    delivered ((clear s).log.drop s.log.length) = [] ∧
    (clear s).nesting_level = s.nesting_level ∧
    (clear s).pending_play_next = s.pending_play_next ∧
    (clear s).sample_rate = s.sample_rate := by
  have hdrop : (clear s).log.drop s.log.length =
      s.msg_queue.map Event.deleteItem ++ [.allMsgsWritten] := by
    simp [clear, MsgHandler.emit]
  refine ⟨rfl, rfl, by simp [clear, MsgHandler.emit], ?_, ?_, ?_, rfl, rfl, rfl⟩
  · rw [hdrop, List.count_append]
    have : List.count Event.allMsgsWritten (s.msg_queue.map Event.deleteItem) = 0 := by
      rw [List.count_eq_zero]
      simp
    rw [this]; rfl
  · rw [hdrop]
    simp [writeCalls, Event.isWrite]
  · rw [hdrop]
    induction s.msg_queue with
    | nil => rfl
    | cons a l ih => simp [delivered, Event.accepted]

/-! ## Item by item: playing a queue out on a sink that takes everything -/

theorem itemPlayed_no_allMsgsWritten (it : QueueItem) (seg : List Event)
    (h : ItemPlayed it seg) : Event.allMsgsWritten ∉ seg := by
  obtain ⟨ws, rfl, hw, _, _⟩ := h
  intro hm
  rcases List.mem_append.mp hm with h1 | h1
  · obtain ⟨_, _, he, _⟩ := hw _ h1
    cases he
  · simp at h1

theorem itemsPlayed_no_allMsgsWritten : ∀ (q : List QueueItem) (segs : List (List Event)),
    List.Forall₂ ItemPlayed q segs → Event.allMsgsWritten ∉ segs.flatten := by
  intro q segs h
  induction h with
  | nil => simp
  | cons h1 _ ih =>
    rw [List.flatten_cons, List.mem_append]
    rintro (h | h)
    · exact itemPlayed_no_allMsgsWritten _ _ h1 h
    · exact ih h

theorem itemsPlayed_delivered : ∀ (q : List QueueItem) (segs : List (List Event)),
    List.Forall₂ ItemPlayed q segs → delivered segs.flatten = pendingQueue q := by
  intro q segs h
  induction h with
  | nil => rfl
  | cons h1 _ ih =>
    obtain ⟨ws, rfl, _, _, hd⟩ := h1
    rw [List.flatten_cons, delivered_append, delivered_append, hd, ih, pendingQueue_cons]
    simp [delivered, Event.accepted]

theorem acceptAll_segments (env : Env) (base : List Event) (hacc : AcceptsAllFrom env base) :
    ∀ fuel : Nat, ∀ s : MsgHandler, base <+: s.log → ¬ 0 < s.nesting_level →
      (∀ it ∈ s.msg_queue, it.Generated) →
      (queueCost s.msg_queue ≤ fuel →
        ∃ segs : List (List Event), playMsg env fuel s =
            .ok { s with msg_queue := [], log := s.log ++ segs.flatten ++ [.allMsgsWritten] } ∧
          List.Forall₂ ItemPlayed s.msg_queue segs) ∧
      (∀ it rest, s.msg_queue = it :: rest → it.remaining.toNat + 1 + queueCost rest ≤ fuel →
        ∃ segs : List (List Event), writeSamples env fuel s =
            .ok { s with msg_queue := [], log := s.log ++ segs.flatten ++ [.allMsgsWritten] } ∧
          List.Forall₂ ItemPlayed s.msg_queue segs) := by
  intro fuel
  induction fuel with
  | zero =>
    intro s _ _ _
    constructor
    · intro h; have := queueCost_pos s.msg_queue; omega
    · intro it rest _ h; omega
  | succ fuel ih =>
    intro s hb hn hg
    constructor
    · intro hc
      cases hq : s.msg_queue with
      | nil =>
        refine ⟨[], ?_, List.Forall₂.nil⟩
        rw [playMsg_empty env fuel s hn hq]
        cases s; simp only at hq; subst hq; simp [MsgHandler.emit]
      | cons it rest =>
        rw [hq, queueCost] at hc
        have hgi : it.Generated := hg it (by rw [hq]; exact List.mem_cons_self _ _)
        rw [playMsg_init_true env fuel s it it rest hn hq (initialize_generated _ it hgi),
          msg_queue_eta s _ hq]
        have := (ih s hb hn hg).2 it rest hq (by omega)
        rw [hq] at this
        exact this
    · intro it rest hq hc
      have hgi : it.Generated := hg it (by rw [hq]; exact List.mem_cons_self _ _)
      have hgr : ∀ jt ∈ rest, jt.Generated := fun jt hj =>
        hg jt (by rw [hq]; exact List.mem_cons_of_mem _ hj)
      rcases (remaining_nonneg it hgi).lt_or_eq with hr | hr
      · obtain ⟨buf, r, hread, hrv, hbl, hsplit, hga, hra⟩ := block_read env.fs it hgi hr
        have hr0 : r ≠ 0 := by omega
        have hr1 : r ≠ -1 := by omega
        have hw : env.writeAudio s.log buf r = r := hacc _ _ _ hb
        rw [writeSamples_full_write env fuel s it _ rest buf r hq hread hr0 hr1 hw]
        obtain ⟨segs, he, hp⟩ :=
          (ih { s with msg_queue := it.advance r :: rest,
                       log := s.log ++ [.writeAudio buf r r] }
            (hb.trans (List.prefix_append _ _)) hn
            (by
              intro jt hj
              rcases List.mem_cons.mp hj with h | h
              · rw [h]; exact hga
              · exact hgr jt h)).2 (it.advance r) rest rfl (by rw [hra]; omega)
        simp only at hp
        cases hp with
        | cons h1 hrest =>
          rename_i seg1 segsR
          obtain ⟨ws, hseg, hfw, ho, hd⟩ := h1
          refine ⟨(.writeAudio buf r r :: seg1) :: segsR, ?_, ?_⟩
          · rw [he]; simp
          · rw [hq]
            refine List.Forall₂.cons ⟨.writeAudio buf r r :: ws, ?_, ?_, ?_, ?_⟩ hrest
            · rw [hseg, advance_advance, hra]
              have : r + (it.remaining - r) = it.remaining := by ring
              rw [this]; rfl
            · intro e he'
              rcases List.mem_cons.mp he' with h | h
              · exact ⟨buf, r, h, by omega⟩
              · exact hfw e h
            · rw [offeredStream_cons, ho, ← hsplit]; rfl
            · rw [delivered_cons, hd, ← hsplit]
              have : List.take r.toNat buf = buf := List.take_of_length_le (by omega)
              simp [Event.accepted, this]
      · have hread := readSamples_exhausted env.fs it hgi WRITE_BLOCK_SIZE (by decide) hr.symm
        rw [writeSamples_zero_read env fuel s it _ rest [] hq hread]
        have hlen := pendingSamples_length it hgi
        have hnil : it.pendingSamples = [] :=
          List.length_eq_zero.mp (by rw [← hr] at hlen; exact_mod_cast hlen)
        obtain ⟨segs, he, hp⟩ :=
          (ih (MsgHandler.emit { s with msg_queue := rest } (.deleteItem it.markExhausted))
            (hb.trans (List.prefix_append _ _)) hn hgr).1 (by simp only [MsgHandler.emit]; omega)
        simp only [MsgHandler.emit] at hp
        refine ⟨[.deleteItem it.markExhausted] :: segs, ?_, ?_⟩
        · rw [he]; simp [MsgHandler.emit]
        · rw [hq]
          refine List.Forall₂.cons ⟨[], ?_, ?_, ?_, ?_⟩ hp
          · rw [← hr, advance_zero]; rfl
          · intro e he'; simp at he'
          · rw [hnil]; rfl
          · rw [hnil]; rfl

/-- C13: for every queue of Silence/Tone items with non-negative sample counts
at nesting level 0 and a sink that takes everything, `playMsg` (given the step
budget `queueCost`) returns with the queue empty; its events are, item by item
in queue order, the item's blocks written whole and then, the next read having
returned 0, the deletion of that exhausted item; after the last item
`allMsgsWritten` is the final event and it occurs exactly once. -/
theorem C13_queue_empty_reported_once (env : Env) (fuel : Nat) (s : MsgHandler)
    (hg : ∀ it ∈ s.msg_queue, it.Generated) (hl : s.nesting_level = 0)
    (hacc : AcceptsAllFrom env s.log) (hf : queueCost s.msg_queue ≤ fuel) :
    ∃ segs : List (List Event),
      playMsg env fuel s =
        .ok { s with msg_queue := [], log := s.log ++ segs.flatten ++ [.allMsgsWritten] } ∧
      List.Forall₂ ItemPlayed s.msg_queue segs ∧
      (segs.flatten ++ [Event.allMsgsWritten]).count .allMsgsWritten = 1 ∧
      delivered segs.flatten = pendingQueue s.msg_queue := by
  obtain ⟨segs, he, hp⟩ :=
    (acceptAll_segments env s.log hacc fuel s (List.prefix_refl _) (by omega) hg).1 hf
  refine ⟨segs, he, hp, ?_, ?_⟩
  · rw [List.count_append, List.count_eq_zero.mpr (itemsPlayed_no_allMsgsWritten _ _ hp)]
    rfl
  · exact itemsPlayed_delivered _ _ hp

/-- Witness of C13: 1 ms of silence and a two-sample tone at 8000 Hz. -/
theorem C13_queue_empty_reported_once_witness :
    ∃ segs : List (List Event),
      playMsg quietEnv 30
          { MsgHandler.new 8000 with
            msg_queue := [.silence ⟨1, 8⟩, .tone ⟨440, 500, 2, 0, 8000⟩] } =
        .ok { MsgHandler.new 8000 with
              msg_queue := [], log := [] ++ segs.flatten ++ [.allMsgsWritten] } ∧
      List.Forall₂ ItemPlayed [.silence ⟨1, 8⟩, .tone ⟨440, 500, 2, 0, 8000⟩] segs ∧
      (segs.flatten ++ [Event.allMsgsWritten]).count .allMsgsWritten = 1 ∧
      delivered segs.flatten = pendingQueue [.silence ⟨1, 8⟩, .tone ⟨440, 500, 2, 0, 8000⟩] :=
  C13_queue_empty_reported_once quietEnv 30
    { MsgHandler.new 8000 with msg_queue := [.silence ⟨1, 8⟩, .tone ⟨440, 500, 2, 0, 8000⟩] }
    (by decide) rfl (fun _ _ _ _ => rfl) (by decide)

/-! ## Claims about ModuleEchoLink -/

/-- C14: with `max_connections = 2` and `max_qsos = 1`, two incoming requests
whose addresses pass the filter are both accepted and registered as pending
(`Connecting`) sessions; a third request is then rejected whatever the states of
the first two, whatever its address, and the sessions are left as they are. -/
theorem C14_third_connection_rejected (allow : String → Bool) (ip1 ip2 c1 c2 n1 n2 : String)
    (h1 : allow ip1 = true) (h2 : allow ip2 = true) :
    onIncomingConnection allow false ip1 c1 n1
        { qsos := [], max_connections := 2, max_qsos := 1, talker := none } =
      ({ qsos := [⟨c1, .connecting⟩], max_connections := 2, max_qsos := 1, talker := none },
        true) ∧
    onIncomingConnection allow false ip2 c2 n2
        { qsos := [⟨c1, .connecting⟩], max_connections := 2, max_qsos := 1, talker := none } =
      ({ qsos := [⟨c1, .connecting⟩, ⟨c2, .connecting⟩], max_connections := 2, max_qsos := 1,
         talker := none }, true) ∧
    ∀ (st1 st2 : QsoState) (talker : Option String) (auto : Bool) (ip3 c3 n3 : String),
      onIncomingConnection allow auto ip3 c3 n3
          { qsos := [⟨c1, st1⟩, ⟨c2, st2⟩], max_connections := 2, max_qsos := 1,
            talker := talker } =
        ({ qsos := [⟨c1, st1⟩, ⟨c2, st2⟩], max_connections := 2, max_qsos := 1,
           talker := talker }, false) := by
  refine ⟨?_, ?_, ?_⟩
  · simp [onIncomingConnection, numConnectedStations, h1]
  · simp [onIncomingConnection, numConnectedStations, h2]
  · intro st1 st2 talker auto ip3 c3
    simp [onIncomingConnection]

/-- Witness of C14: every address allowed, callsigns SM0ABC and SM0XYZ. -/
theorem C14_third_connection_rejected_witness :
    onIncomingConnection (fun _ => true) false "10.0.0.1" "SM0ABC" "Anna"
        { qsos := [], max_connections := 2, max_qsos := 1, talker := none } =
      ({ qsos := [⟨"SM0ABC", .connecting⟩], max_connections := 2, max_qsos := 1,
         talker := none }, true) ∧
    onIncomingConnection (fun _ => true) false "10.0.0.2" "SM0XYZ" "Bo"
        { qsos := [⟨"SM0ABC", .connecting⟩], max_connections := 2, max_qsos := 1,
          talker := none } =
      ({ qsos := [⟨"SM0ABC", .connecting⟩, ⟨"SM0XYZ", .connecting⟩], max_connections := 2,
         max_qsos := 1, talker := none }, true) ∧
    ∀ (st1 st2 : QsoState) (talker : Option String) (auto : Bool) (ip3 c3 n3 : String),
      onIncomingConnection (fun _ => true) auto ip3 c3 n3
          { qsos := [⟨"SM0ABC", st1⟩, ⟨"SM0XYZ", st2⟩], max_connections := 2, max_qsos := 1,
            talker := talker } =
        ({ qsos := [⟨"SM0ABC", st1⟩, ⟨"SM0XYZ", st2⟩], max_connections := 2, max_qsos := 1,
           talker := talker }, false) :=
  C14_third_connection_rejected (fun _ => true) "10.0.0.1" "10.0.0.2" "SM0ABC" "SM0XYZ"
    "Anna" "Bo" rfl rfl

theorem hasState_iff (c : String) (st : QsoState) (qsos : List QsoImpl) :
    hasState c st qsos = true ↔ ∃ q ∈ qsos, q.callsign = c ∧ q.state = st := by
  simp [hasState]

theorem talkingIn_setState_talking (c x : String) (qsos : List QsoImpl) :
    TalkingIn (setState c .talking qsos) x ↔
      (x = c ∧ ∃ q ∈ qsos, q.callsign = c) ∨ (x ≠ c ∧ TalkingIn qsos x) := by
  constructor
  · rintro ⟨q', hq', hc, hs⟩
    obtain ⟨q, hq, rfl⟩ := List.mem_map.mp hq'
    by_cases h : q.callsign = c
    · simp only [h, if_true] at hc hs
      exact Or.inl ⟨hc.symm, q, hq, h⟩
    · simp only [h, if_false] at hc hs
      exact Or.inr ⟨by rw [← hc]; exact h, q, hq, hc, hs⟩
  · rintro (⟨rfl, q, hq, hc⟩ | ⟨hne, q, hq, hc, hs⟩)
    · exact ⟨_, List.mem_map.mpr ⟨q, hq, rfl⟩, by simp [hc], by simp [hc]⟩
    · refine ⟨_, List.mem_map.mpr ⟨q, hq, rfl⟩, ?_, ?_⟩
      · rw [if_neg (by rw [hc]; exact hne)]; exact hc
      · rw [if_neg (by rw [hc]; exact hne)]; exact hs

theorem talkingIn_setState_connected (c x : String) (qsos : List QsoImpl) :
    TalkingIn (setState c .connected qsos) x ↔ x ≠ c ∧ TalkingIn qsos x := by
  constructor
  · rintro ⟨q', hq', hc, hs⟩
    obtain ⟨q, hq, rfl⟩ := List.mem_map.mp hq'
    by_cases h : q.callsign = c
    · simp [h] at hs
    · simp only [h, if_false] at hc hs
      exact ⟨by rw [← hc]; exact h, q, hq, hc, hs⟩
  · rintro ⟨hne, q, hq, hc, hs⟩
    refine ⟨_, List.mem_map.mpr ⟨q, hq, rfl⟩, ?_, ?_⟩
    · rw [if_neg (by rw [hc]; exact hne)]; exact hc
    · rw [if_neg (by rw [hc]; exact hne)]; exact hs

theorem hasState_setState_ne (c d : String) (st st' : QsoState) (qsos : List QsoImpl)
    (h : c ≠ d) : hasState c st (setState d st' qsos) = hasState c st qsos := by
  induction qsos with
  | nil => rfl
  | cons q l ih =>
    simp only [hasState, setState, List.map_cons, List.any_cons] at ih ⊢
    rw [ih]
    by_cases hq : q.callsign = d
    · have : ¬ q.callsign = c := by rw [hq]; exact fun e => h e.symm
      simp [hq, this, h, Ne.symm h]
    · simp [hq]

theorem findFirstTalker_some (m : ModuleEchoLink) (x : String)
    (h : findFirstTalker m = some x) : TalkingIn m.qsos x := by
  simp only [findFirstTalker, Option.map_eq_some'] at h
  obtain ⟨q, hq, rfl⟩ := h
  have h1 := List.find?_some hq
  exact ⟨q, List.mem_of_find?_eq_some hq, rfl, by simpa using h1⟩

theorem findFirstTalker_none (m : ModuleEchoLink) (h : findFirstTalker m = none) :
    ∀ c, ¬ TalkingIn m.qsos c := by
  simp only [findFirstTalker, Option.map_eq_none', List.find?_eq_none] at h
  rintro c ⟨q, hq, _, hs⟩
  exact h q hq (by simp [hs])

theorem talkerInv_onIsReceiving (b : Bool) (qso : String) (m : ModuleEchoLink)
    (hi : TalkerInv m) : TalkerInv (onIsReceiving b qso m) := by
  obtain ⟨h1, h2⟩ := hi
  unfold onIsReceiving
  cases b with
  | true =>
    simp only [if_true]
    split
    · next hc =>
      obtain ⟨q, hq, hqc, _⟩ := (hasState_iff _ _ _).mp hc
      split
      · next ht =>
        refine ⟨?_, by simp⟩
        intro t ht'
        simp only [Option.some.injEq] at ht'
        subst ht'
        exact (talkingIn_setState_talking _ _ _).mpr (Or.inl ⟨rfl, q, hq, hqc⟩)
      · next ht =>
        refine ⟨?_, fun h => absurd h ht⟩
        intro t ht'
        by_cases e : t = qso
        · exact (talkingIn_setState_talking _ _ _).mpr (Or.inl ⟨e, q, hq, hqc⟩)
        · exact (talkingIn_setState_talking _ _ _).mpr (Or.inr ⟨e, h1 t ht'⟩)
    · exact ⟨h1, h2⟩
  | false =>
    simp only [Bool.false_eq_true, if_false]
    split
    · next hc =>
      split
      · next ht =>
        constructor
        · intro t ht'
          exact findFirstTalker_some _ t ht'
        · intro hn
          exact findFirstTalker_none _ hn
      · next ht =>
        constructor
        · intro t ht'
          have hne : t ≠ qso := by
            rintro rfl; exact ht ht'
          exact (talkingIn_setState_connected _ _ _).mpr ⟨hne, h1 t ht'⟩
        · intro hn c hc'
          exact h2 hn c ((talkingIn_setState_connected _ _ _).mp hc').2
    · exact ⟨h1, h2⟩

theorem talkerInv_runReceiving : ∀ (evs : List (Bool × String)) (m : ModuleEchoLink),
    TalkerInv m → TalkerInv (runReceiving evs m) := by
  intro evs
  induction evs with
  | nil => intro m h; exact h
  | cons e evs ih =>
    intro m h
    obtain ⟨b, q⟩ := e
    exact ih _ (talkerInv_onIsReceiving b q m h)

theorem hasState_talking_iff (c : String) (qsos : List QsoImpl) :
    hasState c .talking qsos = true ↔ TalkingIn qsos c :=
  hasState_iff c .talking qsos

/-- C15: from a module in which no session is `Talking` and there is no talker,
with connected sessions `A ≠ B`: once `A` and then `B` have started talking the
talker is `A`; when `A` stops while `B` is still talking, the talker is `B`
after that same notification; when `B` stops too the talker is none.  Over any
sequence of notifications the talker, if any, is a `Talking` session, so that
the talker is none when no session is `Talking`. -/
theorem C15_talker_arbitration (m : ModuleEchoLink) (A B : String) (hAB : A ≠ B)
    (hA : hasState A .connected m.qsos = true) (hB : hasState B .connected m.qsos = true)
    (hquiet : ∀ c, ¬ TalkingIn m.qsos c) (ht : m.talker = none) :
    (onIsReceiving true A m).talker = some A ∧
    (onIsReceiving true B (onIsReceiving true A m)).talker = some A ∧
    (onIsReceiving false A (onIsReceiving true B (onIsReceiving true A m))).talker = some B ∧
    (onIsReceiving false B (onIsReceiving false A
      (onIsReceiving true B (onIsReceiving true A m)))).talker = none ∧
    ∀ evs : List (Bool × String),
      (∀ c, ¬ TalkingIn (runReceiving evs m).qsos c) → (runReceiving evs m).talker = none := by
  obtain ⟨qa, hqa, hqac, _⟩ := (hasState_iff _ _ _).mp hA
  obtain ⟨qb, hqb, hqbc, _⟩ := (hasState_iff _ _ _).mp hB
  -- after A starts talking
  have e1 : onIsReceiving true A m =
      { m with qsos := setState A .talking m.qsos, talker := some A } := by
    simp [onIsReceiving, hA, ht]
  -- after B starts talking
  have hB1 : hasState B .connected (setState A .talking m.qsos) = true := by
    rw [hasState_setState_ne B A _ _ _ (Ne.symm hAB)]; exact hB
  have e2 : onIsReceiving true B (onIsReceiving true A m) =
      { m with qsos := setState B .talking (setState A .talking m.qsos), talker := some A } := by
    rw [e1]; simp [onIsReceiving, hB1]
  have hT2 : ∀ x, TalkingIn (setState B .talking (setState A .talking m.qsos)) x ↔
      x = A ∨ x = B := by
    intro x
    rw [talkingIn_setState_talking, talkingIn_setState_talking]
    constructor
    · rintro (⟨rfl, _⟩ | ⟨_, (⟨rfl, _⟩ | ⟨_, h⟩)⟩)
      · exact Or.inr rfl
      · exact Or.inl rfl
      · exact absurd h (hquiet x)
    · rintro (rfl | rfl)
      · exact Or.inr ⟨hAB, Or.inl ⟨rfl, qa, hqa, hqac⟩⟩
      · refine Or.inl ⟨rfl, ?_⟩
        exact ⟨_, List.mem_map.mpr ⟨qb, hqb, rfl⟩, by simp [hqbc, Ne.symm hAB]⟩
  -- after A stops talking
  have hA2 : hasState A .talking (setState B .talking (setState A .talking m.qsos)) = true :=
    (hasState_talking_iff _ _).mpr ((hT2 A).mpr (Or.inl rfl))
  have hT3 : ∀ x, TalkingIn
      (setState A .connected (setState B .talking (setState A .talking m.qsos))) x ↔ x = B := by
    intro x
    rw [talkingIn_setState_connected, hT2]
    constructor
    · rintro ⟨hne, (h | h)⟩
      · exact absurd h hne
      · exact h
    · rintro rfl; exact ⟨Ne.symm hAB, Or.inr rfl⟩
  have hf3 : findFirstTalker
      { m with qsos := setState A .connected (setState B .talking (setState A .talking m.qsos)),
               talker := some A } = some B := by
    cases hf : findFirstTalker
      { m with qsos := setState A .connected (setState B .talking (setState A .talking m.qsos)),
               talker := some A } with
    | none => exact absurd ((hT3 B).mpr rfl) (findFirstTalker_none _ hf B)
    | some x => rw [(hT3 x).mp (findFirstTalker_some _ x hf)]
  have e3 : onIsReceiving false A (onIsReceiving true B (onIsReceiving true A m)) =
      { m with qsos := setState A .connected (setState B .talking (setState A .talking m.qsos)),
               talker := some B } := by
    rw [e2]; simp [onIsReceiving, hA2, hf3]
  -- after B stops talking
  have hB3 : hasState B .talking
      (setState A .connected (setState B .talking (setState A .talking m.qsos))) = true :=
    (hasState_talking_iff _ _).mpr ((hT3 B).mpr rfl)
  have hf4 : findFirstTalker
      { m with qsos := setState B .connected
                 (setState A .connected (setState B .talking (setState A .talking m.qsos))),
               talker := some B } = none := by
    cases hf : findFirstTalker
      { m with qsos := setState B .connected
                 (setState A .connected (setState B .talking (setState A .talking m.qsos))),
               talker := some B } with
    | none => rfl
    | some x =>
      have h := (talkingIn_setState_connected _ _ _).mp (findFirstTalker_some _ x hf)
      exact absurd ((hT3 x).mp h.2) h.1
  have e4 : onIsReceiving false B (onIsReceiving false A
      (onIsReceiving true B (onIsReceiving true A m))) =
      { m with qsos := setState B .connected
                 (setState A .connected (setState B .talking (setState A .talking m.qsos))),
               talker := none } := by
    rw [e3]; simp [onIsReceiving, hB3, hf4]
  refine ⟨by rw [e1], by rw [e2], by rw [e3], by rw [e4], ?_⟩
  intro evs hno
  have hinv : TalkerInv m := ⟨fun t h => (by rw [ht] at h; cases h), fun _ => hquiet⟩
  have h := (talkerInv_runReceiving evs m hinv).1
  cases htk : (runReceiving evs m).talker with
  | none => rfl
  | some t => exact absurd (h t htk) (hno t)

/-- Witness of C15: sessions SM0ABC and SM0XYZ, both connected, registered in
the order XYZ, ABC. -/
theorem C15_talker_arbitration_witness :
    (onIsReceiving true "SM0ABC"
      ⟨[⟨"SM0XYZ", .connected⟩, ⟨"SM0ABC", .connected⟩], 2, 2, none⟩).talker = some "SM0ABC" ∧
    (onIsReceiving true "SM0XYZ" (onIsReceiving true "SM0ABC"
      ⟨[⟨"SM0XYZ", .connected⟩, ⟨"SM0ABC", .connected⟩], 2, 2, none⟩)).talker =
        some "SM0ABC" ∧
    (onIsReceiving false "SM0ABC" (onIsReceiving true "SM0XYZ" (onIsReceiving true "SM0ABC"
      ⟨[⟨"SM0XYZ", .connected⟩, ⟨"SM0ABC", .connected⟩], 2, 2, none⟩))).talker =
        some "SM0XYZ" ∧
    (onIsReceiving false "SM0XYZ" (onIsReceiving false "SM0ABC"
      (onIsReceiving true "SM0XYZ" (onIsReceiving true "SM0ABC"
        ⟨[⟨"SM0XYZ", .connected⟩, ⟨"SM0ABC", .connected⟩], 2, 2, none⟩)))).talker = none ∧
    ∀ evs : List (Bool × String),
      (∀ c, ¬ TalkingIn (runReceiving evs
        ⟨[⟨"SM0XYZ", .connected⟩, ⟨"SM0ABC", .connected⟩], 2, 2, none⟩).qsos c) →
      (runReceiving evs
        ⟨[⟨"SM0XYZ", .connected⟩, ⟨"SM0ABC", .connected⟩], 2, 2, none⟩).talker = none :=
  C15_talker_arbitration ⟨[⟨"SM0XYZ", .connected⟩, ⟨"SM0ABC", .connected⟩], 2, 2, none⟩
    "SM0ABC" "SM0XYZ" (by decide) (by decide) (by decide)
    (by
      rintro c ⟨q, hq, _, hs⟩
      simp only [List.mem_cons, List.mem_singleton, List.not_mem_nil, or_false] at hq
      rcases hq with rfl | rfl <;> cases hs)
    rfl

/-! ## The nesting counter -/

/-- At nesting level 0 or below, `playMsg` and `writeSamples` leave
`pending_play_next` as it is. -/
theorem playMsg_writeSamples_pending (env : Env) : ∀ fuel : Nat, ∀ s s' : MsgHandler,
    (playMsg env fuel s = .ok s' → ¬ 0 < s.nesting_level →
      s'.pending_play_next = s.pending_play_next) ∧
    (writeSamples env fuel s = .ok s' → ¬ 0 < s.nesting_level →
      s'.pending_play_next = s.pending_play_next) := by
  intro fuel
  induction fuel with
  | zero => intro s s'; constructor <;> (intro h; simp [playMsg, writeSamples] at h)
  | succ fuel ih =>
    intro s s'
    constructor
    · intro h hn
      rw [playMsg, if_neg hn] at h
      split at h
      · cases h; rfl
      · split at h
        · have hres := (ih _ s').1 h hn
          exact hres
        · have hres := (ih _ s').2 h hn
          exact hres
    · intro h hn
      rw [writeSamples] at h
      split at h
      · cases h
      · split at h
        · cases h
        · split at h
          · have hres := (ih _ s').1 h hn
            exact hres
          · simp only at h
            split at h
            · have hres := (ih _ s').1 h hn
              exact hres
            · split at h
              · have hres := (ih _ s').2 h hn
                exact hres
              · cases h; rfl

theorem end_above_one (env : Env) (fuel : Nat) (s : MsgHandler) (hi : IsInt s.nesting_level)
    (h : 1 < s.nesting_level) :
    end_ env fuel s = .ok { s with nesting_level := s.nesting_level - 1 } := by
  have hw : wrapInt (s.nesting_level - 1) = s.nesting_level - 1 :=
    wrapInt_eq (by unfold IsInt at *; omega)
  simp only [end_, hw]
  rw [if_neg (by omega), if_neg (by omega)]

theorem begin_at_zero (s : MsgHandler) (h : s.nesting_level = 0) :
    begin s = { s with nesting_level := 1, pending_play_next := false } := by
  have hw : wrapInt 1 = 1 := by decide
  simp [begin, h, hw]

theorem begin_above_zero (s : MsgHandler) (h0 : 0 < s.nesting_level)
    (h1 : s.nesting_level < 2147483647) :
    begin s = { s with nesting_level := s.nesting_level + 1 } := by
  have hw : wrapInt (s.nesting_level + 1) = s.nesting_level + 1 :=
    wrapInt_eq (by unfold IsInt; omega)
  have hne : ¬ s.nesting_level = 0 := by omega
  simp [begin, hne, hw]

/-- C16: for a state with `nesting_level = n >= 1`: `end()` with `n > 1` only
decrements the counter (queue, `pending_play_next` and log unchanged); `end()`
with `n = 1` sets the counter to 0 and, if a request is pending, clears
`pending_play_next` and runs `playMsg` once, and otherwise does nothing else;
`begin()` followed at once by `end()` gives back the state it started from (at
level 0, where `begin()` resets `pending_play_next`, up to that flag, which is
false in every reachable state), with nothing written and no `allMsgsWritten`. -/
theorem C16_end_defers_to_outermost (env : Env) (fuel : Nat) (s : MsgHandler)
    (hi : IsInt s.nesting_level) :
    (1 < s.nesting_level →
      end_ env fuel s = .ok { s with nesting_level := s.nesting_level - 1 }) ∧
    (s.nesting_level = 1 →
      end_ env fuel s =
        if s.pending_play_next then
          playMsg env fuel { s with nesting_level := 0, pending_play_next := false }
        else .ok { s with nesting_level := 0 }) ∧
    (s.nesting_level = 0 →
      end_ env fuel (begin s) = .ok { s with pending_play_next := false } ∧
      (s.pending_play_next = false → end_ env fuel (begin s) = .ok s)) ∧
    (0 < s.nesting_level → s.nesting_level < 2147483647 →
      end_ env fuel (begin s) = .ok s) := by
  refine ⟨end_above_one env fuel s hi, end_level_one env fuel s, ?_, ?_⟩
  · intro h0
    have e : end_ env fuel (begin s) = .ok { s with pending_play_next := false } := by
      rw [begin_at_zero s h0, end_level_one env fuel _ rfl]
      cases s; simp only at h0; subst h0; simp
    refine ⟨e, fun hp => ?_⟩
    rw [e]; cases s; simp only at hp; subst hp; rfl
  · intro h0 h1
    rw [begin_above_zero s h0 h1,
      end_above_one env fuel _ (by unfold IsInt at *; simp only; omega) (by simp only; omega)]
    cases s; simp

/-- Witness of C16: a fresh handler. -/
theorem C16_end_defers_to_outermost_witness :
    IsInt (MsgHandler.new 8000).nesting_level ∧
    end_ quietEnv 3 (begin (MsgHandler.new 8000)) = .ok (MsgHandler.new 8000) :=
  ⟨by decide,
   ((C16_end_defers_to_outermost quietEnv 3 (MsgHandler.new 8000) (by decide)).2.2.1 rfl).2 rfl⟩

theorem call_nesting (env : Env) (fuel : Nat) (c : Call) (s s1 : MsgHandler) (k : Int)
    (h0 : 0 ≤ s.nesting_level) (hk : s.nesting_level ≤ k) (hk2 : k < 2147483647)
    (hp : s.nesting_level = 0 → s.pending_play_next = false)
    (hr : call env fuel c s = .ok s1) :
    0 ≤ s1.nesting_level ∧ s1.nesting_level ≤ k + 1 ∧
      (s1.nesting_level = 0 → s1.pending_play_next = false) ∧
      s1.nesting_level = s.nesting_level + c.depthChange := by
  have key : ∀ t : MsgHandler, playMsg env fuel t = .ok s1 →
      t.nesting_level = s.nesting_level →
      (t.nesting_level = 0 → t.pending_play_next = false) →
      0 ≤ s1.nesting_level ∧ s1.nesting_level ≤ k + 1 ∧
        (s1.nesting_level = 0 → s1.pending_play_next = false) ∧
        s1.nesting_level = s.nesting_level + 0 := by
    intro t h ht htp
    have hl := ((playMsg_writeSamples_preserve env fuel t s1).1 h).1
    refine ⟨by omega, by omega, ?_, by omega⟩
    intro hz
    rw [(playMsg_writeSamples_pending env fuel t s1).1 h (by omega)]
    exact htp (by omega)
  have same : 0 ≤ s.nesting_level ∧ s.nesting_level ≤ k + 1 ∧
      (s.nesting_level = 0 → s.pending_play_next = false) ∧
      s.nesting_level = s.nesting_level + 0 := ⟨h0, by omega, hp, by omega⟩
  have add : ∀ item, addItemToQueue env fuel item s = .ok s1 →
      0 ≤ s1.nesting_level ∧ s1.nesting_level ≤ k + 1 ∧
        (s1.nesting_level = 0 → s1.pending_play_next = false) ∧
        s1.nesting_level = s.nesting_level + 0 := by
    intro item h
    rw [addItemToQueue_eq] at h
    split at h
    · exact key _ h rfl hp
    · cases h; exact same
  cases c with
  | playFile path => exact add _ hr
  | playSilence length => exact add _ hr
  | playTone fq amp length => exact add _ hr
  | writeBufferFull is_full =>
    simp only [call, writeBufferFull] at hr
    split at hr
    · exact key _ hr rfl hp
    · cases hr; exact same
  | clear => simp only [call] at hr; cases hr; exact same
  | begin =>
    simp only [call, Result.ok.injEq] at hr
    subst hr
    by_cases hz : s.nesting_level = 0
    · rw [begin_at_zero s hz]
      simp only [Call.depthChange]
      refine ⟨by omega, by omega, ?_, by omega⟩
      intro h
      omega
    · rw [begin_above_zero s (by omega) (by omega)]
      simp only [Call.depthChange]
      refine ⟨by omega, by omega, ?_, trivial⟩
      intro h
      omega
  | end_ =>
    simp only [call, end_] at hr
    split at hr
    · cases hr
    · next hpos =>
      have hpos' : 0 < s.nesting_level := by omega
      have hw : wrapInt (s.nesting_level - 1) = s.nesting_level - 1 :=
        wrapInt_eq (by unfold IsInt; omega)
      rw [hw] at hr
      simp only [Call.depthChange]
      split at hr
      · next hz =>
        split at hr
        · have hl := ((playMsg_writeSamples_preserve env fuel _ s1).1 hr).1
          have hpd := (playMsg_writeSamples_pending env fuel _ s1).1 hr (by simp only; omega)
          simp only at hl hpd
          refine ⟨by omega, by omega, fun _ => hpd, by omega⟩
        · next hpf =>
          cases hr
          simp only
          refine ⟨by omega, by omega, fun _ => by simpa using hpf, by omega⟩
      · next hz =>
        cases hr
        simp only
        exact ⟨by omega, by omega, fun h => absurd h hz, by omega⟩

theorem runCalls_nesting (env : Env) (fuel : Nat) : ∀ (cs : List Call) (s s' : MsgHandler)
    (k : Int), 0 ≤ s.nesting_level → s.nesting_level ≤ k → k + cs.length ≤ 2147483647 →
    (s.nesting_level = 0 → s.pending_play_next = false) →
    runCalls env fuel cs s = .ok s' →
    0 ≤ s'.nesting_level ∧ (s'.nesting_level = 0 → s'.pending_play_next = false) ∧
      s'.nesting_level = s.nesting_level + netDepth cs := by
  intro cs
  induction cs with
  | nil =>
    intro s s' k h0 _ _ hp hr
    simp only [runCalls, Result.ok.injEq] at hr
    subst hr
    exact ⟨h0, hp, by simp [netDepth]⟩
  | cons c cs ih =>
    intro s s' k h0 hk hlen hp hr
    simp only [List.length_cons, Nat.cast_add, Nat.cast_one] at hlen
    simp only [runCalls] at hr
    cases hc : call env fuel c s with
    | fault f => rw [hc] at hr; cases hr
    | ok s1 =>
      rw [hc] at hr
      obtain ⟨a1, a2, a3, a4⟩ := call_nesting env fuel c s s1 k h0 hk (by omega) hp hc
      obtain ⟨b1, b2, b3⟩ := ih s1 s' (k + 1) a1 a2 (by omega) a3 hr
      refine ⟨b1, b2, ?_⟩
      rw [b3, a4]
      simp only [netDepth, List.map_cons, List.sum_cons]
      ring

theorem balanced_run (env : Env) (fuel : Nat) : ∀ (cs : List Call) (d : Nat) (s : MsgHandler)
    (b : Int), balancedFrom d cs = true → 0 ≤ b → s.nesting_level = b + d →
    b + d + cs.length ≤ 2147483647 →
    (b = 0 → 0 < d → s.pending_play_next = false) →
    ∃ s', runCalls env fuel cs s = .ok s' ∧ s'.nesting_level = b ∧ s'.log = s.log ∧
      s'.msg_queue = s.msg_queue := by
  intro cs
  induction cs with
  | nil =>
    intro d s b hb _ hl _ _
    simp only [balancedFrom, beq_iff_eq] at hb
    subst hb
    exact ⟨s, rfl, by simpa using hl, rfl, rfl⟩
  | cons c cs ih =>
    intro d s b hb h0 hl hlen hp
    simp only [List.length_cons, Nat.cast_add, Nat.cast_one] at hlen
    cases c with
    | begin =>
      simp only [balancedFrom] at hb
      have hw : wrapInt (s.nesting_level + 1) = s.nesting_level + 1 :=
        wrapInt_eq (by unfold IsInt; omega)
      obtain ⟨s', hr, h1, h2, h3⟩ := ih (d + 1) (begin s) b hb h0
        (by simp only [begin]; split <;> simp only [hw, Nat.cast_add, Nat.cast_one] <;> omega)
        (by push_cast; omega)
        (by
          intro hb0 _
          simp only [begin]
          split
          · rfl
          · next hz => exact hp hb0 (by omega))
      refine ⟨s', ?_, h1, ?_, ?_⟩
      · simp only [runCalls, call]; exact hr
      · rw [h2]; simp only [begin]; split <;> rfl
      · rw [h3]; simp only [begin]; split <;> rfl
    | end_ =>
      simp only [balancedFrom, Bool.and_eq_true, decide_eq_true_eq] at hb
      obtain ⟨hd, hb⟩ := hb
      have hw : wrapInt (s.nesting_level - 1) = s.nesting_level - 1 :=
        wrapInt_eq (by unfold IsInt; omega)
      have hend : end_ env fuel s = .ok { s with nesting_level := s.nesting_level - 1 } := by
        simp only [end_, hw]
        rw [if_neg (by omega)]
        split
        · next hz =>
          have hpf : s.pending_play_next = false := hp (by omega) hd
          simp [hpf]
        · rfl
      obtain ⟨s', hr, h1, h2, h3⟩ := ih (d - 1) { s with nesting_level := s.nesting_level - 1 }
        b hb h0 (by simp only; omega) (by omega) (fun hb0 hd1 => hp hb0 hd)
      refine ⟨s', ?_, h1, h2, h3⟩
      simp only [runCalls, call, hend]; exact hr
    | playFile path => simp [balancedFrom] at hb
    | playSilence length => simp [balancedFrom] at hb
    | playTone fq amp length => simp [balancedFrom] at hb
    | writeBufferFull is_full => simp [balancedFrom] at hb
    | clear => simp [balancedFrom] at hb

/-- C17: starting from the constructor state, after every sequence of public
calls that returns (an `end()` at level 0 stops the run at its assertion), the
sequence being short enough for `++nesting_level` not to overflow: the nesting
counter is non-negative, it equals the number of `begin()` minus the number of
`end()` calls, and `pending_play_next` is false whenever it is 0.  And from any
state with a non-negative counter, a properly nested sequence of `begin()` /
`end()` calls returns, with the counter back at its starting value and nothing
written. -/
theorem C17_nesting_invariant (env : Env) (fuel : Nat) (sr : Int) (cs : List Call)
    (hlen : cs.length ≤ 2147483647) :
    (∀ s', runCalls env fuel cs (MsgHandler.new sr) = .ok s' →
      0 ≤ s'.nesting_level ∧ (s'.nesting_level = 0 → s'.pending_play_next = false) ∧
        s'.nesting_level = netDepth cs) ∧
    (balancedFrom 0 cs = true → ∀ s : MsgHandler, 0 ≤ s.nesting_level →
      s.nesting_level + cs.length ≤ 2147483647 →
      ∃ s', runCalls env fuel cs s = .ok s' ∧ s'.nesting_level = s.nesting_level ∧
        s'.log = s.log ∧ s'.msg_queue = s.msg_queue) := by
  constructor
  · intro s' hr
    have h := runCalls_nesting env fuel cs (MsgHandler.new sr) s' 0 (by simp [MsgHandler.new])
      (by simp [MsgHandler.new]) (by omega) (fun _ => rfl) hr
    simpa [MsgHandler.new] using h
  · intro hb s h0 hl
    exact balanced_run env fuel cs 0 s s.nesting_level hb h0 (by simp) (by simpa using hl)
      (fun _ h => absurd h (lt_irrefl 0))

/-- Witness of C17: nested brackets with an enqueue inside. -/
theorem C17_nesting_invariant_witness :
    ([Call.begin, .begin, .end_, .end_] : List Call).length ≤ 2147483647 ∧
    ∃ s', runCalls quietEnv 3 [.begin, .begin, .end_, .end_]
        { MsgHandler.new 8000 with nesting_level := 2, pending_play_next := true } = .ok s' ∧
      s'.nesting_level = 2 :=
  ⟨by decide, by
    obtain ⟨s', h1, h2, _⟩ :=
      (C17_nesting_invariant quietEnv 3 8000 [.begin, .begin, .end_, .end_] (by decide)).2
        (by decide) { MsgHandler.new 8000 with nesting_level := 2, pending_play_next := true }
        (by decide) (by decide)
    exact ⟨s', h1, h2⟩⟩

/-! ## Sample counts -/

theorem readAll_generated (fs : FileSystem) (len : Int) (hl : 1 ≤ len) :
    ∀ (fuel : Nat) (it : QueueItem), it.Generated → it.remaining.toNat + 1 ≤ fuel →
      readAll fs len fuel it = some it.pendingSamples := by
  intro fuel
  induction fuel with
  | zero => intro it _ h; omega
  | succ fuel ih =>
    intro it hg hf
    have hlen := pendingSamples_length it hg
    rcases (remaining_nonneg it hg).lt_or_eq with hr | hr
    · have hread := readSamples_generated fs it hg len (by omega) hr
      have hm0 : 0 ≤ min len it.remaining := by omega
      have hm1 : min len it.remaining ≤ it.remaining := by omega
      have hne : ¬ min len it.remaining = 0 := by omega
      simp only [readAll, hread, if_neg hne]
      rw [ih (it.advance (min len it.remaining)) (advance_generated it hg _ hm0 hm1)
        (by rw [advance_remaining it hg]; omega),
        advance_pendingSamples it hg _ hm0 hm1]
      simp only [Option.map_some', Option.some.injEq]
      rcases le_total len it.remaining with h | h
      · rw [min_eq_left h]; exact List.take_append_drop _ _
      · rw [min_eq_right h, List.take_of_length_le (by omega),
          List.drop_of_length_le (by omega), List.append_nil]
    · have hread := readSamples_exhausted fs it hg len (by omega) hr.symm
      have hnil : it.pendingSamples = [] := List.length_eq_zero.mp (by omega)
      simp only [readAll, hread, if_true, hnil]

theorem sample_count_eq (sr len : Int) (h0 : 0 ≤ sr) (h1 : 0 ≤ len)
    (h2 : sr * len ≤ 2147483647) :
    wrapInt (Int.tdiv (wrapInt (sr * len)) 1000) = sr * len / 1000 := by
  have hp : 0 ≤ sr * len := Int.mul_nonneg h0 h1
  have ha : wrapInt (sr * len) = sr * len := wrapInt_eq ⟨by omega, h2⟩
  have hb : Int.tdiv (sr * len) 1000 = sr * len / 1000 :=
    Int.tdiv_eq_ediv hp (by norm_num)
  rw [ha, hb]
  exact wrapInt_eq (by unfold IsInt; omega)

theorem tone_overflow_never_zero (fs : FileSystem) (it : ToneQueueItem)
    (h : wrapInt (it.tone_len - it.pos) < 0) :
    ∀ fuel : Nat, readAll fs 640 fuel (.tone it) = none := by
  intro fuel
  induction fuel with
  | zero => rfl
  | succ fuel ih =>
    have hm : min 640 (wrapInt (it.tone_len - it.pos)) = wrapInt (it.tone_len - it.pos) := by
      omega
    have ht : (wrapInt (it.tone_len - it.pos)).toNat = 0 := by omega
    have hne : ¬ wrapInt (it.tone_len - it.pos) = 0 := by omega
    simp only [readAll, QueueItem.readSamples, ToneQueueItem.readSamples, hm, ht,
      ToneQueueItem.fill, if_neg hne, ih, Option.map_none']

theorem writeSamples_read_fault (env : Env) (fuel : Nat) (s : MsgHandler) (item : QueueItem)
    (rest : List QueueItem) (f : Fault) (hq : s.msg_queue = item :: rest)
    (hr : item.readSamples env.fs WRITE_BLOCK_SIZE = .fault f) :
    writeSamples env (fuel + 1) s = .fault f := by
  rw [writeSamples]
  simp only [hq, hr]

/-- C18: the constructors compute the sample count as `sample_rate * len / 1000`
in `int` arithmetic, the product first.  As long as the product fits an `int`
(`sample_rate, len >= 0`), the count is `floor(sample_rate * len / 1000)` and
repeated reads of any block size `>= 1` yield exactly that many samples before a
read returns 0.  At `sample_rate = 8000`, `len = 300000` the product
2400000000 does not fit: the count becomes -1894967 instead of 2400000, the
first read of the Silence item runs `memset` with a negative count
(`playSilence` does not return normally), and the reads of the Tone item
return that negative count and never 0. -/
theorem C18_sample_count_overflows :
    (∀ (fs : FileSystem) (sr len fq amp req : Int) (fuel : Nat), 0 ≤ sr → 0 ≤ len →
      sr * len ≤ 2147483647 → 1 ≤ req → (sr * len / 1000).toNat + 1 ≤ fuel →
      (SilenceQueueItem.new len sr).silence_left = sr * len / 1000 ∧
      (ToneQueueItem.new fq amp len sr).tone_len = sr * len / 1000 ∧
      (readAll fs req fuel (.silence (SilenceQueueItem.new len sr))).map List.length =
        some (sr * len / 1000).toNat ∧
      (readAll fs req fuel (.tone (ToneQueueItem.new fq amp len sr))).map List.length =
        some (sr * len / 1000).toNat) ∧
    ((8000 : Int) * 300000 / 1000 = 2400000 ∧
      (SilenceQueueItem.new 300000 8000).silence_left = -1894967 ∧
      (QueueItem.silence (SilenceQueueItem.new 300000 8000)).readSamples noFiles 640 =
        .fault .memory ∧
      (∀ fuel, playSilence quietEnv (fuel + 2) 300000 (MsgHandler.new 8000) =
        .fault .memory) ∧
      (ToneQueueItem.new 440 500 300000 8000).tone_len = -1894967 ∧
      ∀ fuel, readAll noFiles 640 fuel (.tone (ToneQueueItem.new 440 500 300000 8000)) =
        none) := by
  constructor
  · intro fs sr len fq amp req fuel h0 h1 h2 hreq hf
    have hc := sample_count_eq sr len h0 h1 h2
    have hp : 0 ≤ sr * len := Int.mul_nonneg h0 h1
    have hgs : (QueueItem.silence (SilenceQueueItem.new len sr)).Generated := by
      simp only [QueueItem.Generated, SilenceQueueItem.new, hc]; omega
    have hgt : (QueueItem.tone (ToneQueueItem.new fq amp len sr)).Generated := by
      simp only [QueueItem.Generated, ToneQueueItem.new, hc, IsInt]; omega
    refine ⟨by simp only [SilenceQueueItem.new, hc], by simp only [ToneQueueItem.new, hc], ?_, ?_⟩
    · rw [readAll_generated fs req hreq fuel _ hgs
        (by simp only [QueueItem.remaining, SilenceQueueItem.new, hc]; exact hf)]
      simp [QueueItem.pendingSamples, SilenceQueueItem.new, hc]
    · rw [readAll_generated fs req hreq fuel _ hgt
        (by simp only [QueueItem.remaining, ToneQueueItem.new, hc, sub_zero]; exact hf)]
      simp [QueueItem.pendingSamples, ToneQueueItem.new, hc, samplesFrom_length]
  · refine ⟨by decide, by decide, by decide, ?_, by decide, ?_⟩
    · intro fuel
      have hs : SilenceQueueItem.new 300000 (MsgHandler.new 8000).sample_rate =
          ⟨300000, -1894967⟩ := by decide
      have hr : (QueueItem.silence ⟨300000, -1894967⟩).readSamples quietEnv.fs
          WRITE_BLOCK_SIZE = .fault .memory := by decide
      simp only [playSilence, hs, addItemToQueue_eq, MsgHandler.new, if_true, List.nil_append]
      rw [playMsg_init_true quietEnv (fuel + 1) _ (.silence ⟨300000, -1894967⟩)
        (.silence ⟨300000, -1894967⟩) [] (by simp) rfl rfl,
        writeSamples_read_fault quietEnv fuel _ _ [] _ rfl hr]
    · exact tone_overflow_never_zero noFiles _ (by decide)

/-! ## A sink that may also fail -/

theorem settled_of_le (q0 q1 q : List QueueItem) (h : Settled q1 q)
    (hc : queueCost q1 ≤ queueCost q0) : Settled q0 q :=
  ⟨h.1, le_trans h.2 hc⟩

theorem errRange_play (env : Env) (herr : ErrRange env) :
    ∀ fuel : Nat, ∀ s : MsgHandler, ¬ 0 < s.nesting_level →
      (∀ it ∈ s.msg_queue, it.Generated) →
      ((playMsg env fuel s = .fault .fuel ∧ fuel < queueCost s.msg_queue) ∨
        ∃ q evs, playMsg env fuel s = .ok { s with msg_queue := q, log := s.log ++ evs } ∧
          Settled s.msg_queue q) ∧
      (∀ it rest, s.msg_queue = it :: rest →
        (writeSamples env fuel s = .fault .fuel ∧
            fuel < it.remaining.toNat + 1 + queueCost rest) ∨
        ∃ q evs, writeSamples env fuel s = .ok { s with msg_queue := q, log := s.log ++ evs } ∧
          Settled (it :: rest) q) := by
  intro fuel
  induction fuel with
  | zero =>
    intro s _ _
    constructor
    · exact Or.inl ⟨by simp [playMsg], queueCost_pos _⟩
    · intro it rest _
      exact Or.inl ⟨by simp [writeSamples], by omega⟩
  | succ fuel ih =>
    intro s hn hg
    constructor
    · cases hq : s.msg_queue with
      | nil =>
        refine Or.inr ⟨[], [.allMsgsWritten], ?_, ?_⟩
        · rw [playMsg_empty env fuel s hn hq]
          cases s; simp only at hq; subst hq; simp [MsgHandler.emit]
        · exact ⟨by simp, le_rfl⟩
      | cons it rest =>
        have hgi : it.Generated := hg it (by rw [hq]; exact List.mem_cons_self _ _)
        rw [playMsg_init_true env fuel s it it rest hn hq (initialize_generated _ it hgi),
          msg_queue_eta s _ hq]
        rcases (ih s hn hg).2 it rest hq with ⟨h1, h2⟩ | h
        · exact Or.inl ⟨h1, by simp only [queueCost]; omega⟩
        · exact Or.inr h
    · intro it rest hq
      have hgi : it.Generated := hg it (by rw [hq]; exact List.mem_cons_self _ _)
      have hgr : ∀ jt ∈ rest, jt.Generated := fun jt hj =>
        hg jt (by rw [hq]; exact List.mem_cons_of_mem _ hj)
      have hrl := remaining_le it hgi
      have hcr : queueCost rest ≤ queueCost (it :: rest) := by simp only [queueCost]; omega
      rcases (remaining_nonneg it hgi).lt_or_eq with hr | hr
      · obtain ⟨buf, r, hread, hrv, hbl, hsplit, hga, hra⟩ := block_read env.fs it hgi hr
        have hr0 : r ≠ 0 := by omega
        have hr1 : r ≠ -1 := by omega
        obtain ⟨hlo, hhi⟩ := herr s.log buf r (by omega)
        by_cases hfail : env.writeAudio s.log buf r = -1
        · rw [writeSamples_write_error env fuel s it _ rest buf r hq hread hr0 hfail]
          rcases (ih { s with msg_queue := rest,
                              log := s.log ++ [.writeAudio buf r (-1), .deleteItem (it.advance r)] }
            hn hgr).1 with ⟨h1, h2⟩ | ⟨q, evs, he, hs⟩
          · exact Or.inl ⟨h1, by simp only at h2; omega⟩
          · refine Or.inr ⟨q, [.writeAudio buf r (-1), .deleteItem (it.advance r)] ++ evs, ?_,
              settled_of_le _ _ _ hs hcr⟩
            rw [he]; simp
        · by_cases hfull : env.writeAudio s.log buf r = r
          · rw [writeSamples_full_write env fuel s it _ rest buf r hq hread hr0 hr1 hfull]
            rcases (ih { s with msg_queue := it.advance r :: rest,
                                log := s.log ++ [.writeAudio buf r r] } hn
              (by
                intro jt hj
                rcases List.mem_cons.mp hj with h | h
                · rw [h]; exact hga
                · exact hgr jt h)).2 (it.advance r) rest rfl with ⟨h1, h2⟩ | ⟨q, evs, he, hs⟩
            · exact Or.inl ⟨h1, by rw [hra] at h2; omega⟩
            · refine Or.inr ⟨q, .writeAudio buf r r :: evs, ?_,
                settled_of_le _ _ _ hs (by simp only [queueCost, hra]; omega)⟩
              rw [he]; simp
          · have hwr : wrapInt (r - env.writeAudio s.log buf r) =
                r - env.writeAudio s.log buf r :=
              wrapInt_eq (by unfold IsInt; omega)
            rw [writeSamples_short_write env fuel s it _ rest buf r _ hq hread hr0 rfl hfail
              hfull, hwr, unreadSamples_advance it hgi r _ (by omega) (by omega) (by omega)]
            generalize env.writeAudio s.log buf r = ret at *
            have hret : r - (r - ret) = ret := by ring
            rw [hret]
            have hret0 : 0 ≤ ret := by omega
            refine Or.inr ⟨_, _, rfl, ?_, ?_⟩
            · intro jt hj
              rcases List.mem_cons.mp hj with h | h
              · rw [h]; exact advance_generated it hgi ret hret0 (by omega)
              · exact hgr jt h
            · simp only [queueCost, advance_remaining it hgi]; omega
      · have hread := readSamples_exhausted env.fs it hgi WRITE_BLOCK_SIZE (by decide) hr.symm
        rw [writeSamples_zero_read env fuel s it _ rest [] hq hread]
        rcases (ih (MsgHandler.emit { s with msg_queue := rest } (.deleteItem it.markExhausted))
          hn hgr).1 with ⟨h1, h2⟩ | ⟨q, evs, he, hs⟩
        · exact Or.inl ⟨h1, by simp only [MsgHandler.emit] at h2; omega⟩
        · refine Or.inr ⟨q, .deleteItem it.markExhausted :: evs, ?_,
            settled_of_le _ _ _ hs hcr⟩
          rw [he]; simp [MsgHandler.emit]

/-- `playMsg` at any nesting level, on a sink that may fail. -/
theorem playMsg_errRange (env : Env) (herr : ErrRange env) (fuel : Nat) (s : MsgHandler)
    (hg : ∀ it ∈ s.msg_queue, it.Generated) :
    (playMsg env fuel s = .fault .fuel ∧ fuel < queueCost s.msg_queue) ∨
    ∃ s', playMsg env fuel s = .ok s' ∧ Settled s.msg_queue s'.msg_queue := by
  by_cases hn : 0 < s.nesting_level
  · cases fuel with
    | zero => exact Or.inl ⟨by simp [playMsg], queueCost_pos _⟩
    | succ fuel => exact Or.inr ⟨_, playMsg_nested env fuel s hn, hg, le_rfl⟩
  · rcases (errRange_play env herr fuel s hn hg).1 with h | ⟨q, evs, he, hs⟩
    · exact Or.inl h
    · exact Or.inr ⟨_, he, hs⟩

theorem queueCost_append (a b : List QueueItem) :
    queueCost (a ++ b) + 1 = queueCost a + queueCost b := by
  induction a with
  | nil => simp only [List.nil_append, queueCost]; omega
  | cons x a ih =>
    show queueCost (x :: (a ++ b)) + 1 = queueCost (x :: a) + queueCost b
    simp only [queueCost]; omega

theorem call_level (env : Env) (fuel : Nat) (c : Call) (s s1 : MsgHandler)
    (hr : call env fuel c s = .ok s1) :
    s1.nesting_level = c.levelAfter s.nesting_level ∧ s1.sample_rate = s.sample_rate := by
  have key : ∀ t : MsgHandler, playMsg env fuel t = .ok s1 →
      s1.nesting_level = t.nesting_level ∧ s1.sample_rate = t.sample_rate := by
    intro t h
    have := (playMsg_writeSamples_preserve env fuel t s1).1 h
    exact ⟨this.1, this.2.1⟩
  have add : ∀ item, addItemToQueue env fuel item s = .ok s1 →
      s1.nesting_level = s.nesting_level ∧ s1.sample_rate = s.sample_rate := by
    intro item h
    rw [addItemToQueue_eq] at h
    split at h
    · have := key _ h
      exact this
    · cases h; exact ⟨rfl, rfl⟩
  cases c with
  | playFile path => exact add _ hr
  | playSilence length => exact add _ hr
  | playTone fq amp length => exact add _ hr
  | writeBufferFull is_full =>
    simp only [call, writeBufferFull] at hr
    split at hr
    · exact key _ hr
    · cases hr; exact ⟨rfl, rfl⟩
  | clear => simp only [call] at hr; cases hr; exact ⟨rfl, rfl⟩
  | begin =>
    simp only [call, Result.ok.injEq] at hr
    subst hr
    simp only [begin, Call.levelAfter]
    split <;> exact ⟨rfl, rfl⟩
  | end_ =>
    simp only [call, end_] at hr
    simp only [Call.levelAfter]
    split at hr
    · cases hr
    · split at hr
      · split at hr
        · exact key _ hr
        · cases hr; exact ⟨rfl, rfl⟩
      · cases hr; exact ⟨rfl, rfl⟩

/-- One public call on a queue of Silence and Tone items, on a sink that may
fail: it runs out of budget below the budget of the queue with the new item,
or it returns with such a queue again. -/
theorem call_errRange (env : Env) (herr : ErrRange env) (fuel : Nat) (c : Call)
    (s : MsgHandler) (hg : ∀ it ∈ s.msg_queue, it.Generated)
    (hc : c.Synth s.sample_rate = true) (he : c = Call.end_ → 0 < s.nesting_level) :
    (call env fuel c s = .fault .fuel ∧
        fuel < queueCost (s.msg_queue ++ (c.newItem s.sample_rate).toList)) ∨
    ∃ s1, call env fuel c s = .ok s1 ∧
      Settled (s.msg_queue ++ (c.newItem s.sample_rate).toList) s1.msg_queue := by
  have same : ∀ t : MsgHandler, t.msg_queue = s.msg_queue →
      (c.newItem s.sample_rate).toList = [] →
      ((playMsg env fuel t = .fault .fuel ∧
          fuel < queueCost (s.msg_queue ++ (c.newItem s.sample_rate).toList)) ∨
        ∃ s1, playMsg env fuel t = .ok s1 ∧
          Settled (s.msg_queue ++ (c.newItem s.sample_rate).toList) s1.msg_queue) ∧
      Settled (s.msg_queue ++ (c.newItem s.sample_rate).toList) t.msg_queue := by
    intro t ht hnil
    rw [hnil, List.append_nil, ← ht]
    exact ⟨playMsg_errRange env herr fuel t (by rw [ht]; exact hg), by rw [ht]; exact hg, le_rfl⟩
  have add : ∀ item, c.newItem s.sample_rate = some item →
      (addItemToQueue env fuel item s = .fault .fuel ∧
          fuel < queueCost (s.msg_queue ++ (c.newItem s.sample_rate).toList)) ∨
        ∃ s1, addItemToQueue env fuel item s = .ok s1 ∧
          Settled (s.msg_queue ++ (c.newItem s.sample_rate).toList) s1.msg_queue := by
    intro item hi
    have hgi : item.Generated := by
      simp only [Call.Synth, hi, decide_eq_true_eq] at hc
      exact hc
    have hgq : ∀ it ∈ s.msg_queue ++ [item], it.Generated := by
      intro it hit
      rcases List.mem_append.mp hit with h | h
      · exact hg it h
      · simp only [List.mem_singleton] at h; rw [h]; exact hgi
    rw [hi, Option.toList_some, addItemToQueue_eq]
    split
    · exact playMsg_errRange env herr fuel { s with msg_queue := s.msg_queue ++ [item] } hgq
    · exact Or.inr ⟨_, rfl, hgq, le_rfl⟩
  cases c with
  | playFile path => simp [Call.Synth, Call.newItem, QueueItem.Generated] at hc
  | playSilence length => exact add _ rfl
  | playTone fq amp length => exact add _ rfl
  | writeBufferFull is_full =>
    obtain ⟨h1, h2⟩ := same s rfl rfl
    simp only [call, writeBufferFull]
    split
    · exact h1
    · exact Or.inr ⟨s, rfl, h2⟩
  | clear =>
    refine Or.inr ⟨clear s, rfl, ?_, ?_⟩
    · simp [clear, MsgHandler.emit]
    · simp only [clear, MsgHandler.emit, queueCost]
      exact queueCost_pos _
  | begin =>
    refine Or.inr ⟨begin s, rfl, ?_⟩
    have hq : (begin s).msg_queue = s.msg_queue := by simp only [begin]; split <;> rfl
    exact (same (begin s) hq rfl).2
  | end_ =>
    have hpos := he rfl
    simp only [call, end_]
    rw [if_neg (by omega)]
    split
    · split
      · exact (same { s with nesting_level := wrapInt (s.nesting_level - 1),
                             pending_play_next := false } rfl rfl).1
      · exact Or.inr ⟨_, rfl, (same s rfl rfl).2⟩
    · exact Or.inr ⟨_, rfl, (same s rfl rfl).2⟩

theorem runCalls_errRange (env : Env) (herr : ErrRange env) (fuel : Nat) :
    ∀ (cs : List Call) (s : MsgHandler), (∀ it ∈ s.msg_queue, it.Generated) →
      (∀ c ∈ cs, c.Synth s.sample_rate = true) → endsGuardedFrom s.nesting_level cs = true →
      (runCalls env fuel cs s = .fault .fuel ∧
          fuel < queueCost (s.msg_queue ++ cs.filterMap (Call.newItem s.sample_rate))) ∨
      ∃ s', runCalls env fuel cs s = .ok s' ∧
        Settled (s.msg_queue ++ cs.filterMap (Call.newItem s.sample_rate)) s'.msg_queue := by
  intro cs
  induction cs with
  | nil =>
    intro s hg _ _
    exact Or.inr ⟨s, rfl, by simpa using hg, by simp⟩
  | cons c cs ih =>
    intro s hg hcs hend
    simp only [endsGuardedFrom, Bool.and_eq_true, Bool.or_eq_true, decide_eq_true_eq] at hend
    obtain ⟨hend1, hend2⟩ := hend
    have hfm : (c :: cs).filterMap (Call.newItem s.sample_rate) =
        (c.newItem s.sample_rate).toList ++ cs.filterMap (Call.newItem s.sample_rate) := by
      cases h : c.newItem s.sample_rate <;> simp [List.filterMap_cons, h]
    have happ := queueCost_append (s.msg_queue ++ (c.newItem s.sample_rate).toList)
      (cs.filterMap (Call.newItem s.sample_rate))
    have hpos := queueCost_pos (cs.filterMap (Call.newItem s.sample_rate))
    rw [hfm, ← List.append_assoc]
    simp only [runCalls]
    rcases call_errRange env herr fuel c s hg (hcs c (List.mem_cons_self _ _))
      (fun h => by rcases hend1 with h1 | h1; exact absurd h h1; exact h1) with
      ⟨h1, h2⟩ | ⟨s1, h1, hs1⟩
    · rw [h1]
      exact Or.inl ⟨rfl, by omega⟩
    · rw [h1]
      obtain ⟨hl, hsr⟩ := call_level env fuel c s s1 h1
      have happ1 := queueCost_append s1.msg_queue (cs.filterMap (Call.newItem s.sample_rate))
      rcases ih s1 hs1.1 (by rw [hsr]; exact fun d hd => hcs d (List.mem_cons_of_mem _ hd))
        (by rw [hl]; exact hend2) with ⟨h3, h4⟩ | ⟨s', h3, hs'⟩
      · rw [hsr] at h4
        have := hs1.2
        exact Or.inl ⟨h3, by omega⟩
      · rw [hsr] at hs'
        have := hs1.2
        exact Or.inr ⟨s', h3, hs'.1, by have := hs'.2; omega⟩

/-! ## Safety of the Silence count, for any queue -/

theorem initialize_safe (fs : FileSystem) (it it1 : QueueItem) (b : Bool)
    (h : QueueItem.initialize fs it = (b, it1)) (hs : it.CountOk) :
    it1.CountOk ∧ (b = true → it1.IsOpen) := by
  cases it with
  | silence i =>
    simp only [ QueueItem.initialize, Prod.mk.injEq] at h
    obtain ⟨_, rfl⟩ := h
    exact ⟨hs, fun _ => trivial⟩
  | tone i =>
    simp only [ QueueItem.initialize, Prod.mk.injEq] at h
    obtain ⟨_, rfl⟩ := h
    exact ⟨trivial, fun _ => trivial⟩
  | file j =>
    simp only [ QueueItem.initialize, FileQueueItem.initialize] at h
    split_ifs at h with h1 h2
    · simp only [Prod.mk.injEq] at h
      obtain ⟨rfl, rfl⟩ := h
      exact ⟨trivial, fun hb => by cases hb⟩
    · simp only [Prod.mk.injEq] at h
      obtain ⟨_, rfl⟩ := h
      exact ⟨trivial, fun _ => h2⟩
    · simp only [Prod.mk.injEq] at h
      obtain ⟨_, rfl⟩ := h
      exact ⟨trivial, fun _ => h1⟩

/-- A block read from the queue head: it returns, and a Silence item keeps a
non-negative count, also after the samples the sink did not take are given
back. -/
theorem read_safe (fs : FileSystem) (it : QueueItem) (hs : it.CountOk) (ho : it.IsOpen) :
    ∃ it1 buf r, it.readSamples fs WRITE_BLOCK_SIZE = .ok (it1, buf, r) ∧
      (r ≠ 0 → it1.CountOk ∧ it1.IsOpen ∧
        ∀ w, (0 ≤ r → -1 ≤ w ∧ w ≤ r) → w ≠ -1 →
          (it1.unreadSamples (wrapInt (r - w))).CountOk) := by
  have hw : WRITE_BLOCK_SIZE = 640 := by decide
  cases it with
  | silence i =>
    obtain ⟨h0, h1⟩ := hs
    have hne : ¬ i.silence_left = -1 := by omega
    have hm : ¬ min 640 i.silence_left < 0 := by omega
    by_cases hz : i.silence_left = 0
    · refine ⟨.silence { i with silence_left := -1 },
        List.replicate (min 640 i.silence_left).toNat Sample.zero, min 640 i.silence_left, ?_, ?_⟩
      · simp only [QueueItem.readSamples, SilenceQueueItem.readSamples, hw, if_neg hne,
          if_neg hm, if_pos hz]
      · intro hr; omega
    · refine ⟨.silence { i with silence_left := wrapInt (i.silence_left - min 640 i.silence_left) },
        List.replicate (min 640 i.silence_left).toNat Sample.zero, min 640 i.silence_left, ?_, ?_⟩
      · simp only [QueueItem.readSamples, SilenceQueueItem.readSamples, hw, if_neg hne,
          if_neg hm, if_neg hz]
      · intro _
        have e1 : wrapInt (i.silence_left - min 640 i.silence_left) =
            i.silence_left - min 640 i.silence_left := wrapInt_eq (by unfold IsInt; omega)
        refine ⟨?_, trivial, ?_⟩
        · simp only [QueueItem.CountOk, e1]; omega
        · intro w hwr hw1
          have hb := hwr (by omega)
          have e2 : wrapInt (min 640 i.silence_left - w) = min 640 i.silence_left - w :=
            wrapInt_eq (by unfold IsInt; omega)
          have e3 : wrapInt (i.silence_left - min 640 i.silence_left +
              (min 640 i.silence_left - w)) = i.silence_left - w := by
            rw [wrapInt_eq (by unfold IsInt; omega)]; ring
          simp only [QueueItem.unreadSamples, SilenceQueueItem.unreadSamples, QueueItem.CountOk,
            e1, e2, e3]
          omega
  | tone i =>
    refine ⟨_, _, _, rfl, ?_⟩
    intro _
    exact ⟨trivial, trivial, fun _ _ _ => trivial⟩
  | file j =>
    have hj : ¬ j.file = -1 := ho
    refine ⟨_, _, _, by
      simp only [QueueItem.readSamples, FileQueueItem.readSamples, if_neg hj]; rfl, ?_⟩
    intro _
    exact ⟨trivial, hj, fun _ _ _ => trivial⟩

theorem countOk_cons (it : QueueItem) (rest : List QueueItem) (h1 : it.CountOk)
    (h2 : ∀ jt ∈ rest, jt.CountOk) : ∀ jt ∈ it :: rest, jt.CountOk := by
  intro jt hj
  rcases List.mem_cons.mp hj with h | h
  · rw [h]; exact h1
  · exact h2 jt h

/-- On a sink that returns `-1` or at most the offered count, `playMsg` and
`writeSamples` never stop at an assertion or a memory fault and leave every
Silence item with a non-negative count, whatever else the queue holds. -/
theorem safe_play (env : Env) (herr : ErrRange env) :
    ∀ fuel : Nat, ∀ s : MsgHandler, (∀ it ∈ s.msg_queue, it.CountOk) →
      SafeResult (playMsg env fuel s) ∧
      (∀ it rest, s.msg_queue = it :: rest → it.IsOpen →
        SafeResult (writeSamples env fuel s)) := by
  intro fuel
  induction fuel with
  | zero =>
    intro s _
    exact ⟨by simp [playMsg, SafeResult], fun _ _ _ _ => by simp [writeSamples, SafeResult]⟩
  | succ fuel ih =>
    intro s hg
    constructor
    · by_cases hn : 0 < s.nesting_level
      · rw [playMsg_nested env fuel s hn]
        exact hg
      · cases hq : s.msg_queue with
        | nil =>
          rw [playMsg_empty env fuel s hn hq]
          intro it hit
          simp only [MsgHandler.emit, hq] at hit
          cases hit
        | cons it rest =>
          have hgi : it.CountOk := hg it (by rw [hq]; exact List.mem_cons_self _ _)
          have hgr : ∀ jt ∈ rest, jt.CountOk := fun jt hj =>
            hg jt (by rw [hq]; exact List.mem_cons_of_mem _ hj)
          cases hinit : QueueItem.initialize env.fs it with
          | mk b it1 =>
            obtain ⟨hc1, ho1⟩ := initialize_safe env.fs it it1 b hinit hgi
            cases b with
            | false =>
              rw [playMsg_init_false env fuel s it it1 rest hn hq hinit]
              exact (ih _ hgr).1
            | true =>
              rw [playMsg_init_true env fuel s it it1 rest hn hq hinit]
              exact (ih { s with msg_queue := it1 :: rest } (countOk_cons it1 rest hc1 hgr)).2
                it1 rest rfl (ho1 rfl)
    · intro it rest hq ho
      have hgi : it.CountOk := hg it (by rw [hq]; exact List.mem_cons_self _ _)
      have hgr : ∀ jt ∈ rest, jt.CountOk := fun jt hj =>
        hg jt (by rw [hq]; exact List.mem_cons_of_mem _ hj)
      obtain ⟨it1, buf, r, hread, hnext⟩ := read_safe env.fs it hgi ho
      by_cases hr0 : r = 0
      · subst hr0
        rw [writeSamples_zero_read env fuel s it it1 rest buf hq hread]
        exact (ih _ hgr).1
      · obtain ⟨hc1, ho1, hun⟩ := hnext hr0
        by_cases hfail : env.writeAudio s.log buf r = -1
        · rw [writeSamples_write_error env fuel s it it1 rest buf r hq hread hr0 hfail]
          exact (ih { s with msg_queue := rest,
                             log := s.log ++ [.writeAudio buf r (-1), .deleteItem it1] } hgr).1
        · by_cases hfull : env.writeAudio s.log buf r = r
          · rw [writeSamples_full_write env fuel s it it1 rest buf r hq hread hr0
              (by rw [← hfull]; exact hfail) hfull]
            exact (ih { s with msg_queue := it1 :: rest,
                               log := s.log ++ [.writeAudio buf r r] }
              (countOk_cons it1 rest hc1 hgr)).2 it1 rest rfl ho1
          · rw [writeSamples_short_write env fuel s it it1 rest buf r _ hq hread hr0 rfl hfail
              hfull]
            exact countOk_cons _ rest (hun _ (herr s.log buf r) hfail) hgr

/-- One public call keeps every Silence count non-negative and stops at no
assertion, provided `end()` is called above level 0 and `playSilence` builds
a non-negative count. -/
theorem call_safe (env : Env) (herr : ErrRange env) (fuel : Nat) (c : Call) (s : MsgHandler)
    (hg : ∀ it ∈ s.msg_queue, it.CountOk) (hc : c.SilenceCountOk s.sample_rate = true)
    (he : c = Call.end_ → 0 < s.nesting_level) : SafeResult (call env fuel c s) := by
  have add : ∀ item : QueueItem, item.CountOk →
      SafeResult (addItemToQueue env fuel item s) := by
    intro item hi
    have hgq : ∀ it ∈ s.msg_queue ++ [item], it.CountOk := by
      intro it hit
      rcases List.mem_append.mp hit with h | h
      · exact hg it h
      · simp only [List.mem_singleton] at h; rw [h]; exact hi
    rw [addItemToQueue_eq]
    split
    · exact (safe_play env herr fuel { s with msg_queue := s.msg_queue ++ [item] } hgq).1
    · exact hgq
  cases c with
  | playFile path => exact add _ trivial
  | playSilence length =>
    refine add _ ?_
    simp only [Call.SilenceCountOk, decide_eq_true_eq] at hc
    refine ⟨hc, ?_⟩
    simp only [SilenceQueueItem.new, wrapInt]
    omega
  | playTone fq amp length => exact add _ trivial
  | writeBufferFull is_full =>
    simp only [call, writeBufferFull]
    split
    · exact (safe_play env herr fuel s hg).1
    · exact hg
  | clear =>
    intro it hit
    simp [clear, MsgHandler.emit] at hit
  | begin =>
    have hq : (begin s).msg_queue = s.msg_queue := by simp only [begin]; split <;> rfl
    intro it hit
    simp only [hq] at hit
    exact hg it hit
  | end_ =>
    have hpos := he rfl
    simp only [call, end_]
    rw [if_neg (by omega)]
    split
    · split
      · exact (safe_play env herr fuel
          { s with nesting_level := wrapInt (s.nesting_level - 1),
                   pending_play_next := false } hg).1
      · exact hg
    · exact hg

theorem runCalls_safe (env : Env) (herr : ErrRange env) (fuel : Nat) :
    ∀ (cs : List Call) (s : MsgHandler), (∀ it ∈ s.msg_queue, it.CountOk) →
      (∀ c ∈ cs, c.SilenceCountOk s.sample_rate = true) →
      endsGuardedFrom s.nesting_level cs = true → SafeResult (runCalls env fuel cs s) := by
  intro cs
  induction cs with
  | nil => intro s hg _ _; exact hg
  | cons c cs ih =>
    intro s hg hcs hend
    simp only [endsGuardedFrom, Bool.and_eq_true, Bool.or_eq_true, decide_eq_true_eq] at hend
    obtain ⟨hend1, hend2⟩ := hend
    have h1 := call_safe env herr fuel c s hg (hcs c (List.mem_cons_self _ _))
      (fun h => by rcases hend1 with h1 | h1; exact absurd h h1; exact h1)
    simp only [runCalls]
    cases hcall : call env fuel c s with
    | fault f =>
      rw [hcall] at h1
      exact h1
    | ok s1 =>
      rw [hcall] at h1
      obtain ⟨hl, hsr⟩ := call_level env fuel c s s1 hcall
      exact ih s1 h1 (by rw [hsr]; exact fun d hd => hcs d (List.mem_cons_of_mem _ hd))
        (by rw [hl]; exact hend2)

/-! ## Claims about the exhaustion mark and termination -/

/-- C19: on a handler whose queued Silence items hold non-negative counts
(whatever Tone and File items the queue holds besides), with a sink that
returns a value between -1 and the offered count, for every sequence of public
calls in which `playSilence` builds a non-negative count and `end()` is only
called above level 0, and every step budget: the run never stops at an
assertion or a memory fault, so `assert(silence_left != -1)` holds at every
read; every Silence item left in the queue has `silence_left >= 0`, also after
`writeSamples` entered with any opened head item; on a queue of Silence and
Tone items the run returns within the budget `queueCost`; and the read of a
Silence item that returns 0 and stores `-1` is followed at once by the
deletion of that item and `playMsg` on the rest. -/
theorem C19_silence_assertion_never_fails (env : Env) (fuel : Nat) (s : MsgHandler)
    (cs : List Call) (herr : ErrRange env) (hg : ∀ it ∈ s.msg_queue, it.CountOk)
    (hcs : ∀ c ∈ cs, c.SilenceCountOk s.sample_rate = true)
    (hend : endsGuardedFrom s.nesting_level cs = true) :
    runCalls env fuel cs s ≠ .fault .assertion ∧
    runCalls env fuel cs s ≠ .fault .memory ∧
    (∀ s', runCalls env fuel cs s = .ok s' →
      ∀ i, QueueItem.silence i ∈ s'.msg_queue → 0 ≤ i.silence_left) ∧
    (∀ (t : MsgHandler) (it : QueueItem) (rest : List QueueItem) (k : Nat),
      t.msg_queue = it :: rest → (∀ jt ∈ t.msg_queue, jt.CountOk) → it.IsOpen →
      writeSamples env k t ≠ .fault .assertion ∧
      ∀ t', writeSamples env k t = .ok t' →
        ∀ i, QueueItem.silence i ∈ t'.msg_queue → 0 ≤ i.silence_left) ∧
    ((∀ it ∈ s.msg_queue, it.Generated) → (∀ c ∈ cs, c.Synth s.sample_rate = true) →
      queueCost (s.msg_queue ++ cs.filterMap (Call.newItem s.sample_rate)) ≤ fuel →
      ∃ s', runCalls env fuel cs s = .ok s') ∧
    (∀ (t : MsgHandler) (i : SilenceQueueItem) (rest : List QueueItem) (k : Nat),
      t.msg_queue = .silence i :: rest → i.silence_left = 0 →
      (QueueItem.silence i).readSamples env.fs WRITE_BLOCK_SIZE =
        .ok (.silence { i with silence_left := -1 }, [], 0) ∧
      writeSamples env (k + 1) t =
        playMsg env k
          { t with msg_queue := rest,
                   log := t.log ++ [.deleteItem (.silence { i with silence_left := -1 })] }) := by
  have h := runCalls_safe env herr fuel cs s hg hcs hend
  refine ⟨?_, ?_, ?_, ?_, ?_, ?_⟩
  · intro hc
    rw [hc] at h
    cases h
  · intro hc
    rw [hc] at h
    cases h
  · intro s' hs' i hi
    rw [hs'] at h
    exact (h _ hi).1
  · intro t it rest k hq hgt ho
    have hw := (safe_play env herr k t hgt).2 it rest hq ho
    constructor
    · intro hc
      rw [hc] at hw
      cases hw
    · intro t' ht' i hi
      rw [ht'] at hw
      exact (hw _ hi).1
  · intro hgen hsyn hf
    rcases runCalls_errRange env herr fuel cs s hgen hsyn hend with ⟨_, h2⟩ | ⟨s', h1, _⟩
    · omega
    · exact ⟨s', h1⟩
  · intro t i rest k hq hz
    have hread := readSamples_exhausted env.fs (.silence i) (by
      simp only [QueueItem.Generated, hz]; omega) WRITE_BLOCK_SIZE (by decide) hz
    exact ⟨hread, writeSamples_zero_read env k t _ _ rest [] hq hread⟩

/-- Witness of C19: a file, a silence and a tone on a sink that takes a block,
then fails, then takes halves. -/
theorem C19_silence_assertion_never_fails_witness :
    runCalls ⟨oneFile, moodySink⟩ 2000
        [.playFile "hello.raw", .playSilence 100, .writeBufferFull false, .begin,
          .playTone 440 500 20, .end_, .writeBufferFull false]
        (MsgHandler.new 8000) ≠ .fault .assertion :=
  (C19_silence_assertion_never_fails ⟨oneFile, moodySink⟩ 2000 (MsgHandler.new 8000)
    [.playFile "hello.raw", .playSilence 100, .writeBufferFull false, .begin,
      .playTone 440 500 20, .end_, .writeBufferFull false]
    (by
      intro log buf c hc
      simp only [moodySink]
      split
      · omega
      · split <;> omega)
    (by decide) (by decide) (by decide)).1

/-- C20: for every queue of Silence and Tone items with non-negative counts and
every sink that returns a value between -1 and the offered count, `playMsg`
returns within the step budget `queueCost` (one step per `playMsg` call, one
per remaining sample, one per read that returns 0), leaving such a queue of no
larger budget.  A pass of the write loop over a head item with samples left
reads `r >= 1` of them; if the sink takes all `r` the loop goes on with the
item's remaining count lowered by `r`; and `playMsg` is called again only after
the head item has been popped. -/
theorem C20_playMsg_terminates (env : Env) (fuel : Nat) (s : MsgHandler)
    (herr : ErrRange env) (hg : ∀ it ∈ s.msg_queue, it.Generated)
    (hf : queueCost s.msg_queue ≤ fuel) :
    (∃ s', playMsg env fuel s = .ok s' ∧ (∀ it ∈ s'.msg_queue, it.Generated) ∧
      queueCost s'.msg_queue ≤ queueCost s.msg_queue) ∧
    (∀ (t : MsgHandler) (it : QueueItem) (rest : List QueueItem) (k : Nat),
      t.msg_queue = it :: rest → it.Generated → 0 < it.remaining →
      ∃ buf r, it.readSamples env.fs WRITE_BLOCK_SIZE = .ok (it.advance r, buf, r) ∧
        1 ≤ r ∧ (it.advance r).remaining = it.remaining - r ∧
        (env.writeAudio t.log buf r = r →
          writeSamples env (k + 1) t =
            writeSamples env k
              { t with msg_queue := it.advance r :: rest,
                       log := t.log ++ [.writeAudio buf r r] }) ∧
        (env.writeAudio t.log buf r = -1 →
          writeSamples env (k + 1) t =
            playMsg env k
              { t with msg_queue := rest,
                       log := t.log ++ [.writeAudio buf r (-1), .deleteItem (it.advance r)] })) ∧
    (∀ (t : MsgHandler) (it : QueueItem) (rest : List QueueItem) (k : Nat),
      t.msg_queue = it :: rest → it.Generated → it.remaining = 0 →
      writeSamples env (k + 1) t =
        playMsg env k
          { t with msg_queue := rest, log := t.log ++ [.deleteItem it.markExhausted] }) := by
  refine ⟨?_, ?_, ?_⟩
  · rcases playMsg_errRange env herr fuel s hg with ⟨_, h2⟩ | ⟨s', h1, h2⟩
    · omega
    · exact ⟨s', h1, h2.1, h2.2⟩
  · intro t it rest k hq hgi hr
    obtain ⟨buf, r, hread, hrv, hbl, hsplit, hga, hra⟩ := block_read env.fs it hgi hr
    refine ⟨buf, r, hread, by omega, hra, ?_, ?_⟩
    · intro hw
      exact writeSamples_full_write env k t it _ rest buf r hq hread (by omega) (by omega) hw
    · intro hw
      exact writeSamples_write_error env k t it _ rest buf r hq hread (by omega) hw
  · intro t it rest k hq hgi hr
    have hread := readSamples_exhausted env.fs it hgi WRITE_BLOCK_SIZE (by decide) hr
    exact writeSamples_zero_read env k t it _ rest [] hq hread

/-- Witness of C20: two items on the sink that takes a block, fails, then takes
halves. -/
theorem C20_playMsg_terminates_witness :
    ∃ s', playMsg ⟨noFiles, moodySink⟩ 1000
        { MsgHandler.new 8000 with
          msg_queue := [.silence ⟨100, 800⟩, .tone ⟨440, 500, 160, 0, 8000⟩] } = .ok s' ∧
      (∀ it ∈ s'.msg_queue, it.Generated) ∧
      queueCost s'.msg_queue ≤
        queueCost ({ MsgHandler.new 8000 with
          msg_queue := [.silence ⟨100, 800⟩, .tone ⟨440, 500, 160, 0, 8000⟩] }).msg_queue :=
  (C20_playMsg_terminates ⟨noFiles, moodySink⟩ 1000
    { MsgHandler.new 8000 with
      msg_queue := [.silence ⟨100, 800⟩, .tone ⟨440, 500, 160, 0, 8000⟩] }
    (by
      intro log buf c hc
      simp only [moodySink]
      split
      · omega
      · split <;> omega)
    (by decide) (by decide)).1

end Svx
